import Mathlib

/-!
Verification of the Bencodex TypeScript library (planetarium/bencodex.js).

This file gives a shallow embedding of the library's core modules
(`src/utils.ts`, `src/types.ts`, `src/dict.ts`, `src/encoder.ts`,
`src/decoder.ts`) and proves properties of the embedded code.

Modelling conventions:

* A JavaScript `Uint8Array` is a `List Nat` of octets (`Bytes`); a
  JavaScript string is a `List Nat` of UTF-16 code units (`Str`).
* Platform primitives consumed by the source (`TextEncoder`,
  `TextDecoder`, `Blob([text]).size`, the standard base64 codec) are
  embedded with their WHATWG / RFC 4648 semantics.
* In-place buffer mutation is modelled by returning the updated buffer;
  `subarray` views are modelled by `take`/`drop` splits.
* Recursive functions whose call graph is not structural (the encoder
  recurses through a sorted copy of dictionary entries, the decoder
  through moving offsets) take an explicit fuel argument; fuel
  exhaustion yields `none` and the exported wrappers supply fuel that
  is proved sufficient, so the fueled form is observationally the
  source function.
* Thrown exceptions are modelled with `Except`.
-/

set_option maxRecDepth 100000

namespace Bencodex

/-- Octet sequence standing for a `Uint8Array`. -/
abbrev Bytes := List Nat

/-- UTF-16 code-unit sequence standing for a JavaScript string. -/
abbrev Str := List Nat

/-! ### Byte constants

Modelled from the spec: `src/consts.ts` is not among the provided
source files; the byte values below are fixed bit-exactly by the
spec's wire-format table (`n`, `t`, `f`, `i … e`, `<len> : …`,
`u<len>:…`, `l … e`, `d … e`, minus sign `-`). The names end in
`Byte` purely for namespacing. -/

def nullAtomByte : Nat := 0x6e
def trueAtomByte : Nat := 0x74
def falseAtomByte : Nat := 0x66
def integerPrefixByte : Nat := 0x69
def integerSuffixByte : Nat := 0x65
def integerMinusSignByte : Nat := 0x2d
def listPrefixByte : Nat := 0x6c
def listSuffixByte : Nat := 0x65
def dictionaryPrefixByte : Nat := 0x64
def dictionarySuffixByte : Nat := 0x65
def textPrefixByte : Nat := 0x75
def textLengthDelimiterByte : Nat := 0x3a
def binaryLengthDelimiterByte : Nat := 0x3a

/-! ### Decimal rendering

`BigInt.prototype.toString()` / `Number.prototype.toString()` render
the minimal decimal representation.  The fueled helper is structural
(one fuel unit per emitted digit); `n + 1` fuel always suffices. -/

/-- Fueled digit emitter: ASCII decimal digits of `n`, most significant
first.  Runs out of fuel only below the `n + 1` budget supplied by
`natToDecBytes`. -/
def natToDecAux : Nat → Nat → Bytes
  | 0, _ => []
  | fuel + 1, n =>
    if n < 10 then [0x30 + n]
    else natToDecAux fuel (n / 10) ++ [0x30 + n % 10]

/-- ASCII decimal representation of a natural number (e.g. `toString()`
of a non-negative integer). -/
def natToDecBytes (n : Nat) : Bytes := natToDecAux (n + 1) n

/-- ASCII decimal representation of a `bigint`, with a leading `-` for
negative values (`BigInt.prototype.toString()`). -/
def intToDecBytes (i : Int) : Bytes :=
  if i < 0 then integerMinusSignByte :: natToDecBytes i.natAbs
  else natToDecBytes i.natAbs

/-- Result record of `decodeAsciiNaturalNumber` (from `src/utils.ts`).
The JavaScript source offers a float-valued and a bigint-valued
variant computing the same digits; both are represented exactly by a
`Nat`. -/
structure NaturalNumberDecodingState where
  success : Bool
  read : Nat
  value : Nat
  deriving Repr, DecidableEq

/-- Digit-consuming loop of `decodeAsciiNaturalNumber`: returns the
number of ASCII digits read and the accumulated value. -/
def decodeAsciiNaturalNumberAux : Bytes → Nat → Nat × Nat
  | [], acc => (0, acc)
  | b :: rest, acc =>
    if 0x30 ≤ b ∧ b ≤ 0x39 then
      let r := decodeAsciiNaturalNumberAux rest (acc * 10 + (b - 0x30))
      (r.1 + 1, r.2)
    else (0, acc)

/-- Embedding of `decodeAsciiNaturalNumber` from `src/utils.ts`: greedy
parse of a leading run of ASCII digits; failure (with `read = 0`) iff
no digit is present. -/
def decodeAsciiNaturalNumber (buffer : Bytes) : NaturalNumberDecodingState :=
  let r := decodeAsciiNaturalNumberAux buffer 0
  if r.1 < 1 then ⟨false, 0, 0⟩ else ⟨true, r.1, r.2⟩

/-! ### UTF-8 transcoding (platform `TextEncoder` / `TextDecoder`)

The source uses the WHATWG encoder (unpaired surrogates become
U+FFFD) and the WHATWG non-fatal UTF-8 decoder (malformed input
becomes U+FFFD, consuming the maximal subpart). -/

/-- UTF-8 bytes of one Unicode scalar value. -/
def utf8EncodeScalar (c : Nat) : Bytes :=
  if c < 0x80 then [c]
  else if c < 0x800 then [0xc0 + c / 64, 0x80 + c % 64]
  else if c < 0x10000 then
    [0xe0 + c / 4096, 0x80 + (c / 64) % 64, 0x80 + c % 64]
  else
    [0xf0 + c / 0x40000, 0x80 + (c / 4096) % 64, 0x80 + (c / 64) % 64,
      0x80 + c % 64]

/-- WHATWG `TextEncoder.encode` on a UTF-16 code-unit sequence: paired
surrogates combine into one astral scalar, unpaired surrogates encode
as U+FFFD. -/
def textEncoderEncode : Str → Bytes
  | [] => []
  | u :: rest =>
    if u < 0xd800 ∨ 0xdfff < u then utf8EncodeScalar u ++ textEncoderEncode rest
    else if u ≤ 0xdbff then
      match rest with
      | l :: rest2 =>
        if 0xdc00 ≤ l ∧ l ≤ 0xdfff then
          utf8EncodeScalar (0x10000 + (u - 0xd800) * 0x400 + (l - 0xdc00)) ++
            textEncoderEncode rest2
        else utf8EncodeScalar 0xfffd ++ textEncoderEncode (l :: rest2)
      | [] => utf8EncodeScalar 0xfffd
    else utf8EncodeScalar 0xfffd ++ textEncoderEncode rest

/-- WHATWG `TextEncoder.encodeInto` against a capacity: converts whole
code points only while their UTF-8 bytes fit, returning the number of
code units read and the bytes written. -/
def textEncoderEncodeInto : Str → Nat → Nat × Bytes
  | [], _ => (0, [])
  | [u], cap =>
    if u < 0xd800 ∨ 0xdfff < u then
      if (utf8EncodeScalar u).length ≤ cap then (1, utf8EncodeScalar u)
      else (0, [])
    else
      if (utf8EncodeScalar 0xfffd).length ≤ cap then (1, utf8EncodeScalar 0xfffd)
      else (0, [])
  | u :: l :: rest2, cap =>
    if u < 0xd800 ∨ 0xdfff < u then
      if (utf8EncodeScalar u).length ≤ cap then
        let r := textEncoderEncodeInto (l :: rest2) (cap - (utf8EncodeScalar u).length)
        (1 + r.1, utf8EncodeScalar u ++ r.2)
      else (0, [])
    else if u ≤ 0xdbff then
      if 0xdc00 ≤ l ∧ l ≤ 0xdfff then
        let s := 0x10000 + (u - 0xd800) * 0x400 + (l - 0xdc00)
        if (utf8EncodeScalar s).length ≤ cap then
          let r := textEncoderEncodeInto rest2 (cap - (utf8EncodeScalar s).length)
          (2 + r.1, utf8EncodeScalar s ++ r.2)
        else (0, [])
      else
        if (utf8EncodeScalar 0xfffd).length ≤ cap then
          let r := textEncoderEncodeInto (l :: rest2) (cap - (utf8EncodeScalar 0xfffd).length)
          (1 + r.1, utf8EncodeScalar 0xfffd ++ r.2)
        else (0, [])
    else
      if (utf8EncodeScalar 0xfffd).length ≤ cap then
        let r := textEncoderEncodeInto (l :: rest2) (cap - (utf8EncodeScalar 0xfffd).length)
        (1 + r.1, utf8EncodeScalar 0xfffd ++ r.2)
      else (0, [])

/-- Continuation-byte range test of the WHATWG UTF-8 decoder. -/
def utf8Cont (lower upper b : Nat) : Bool := lower ≤ b ∧ b ≤ upper

/-- WHATWG non-fatal UTF-8 decode to Unicode scalar values; malformed
sequences produce U+FFFD and resume at the offending byte (maximal
subpart policy). -/
def utf8Decode : Bytes → List Nat
  | [] => []
  | b :: rest =>
    if b < 0x80 then b :: utf8Decode rest
    else if 0xc2 ≤ b ∧ b ≤ 0xdf then
      match rest with
      | [] => [0xfffd]
      | c1 :: rest1 =>
        if utf8Cont 0x80 0xbf c1 then
          ((b - 0xc0) * 64 + (c1 - 0x80)) :: utf8Decode rest1
        else 0xfffd :: utf8Decode (c1 :: rest1)
    else if 0xe0 ≤ b ∧ b ≤ 0xef then
      let lower := if b = 0xe0 then 0xa0 else 0x80
      let upper := if b = 0xed then 0x9f else 0xbf
      match rest with
      | [] => [0xfffd]
      | c1 :: rest1 =>
        if utf8Cont lower upper c1 then
          match rest1 with
          | [] => [0xfffd]
          | c2 :: rest2 =>
            if utf8Cont 0x80 0xbf c2 then
              ((b - 0xe0) * 4096 + (c1 - 0x80) * 64 + (c2 - 0x80)) ::
                utf8Decode rest2
            else 0xfffd :: utf8Decode (c2 :: rest2)
        else 0xfffd :: utf8Decode (c1 :: rest1)
    else if 0xf0 ≤ b ∧ b ≤ 0xf4 then
      let lower := if b = 0xf0 then 0x90 else 0x80
      let upper := if b = 0xf4 then 0x8f else 0xbf
      match rest with
      | [] => [0xfffd]
      | c1 :: rest1 =>
        if utf8Cont lower upper c1 then
          match rest1 with
          | [] => [0xfffd]
          | c2 :: rest2 =>
            if utf8Cont 0x80 0xbf c2 then
              match rest2 with
              | [] => [0xfffd]
              | c3 :: rest3 =>
                if utf8Cont 0x80 0xbf c3 then
                  ((b - 0xf0) * 0x40000 + (c1 - 0x80) * 4096 +
                      (c2 - 0x80) * 64 + (c3 - 0x80)) :: utf8Decode rest3
                else 0xfffd :: utf8Decode (c3 :: rest3)
            else 0xfffd :: utf8Decode (c2 :: rest2)
        else 0xfffd :: utf8Decode (c1 :: rest1)
    else 0xfffd :: utf8Decode rest

/-- Unicode scalar values back to a UTF-16 code-unit sequence (astral
scalars become surrogate pairs), as a JavaScript string stores them. -/
def scalarsToUtf16 : List Nat → Str
  | [] => []
  | c :: rest =>
    if c < 0x10000 then c :: scalarsToUtf16 rest
    else
      (0xd800 + (c - 0x10000) / 0x400) ::
        ((0xdc00 + (c - 0x10000) % 0x400) :: scalarsToUtf16 rest)

/-- WHATWG `TextDecoder.decode` (UTF-8, non-fatal) producing a
JavaScript string. -/
def textDecoderDecode (buffer : Bytes) : Str :=
  scalarsToUtf16 (utf8Decode buffer)

/-! ### Value model (`src/types.ts`) -/

/-- A Bencodex dictionary key: a string ("text") or a `Uint8Array`
("binary"). -/
inductive Key where
  | text (s : Str)
  | binary (b : Bytes)
  deriving Repr, DecidableEq

/-- A runtime value reaching the encoder.  The constructors other than
`num` are the members of the TypeScript `Value` union; `num` stands
for a JavaScript `number`, which the type system excludes statically
but the runtime checks still handle (`typeof value === "number"`
throws a `TypeError`).  A `Dictionary` interface object is
represented by its `entries()` sequence; the content-addressed
`BencodexDictionary` lookup behaviour is modelled separately below,
and the decoder wraps its output through it. -/
inductive Value where
  | nil
  | bool (b : Bool)
  | int (i : Int)
  | text (s : Str)
  | binary (b : Bytes)
  | list (xs : List Value)
  | dict (entries : List (Key × Value))
  | num
  deriving Repr

/-- Embedding of `areUint8ArraysEqual` from `src/utils.ts`: same
length and identical contents. -/
def areUint8ArraysEqual : Bytes → Bytes → Bool
  | [], [] => true
  | a :: as, b :: bs => a == b && areUint8ArraysEqual as bs
  | _, _ => false

/-- Embedding of `compareUint8Arrays` from `src/utils.ts`:
lexicographic byte comparison, with a shorter prefix preceding its
extension. -/
def compareUint8Arrays : Bytes → Bytes → Int
  | [], [] => 0
  | [], _ :: _ => -1
  | _ :: _, [] => 1
  | a :: as, b :: bs =>
    if a < b then -1 else if b < a then 1 else compareUint8Arrays as bs

/-- JavaScript `<` on strings: left-to-right comparison of UTF-16
code units, with a strict prefix preceding its extension. -/
def jsStrLt : Str → Str → Bool
  | [], [] => false
  | [], _ :: _ => true
  | _ :: _, [] => false
  | a :: as, b :: bs => if a < b then true else if b < a then false else jsStrLt as bs

/-- Embedding of `areKeysEqual` from `src/types.ts`: same variant and
same contents. -/
def areKeysEqual : Key → Key → Bool
  | .text a, .text b => a == b
  | .binary a, .binary b => areUint8ArraysEqual a b
  | _, _ => false

/-- Embedding of `compareKeys` from `src/types.ts`: the Bencodex total
order (`Key` is exact here, so the `TypeError` paths for foreign key
types cannot arise). -/
def compareKeys : Key → Key → Int
  | .text a, .text b => if jsStrLt a b then -1 else if a == b then 0 else 1
  | .text _, .binary _ => 1
  | .binary _, .text _ => -1
  | .binary a, .binary b => compareUint8Arrays a b

/-- Lookup in a dictionary's `entries()` sequence under `areKeysEqual`
(first match).  This is the observable behaviour of `get` for every
dictionary whose entry sequence lists pairwise distinct keys — the
only dictionaries the equality claims compare — where first and last
match coincide; `BencodexDictionary.get` is modelled exactly,
bucket by bucket, further below. -/
def dictGet (entries : List (Key × Value)) (key : Key) : Option Value :=
  match entries with
  | [] => none
  | (k, v) :: rest => if areKeysEqual k key then some v else dictGet rest key

/-- Membership of a key in an entry sequence under `areKeysEqual`. -/
def dictKeyMember (key : Key) : List (Key × Value) → Bool
  | [] => false
  | (k, _) :: rest => areKeysEqual k key || dictKeyMember key rest

/-- Number of distinct keys of an entry sequence: the `size` every
`Dictionary` implementation reports for it. -/
def dictSize : List (Key × Value) → Nat
  | [] => 0
  | (k, _) :: rest => (if dictKeyMember k rest then 0 else 1) + dictSize rest

mutual

/-- Embedding of `areValuesEqual` from `src/types.ts`: same Bencodex
type and same contents; mismatched or invalid types (including two
`number`s) compare unequal.  The dictionary arm inlines
`areDictionariesEqual`: equal sizes and every entry of the first
found in the second under `areKeysEqual` with an equal value (the
source's binary-key fallback scan over `b.entries()` and its
string-key `b.get` route are together exactly the `dictGet`
lookup). -/
def areValuesEqual : Value → Value → Bool
  | .nil, .nil => true
  | .bool a, .bool b => a == b
  | .int a, .int b => a == b
  | .text a, .text b => areKeysEqual (.text a) (.text b)
  | .text _, .binary _ => false
  | .binary _, .text _ => false
  | .binary a, .binary b => areKeysEqual (.binary a) (.binary b)
  | .list xs, .list ys => xs.length == ys.length && areValueListsEqual xs ys
  | .dict aE, .dict bE => dictSize aE == dictSize bE && dictEntriesSubset aE bE
  | _, _ => false

/-- Pointwise `areValuesEqual` over two lists of the same length
(the `a.every((v, i) => areValuesEqual(v, b[i]))` loop). -/
def areValueListsEqual : List Value → List Value → Bool
  | [], [] => true
  | x :: xs, y :: ys => areValuesEqual x y && areValueListsEqual xs ys
  | _, _ => false

/-- The per-entry loop of `areDictionariesEqual`: every entry of the
first sequence is found in the second with an equal value. -/
def dictEntriesSubset : List (Key × Value) → List (Key × Value) → Bool
  | [], _ => true
  | (k, v) :: rest, bE =>
    (match dictGet bE k with
      | some w => areValuesEqual v w
      | none => false) &&
      dictEntriesSubset rest bE

end

/-- Embedding of `areDictionariesEqual` from `src/types.ts`, on entry
sequences (see `areValuesEqual`). -/
def areDictionariesEqual (aE bE : List (Key × Value)) : Bool :=
  dictSize aE == dictSize bE && dictEntriesSubset aE bE

/-! ### Content-addressed dictionary (`src/dict.ts`)

`BencodexDictionary` keeps three buckets: text keys, short binary
keys (below 32 bytes, keyed in a record by their standard base64
digest), and longer binary keys (a linear list scanned by content).
A JavaScript record is modelled as an association list of own
properties together with the prototype chain a plain `{}` object
keeps: `key in record` and `record[key]` also see the members of
`Object.prototype`, and a store to the accessor name `__proto__`
invokes the inherited setter and creates no own property.  (The
prototype replacement that setter performs when its argument is an
object is observed by nothing proved below, whose `__proto__` store
carries a primitive.)  Property-enumeration quirks of JS objects
(integer-like names first) only permute iteration order, which no
proved property observes, and which the class documents as unstable
anyway. -/

/-- RFC 4648 standard base64 alphabet, as ASCII codes. -/
def base64AlphabetChars : List Nat :=
  [65, 66, 67, 68, 69, 70, 71, 72, 73, 74, 75, 76, 77, 78, 79, 80, 81, 82,
    83, 84, 85, 86, 87, 88, 89, 90,
    97, 98, 99, 100, 101, 102, 103, 104, 105, 106, 107, 108, 109, 110, 111,
    112, 113, 114, 115, 116, 117, 118, 119, 120, 121, 122,
    48, 49, 50, 51, 52, 53, 54, 55, 56, 57, 43, 47]

/-- Character of the base64 alphabet at a 6-bit index. -/
def base64Char (i : Nat) : Nat := base64AlphabetChars.getD i 0

/-- Standard (padded) base64 encoding, the digest `src/dict.ts` keys
its short-binary record by. -/
def base64Encode : Bytes → List Nat
  | a :: b :: c :: rest =>
    base64Char (a / 4) :: base64Char (a % 4 * 16 + b / 16) ::
      base64Char (b % 16 * 4 + c / 64) :: base64Char (c % 64) ::
      base64Encode rest
  | [a, b] => [base64Char (a / 4), base64Char (a % 4 * 16 + b / 16),
      base64Char (b % 16 * 4), 0x3d]
  | [a] => [base64Char (a / 4), base64Char (a % 4 * 16), 0x3d, 0x3d]
  | [] => []

/-- `constructor` as code units. -/
def strConstructor : Str := [99, 111, 110, 115, 116, 114, 117, 99, 116, 111, 114]

/-- `toString` as code units. -/
def strToString : Str := [116, 111, 83, 116, 114, 105, 110, 103]

/-- The inherited accessor name `__proto__` as code units: assigning
it on a `{}` record reaches the setter of `Object.prototype` and
creates no own property. -/
def strUnderscoreProto : Str := [95, 95, 112, 114, 111, 116, 111, 95, 95]

/-- The property names every plain `{}` object inherits from
`Object.prototype` (ES2023): `constructor`, `hasOwnProperty`,
`isPrototypeOf`, `propertyIsEnumerable`, `toLocaleString`,
`toString`, `valueOf`, the four legacy accessor helpers and the
accessor `__proto__`, as code-unit strings. -/
def objectPrototypeNames : List Str :=
  [strConstructor,
    [104, 97, 115, 79, 119, 110, 80, 114, 111, 112, 101, 114, 116, 121],
    [105, 115, 80, 114, 111, 116, 111, 116, 121, 112, 101, 79, 102],
    [112, 114, 111, 112, 101, 114, 116, 121, 73, 115, 69, 110, 117, 109,
      101, 114, 97, 98, 108, 101],
    [116, 111, 76, 111, 99, 97, 108, 101, 83, 116, 114, 105, 110, 103],
    strToString,
    [118, 97, 108, 117, 101, 79, 102],
    [95, 95, 100, 101, 102, 105, 110, 101, 71, 101, 116, 116, 101, 114,
      95, 95],
    [95, 95, 100, 101, 102, 105, 110, 101, 83, 101, 116, 116, 101, 114,
      95, 95],
    [95, 95, 108, 111, 111, 107, 117, 112, 71, 101, 116, 116, 101, 114,
      95, 95],
    [95, 95, 108, 111, 111, 107, 117, 112, 83, 101, 116, 116, 101, 114,
      95, 95],
    strUnderscoreProto]

/-- Whether the `{}` prototype chain resolves a property name. -/
def protoName (k : List Nat) : Bool :=
  objectPrototypeNames.any (fun n => n == k)

/-- Result of a JavaScript property read on a `{}` record: the value
of an own property, a member inherited from `Object.prototype` (a
function, never a Bencodex value), or `undefined`. -/
inductive JsProp (β : Type) where
  | own (v : β)
  | inherited
  | absent
  deriving Repr

/-- Record membership test (`key in record`) on a `{}` object: own
properties or the prototype chain. -/
def recordHas {β : Type} (r : List (List Nat × β)) (k : List Nat) : Bool :=
  r.any (fun p => p.1 == k) || protoName k

/-- Own-property part of a record assignment: replaces in place, or
appends a fresh enumerable property. -/
def recordSetOwn {β : Type} (r : List (List Nat × β)) (k : List Nat) (v : β) :
    List (List Nat × β) :=
  match r with
  | [] => [(k, v)]
  | (k2, w) :: rest =>
    if k2 == k then (k2, v) :: rest else (k2, w) :: recordSetOwn rest k v

/-- Record assignment (`record[key] = value`) on a `{}` object: the
name `__proto__` reaches the inherited accessor and stores no own
property; every other name becomes an own property. -/
def recordSet {β : Type} (r : List (List Nat × β)) (k : List Nat) (v : β) :
    List (List Nat × β) :=
  if k == strUnderscoreProto then r else recordSetOwn r k v

/-- Record read (`record[key]`) on a `{}` object: an own property's
value, else an inherited `Object.prototype` member, else
`undefined`. -/
def recordGetOpt {β : Type} (r : List (List Nat × β)) (k : List Nat) :
    JsProp β :=
  match r with
  | [] => if protoName k then .inherited else .absent
  | (k2, w) :: rest => if k2 == k then .own w else recordGetOpt rest k

/-- Threshold below which binary keys use the digest record
(`SHORT_BINARY_THRESHOLD` in `src/dict.ts`). -/
def shortBinaryThreshold : Nat := 32

/-- The long-binary bucket's insert: replace the first content-equal
entry in place (flag `true`), else push.  Mirrors the index scan in
the constructor of `BencodexDictionary`. -/
def longerBinaryInsert : List (Bytes × Value) → Bytes → Value →
    List (Bytes × Value) × Bool
  | [], key, v => ([(key, v)], false)
  | (k, w) :: rest, key, v =>
    if areUint8ArraysEqual k key then ((key, v) :: rest, true)
    else
      let r := longerBinaryInsert rest key v
      ((k, w) :: r.1, r.2)

/-- State of a `BencodexDictionary` (`src/dict.ts`): the three buckets
and the incrementally maintained `size`.  Each short-binary record
property carries, next to the stored value, the bytes its digest
name decodes back to (the source recovers them with base64 `decode`
on iteration; carrying them is equivalent because the digest is the
injective image of the bytes). -/
structure BencodexDictionary where
  stringKeys : List (Str × Value)
  shortBinaryKeys : List (List Nat × (Bytes × Value))
  longerBinaryKeys : List (Bytes × Value)
  size : Int
  deriving Repr

/-- One iteration of the constructor loop of `BencodexDictionary`:
route the pair to its bucket, decrement `size` when overwriting,
increment it when the loop body completes without `continue`. -/
def BencodexDictionary.insertPair (d : BencodexDictionary) :
    Key × Value → BencodexDictionary
  | (.text s, v) =>
    { d with
      stringKeys := recordSet d.stringKeys s v
      size := (if recordHas d.stringKeys s then d.size - 1 else d.size) + 1 }
  | (.binary b, v) =>
    if b.length < shortBinaryThreshold then
      let encoded := base64Encode b
      { d with
        shortBinaryKeys := recordSet d.shortBinaryKeys encoded (b, v)
        size := (if recordHas d.shortBinaryKeys encoded then d.size - 1
          else d.size) + 1 }
    else
      let r := longerBinaryInsert d.longerBinaryKeys b v
      { d with
        longerBinaryKeys := r.1
        size := if r.2 then d.size else d.size + 1 }

/-- The constructor of `BencodexDictionary` over a pair sequence. -/
def BencodexDictionary.ofEntries (entries : List (Key × Value)) :
    BencodexDictionary :=
  entries.foldl BencodexDictionary.insertPair ⟨[], [], [], 0⟩

/-- Embedding of `BencodexDictionary.get`: the record buckets read
through the prototype chain; the array bucket's scan yields
`undefined` when no content-equal key exists. -/
def BencodexDictionary.get (d : BencodexDictionary) : Key → JsProp Value
  | .text s => recordGetOpt d.stringKeys s
  | .binary b =>
    if b.length < shortBinaryThreshold then
      match recordGetOpt d.shortBinaryKeys (base64Encode b) with
      | .own p => .own p.2
      | .inherited => .inherited
      | .absent => .absent
    else
      match d.longerBinaryKeys.find? (fun p => areUint8ArraysEqual p.1 b) with
      | some p => .own p.2
      | none => .absent

/-- Embedding of `BencodexDictionary.has`. -/
def BencodexDictionary.has (d : BencodexDictionary) : Key → Bool
  | .text s => recordHas d.stringKeys s
  | .binary b =>
    if b.length < shortBinaryThreshold then
      recordHas d.shortBinaryKeys (base64Encode b)
    else
      d.longerBinaryKeys.any fun p => areUint8ArraysEqual p.1 b

/-- The pair sequence iterated by `BencodexDictionary`'s
`Symbol.iterator`: string bucket, then short-binary bucket (digests
decoded back to bytes), then long-binary bucket. -/
def BencodexDictionary.entriesList (d : BencodexDictionary) :
    List (Key × Value) :=
  d.stringKeys.map (fun p => (Key.text p.1, p.2)) ++
    d.shortBinaryKeys.map (fun p => (Key.binary p.2.1, p.2.2)) ++
    d.longerBinaryKeys.map (fun p => (Key.binary p.1, p.2))

/-! ### Size estimation (`src/encoder.ts`) -/

/-- The two exception kinds the encoder can throw. -/
inductive EncodeError where
  | typeError
  | rangeError
  deriving Repr, DecidableEq

/-- Accuracy strategy of the size estimator. -/
inductive Accuracy where
  | bestEffort
  | fastGuess
  deriving Repr, DecidableEq

/-- Options of `estimateSize` / `estimateKeySize`; omitted `accuracy`
defaults to best effort. -/
structure SizeEstimationOptions where
  accuracy : Option Accuracy := none
  deriving Repr, DecidableEq

/-- Embedding of `estimateUtf8Length`: a `3 · code_units` fast guess
for short strings, otherwise the exact UTF-8 byte count
(`new Blob([text]).size`). -/
def estimateUtf8Length (text : Str) (options : SizeEstimationOptions) : Nat :=
  if options.accuracy = some .fastGuess ∧ text.length < 128 then
    3 * text.length
  else (textEncoderEncode text).length

/-- Embedding of `estimateKeySize` from `src/encoder.ts`. -/
def estimateKeySize (key : Key) (options : SizeEstimationOptions) : Nat :=
  match key with
  | .text s =>
    let utf8Length := estimateUtf8Length s options
    2 + utf8Length + (natToDecBytes utf8Length).length
  | .binary b => 1 + b.length + (natToDecBytes b.length).length

mutual

/-- Embedding of `estimateSize` from `src/encoder.ts`.  A `number`
node raises `TypeError`; all other runtime validation is enforced by
the `Value` type. -/
def estimateSize (value : Value) (options : SizeEstimationOptions) :
    Except EncodeError Nat :=
  match value with
  | .text s => .ok (estimateKeySize (.text s) options)
  | .binary b => .ok (estimateKeySize (.binary b) options)
  | .nil => .ok 1
  | .bool _ => .ok 1
  | .int i =>
    let asciiSize := (intToDecBytes i).length
    .ok (1 + asciiSize + (natToDecBytes asciiSize).length)
  | .list xs =>
    match estimateSizeList xs options with
    | .ok n => .ok (2 + n)
    | .error e => .error e
  | .dict es =>
    match estimateSizeEntries es options with
    | .ok n => .ok (2 + n)
    | .error e => .error e
  | .num => .error .typeError

/-- Sum of estimated sizes of the items of a list value. -/
def estimateSizeList (xs : List Value) (options : SizeEstimationOptions) :
    Except EncodeError Nat :=
  match xs with
  | [] => .ok 0
  | x :: rest =>
    match estimateSize x options with
    | .ok n =>
      match estimateSizeList rest options with
      | .ok m => .ok (n + m)
      | .error e => .error e
    | .error e => .error e

/-- Sum of estimated key and value sizes over a dictionary's entry
sequence (duplicates included, as in the source). -/
def estimateSizeEntries (es : List (Key × Value))
    (options : SizeEstimationOptions) : Except EncodeError Nat :=
  match es with
  | [] => .ok 0
  | (k, v) :: rest =>
    match estimateSize v options with
    | .ok n =>
      match estimateSizeEntries rest options with
      | .ok m => .ok (estimateKeySize k options + n + m)
      | .error e => .error e
    | .error e => .error e

end

/-! ### Encoder (`src/encoder.ts`)

Buffer mutation is modelled by rebuilding the list: `buffer.set i b`
for single-byte stores (out-of-range stores are dropped, as on a
`Uint8Array`), `listWrite` for `TextEncoder.encodeInto` /
`Uint8Array.set` bulk stores, and `take`/`drop` splits for the
`subarray` views threaded through recursive calls. -/

/-- Bulk store of `data` into `buffer` at `offset`, clipped to the
buffer's length (which is preserved). -/
def listWrite (buffer : Bytes) (offset : Nat) (data : Bytes) : Bytes :=
  buffer.take offset ++ data.take (buffer.length - offset) ++
    buffer.drop (offset + data.length)

/-- Duplicate-dictionary-key policy of the encoder. -/
inductive DuplicatePolicy where
  | error
  | useFirst
  | useLast
  deriving Repr, DecidableEq

/-- Embedding of `EncodingOptions`. -/
structure EncodingOptions where
  onDuplicateKeys : Option DuplicatePolicy := none
  deriving Repr, DecidableEq

/-- Embedding of `NonAllocEncodingOptions`; an absent `speculative`
behaves as `false` (the source tests `speculative !== true`). -/
structure NonAllocEncodingOptions where
  onDuplicateKeys : Option DuplicatePolicy := none
  speculative : Bool := false
  deriving Repr, DecidableEq

/-- Embedding of `EncodingState`: bytes written and completion flag. -/
structure EncodingState where
  written : Nat
  complete : Bool
  deriving Repr, DecidableEq

/-- Embedding of `encodeKeyInto` from `src/encoder.ts` (never throws
here because `Key` is exact).  The speculative branch reproduces the
digit-count-preserving length ladder verbatim. -/
def encodeKeyInto (key : Key) (buffer : Bytes)
    (options : NonAllocEncodingOptions) : Bytes × EncodingState :=
  let bufferSize := buffer.length
  match key with
  | .text s =>
    if bufferSize < 1 then (buffer, ⟨0, false⟩) else
    let buffer0 := buffer.set 0 textPrefixByte
    let speculativeUtf8Length :=
      if options.speculative ≠ true then estimateUtf8Length s {}
      else if s.length ≤ 3 then 3
      else if 10 ≤ s.length ∧ s.length ≤ 33 then 33
      else if 100 ≤ s.length ∧ s.length ≤ 333 then 333
      else if 1000 ≤ s.length ∧ s.length ≤ 3333 then 3333
      else if 10000 ≤ s.length ∧ s.length ≤ 33333 then 33333
      else if 100000 ≤ s.length ∧ s.length ≤ 333333 then 333333
      else estimateUtf8Length s {}
    let lengthStr := natToDecBytes speculativeUtf8Length
    let lw := (textEncoderEncodeInto lengthStr (bufferSize - 1)).2
    let buffer1 := listWrite buffer0 1 lw
    if bufferSize < lengthStr.length + 2 then (buffer1, ⟨lw.length + 1, false⟩)
    else
      let buffer2 := buffer1.set (lw.length + 1) textLengthDelimiterByte
      let content := textEncoderEncodeInto s (bufferSize - (lw.length + 2))
      let buffer3 := listWrite buffer2 (lw.length + 2) content.2
      if content.1 < s.length then
        (buffer3, ⟨lw.length + 2 + content.2.length, false⟩)
      else
        let buffer4 :=
          if content.2.length ≠ speculativeUtf8Length then
            listWrite buffer3 1
              (textEncoderEncodeInto (natToDecBytes content.2.length)
                (bufferSize - 1)).2
          else buffer3
        (buffer4, ⟨lw.length + 2 + content.2.length, true⟩)
  | .binary b =>
    let lengthStr := natToDecBytes b.length
    let lw := (textEncoderEncodeInto lengthStr bufferSize).2
    let buffer0 := listWrite buffer 0 lw
    if bufferSize < lengthStr.length + 1 then (buffer0, ⟨lw.length, false⟩)
    else
      let buffer1 := buffer0.set lw.length binaryLengthDelimiterByte
      let buffer2 := listWrite buffer1 (1 + lw.length)
        (b.take (bufferSize - 1 - lw.length))
      if bufferSize < 1 + lw.length + b.length then
        (buffer2, ⟨bufferSize, false⟩)
      else (buffer2, ⟨1 + lw.length + b.length, true⟩)

/-- The integer arm of `encodeInto` (non-recursive). -/
def encodeIntegerInto (i : Int) (buffer : Bytes) : Bytes × EncodingState :=
  let buffer0 := buffer.set 0 integerPrefixByte
  let numericStr := intToDecBytes i
  let w := (textEncoderEncodeInto numericStr (buffer.length - 1)).2
  let buffer1 := listWrite buffer0 1 w
  if buffer.length < numericStr.length + 2 then (buffer1, ⟨w.length + 1, false⟩)
  else (buffer1.set (w.length + 1) integerSuffixByte, ⟨w.length + 2, true⟩)

/-- Entry list paired with insertion indexes (the `[key, value, i]`
triples the dictionary arm of `encodeInto` materializes). -/
def zipWithIndexAux {α : Type} : List α → Nat → List (α × Nat)
  | [], _ => []
  | x :: xs, i => (x, i) :: zipWithIndexAux xs (i + 1)

/-- Entry list paired with insertion indexes starting at 0. -/
def zipWithIndex {α : Type} (l : List α) : List (α × Nat) := zipWithIndexAux l 0

/-- The sort order of the dictionary arm of `encodeInto`: ascending by
`compareKeys`, ties broken by insertion index — ascending normally,
descending under `useLast`.  Distinct indexes make this order total
and antisymmetric, so any correct sort (insertion sort below,
`Array.prototype.sort` in the source) produces the same, unique
ordering. -/
def entryLe (options : NonAllocEncodingOptions)
    (a b : (Key × Value) × Nat) : Bool :=
  let cmp := compareKeys a.1.1 b.1.1
  if cmp = 0 then
    if options.onDuplicateKeys = some .useLast then b.2 ≤ a.2 else a.2 ≤ b.2
  else cmp < 0

/-- Ordered insertion used by `insertionSort`. -/
def insertSorted {α : Type} (le : α → α → Bool) (x : α) : List α → List α
  | [] => [x]
  | y :: ys => if le x y then x :: y :: ys else y :: insertSorted le x ys

/-- Insertion sort; computes the unique `le`-sorted permutation for a
total antisymmetric `le` (see `entryLe`). -/
def insertionSort {α : Type} (le : α → α → Bool) : List α → List α
  | [] => []
  | x :: xs => insertSorted le x (insertionSort le xs)

mutual

/-- Fueled embedding of `encodeInto` from `src/encoder.ts`.  One fuel
unit is consumed per recursive entry; `none` is fuel exhaustion,
which the `sizeOf`-sized budget of the `encodeInto` wrapper never
reaches.  A `number` node throws `TypeError`; the other runtime
validations of the source (entry shape, key type) are enforced by
the `Value` type. -/
def encodeIntoF : Nat → Value → Bytes → NonAllocEncodingOptions →
    Option (Except EncodeError (Bytes × EncodingState))
  | 0, _, _, _ => none
  | fuel + 1, value, buffer, options =>
    if buffer.length < 1 then some (.ok (buffer, ⟨0, false⟩)) else
    match value with
    | .nil => some (.ok (buffer.set 0 nullAtomByte, ⟨1, true⟩))
    | .bool b =>
      some (.ok (buffer.set 0 (if b then trueAtomByte else falseAtomByte),
        ⟨1, true⟩))
    | .text s => some (.ok (encodeKeyInto (.text s) buffer options))
    | .binary b => some (.ok (encodeKeyInto (.binary b) buffer options))
    | .int i => some (.ok (encodeIntegerInto i buffer))
    | .list xs =>
      encodeListItemsF fuel xs (buffer.set 0 listPrefixByte) 1 options
    | .dict es =>
      encodeDictWalkF fuel
        (insertionSort (entryLe options) (zipWithIndex es))
        (buffer.set 0 dictionaryPrefixByte) 1 none options
    | .num => some (.error .typeError)

/-- The item loop of the list arm of `encodeInto`, followed by the
suffix write. -/
def encodeListItemsF : Nat → List Value → Bytes → Nat →
    NonAllocEncodingOptions →
    Option (Except EncodeError (Bytes × EncodingState))
  | 0, _, _, _, _ => none
  | _ + 1, [], buffer, totalWritten, _ =>
    if buffer.length < totalWritten + 1 then
      some (.ok (buffer, ⟨totalWritten, false⟩))
    else some (.ok (buffer.set totalWritten listSuffixByte,
      ⟨totalWritten + 1, true⟩))
  | fuel + 1, item :: rest, buffer, totalWritten, options =>
    match encodeIntoF fuel item (buffer.drop totalWritten) options with
    | none => none
    | some (.error e) => some (.error e)
    | some (.ok (sub, st)) =>
      let buffer2 := buffer.take totalWritten ++ sub
      if st.complete then
        encodeListItemsF fuel rest buffer2 (totalWritten + st.written) options
      else some (.ok (buffer2, ⟨totalWritten + st.written, false⟩))

/-- The walk over the sorted entry triples in the dictionary arm of
`encodeInto`: duplicate handling against the previously emitted key,
key and value emission, then the suffix write. -/
def encodeDictWalkF : Nat → List ((Key × Value) × Nat) → Bytes → Nat →
    Option Key → NonAllocEncodingOptions →
    Option (Except EncodeError (Bytes × EncodingState))
  | 0, _, _, _, _, _ => none
  | _ + 1, [], buffer, totalWritten, _, _ =>
    if buffer.length < totalWritten + 1 then
      some (.ok (buffer, ⟨totalWritten, false⟩))
    else some (.ok (buffer.set totalWritten dictionarySuffixByte,
      ⟨totalWritten + 1, true⟩))
  | fuel + 1, ((key, val), _) :: rest, buffer, totalWritten, prevKey,
      options =>
    if (match prevKey with
        | some pk => areKeysEqual key pk
        | none => false) then
      match options.onDuplicateKeys with
      | none | some .error => some (.error .rangeError)
      | some .useFirst | some .useLast =>
        encodeDictWalkF fuel rest buffer totalWritten prevKey options
    else
      let kr := encodeKeyInto key (buffer.drop totalWritten) options
      let buffer2 := buffer.take totalWritten ++ kr.1
      let tw1 := totalWritten + kr.2.written
      if kr.2.complete then
        match encodeIntoF fuel val (buffer2.drop tw1) options with
        | none => none
        | some (.error e) => some (.error e)
        | some (.ok (sub, st)) =>
          let buffer3 := buffer2.take tw1 ++ sub
          let tw2 := tw1 + st.written
          if st.complete then
            encodeDictWalkF fuel rest buffer3 tw2 (some key) options
          else some (.ok (buffer3, ⟨tw2, false⟩))
      else some (.ok (buffer2, ⟨tw1, false⟩))

end

mutual

/-- Fuel budget covering the whole call tree of `encodeIntoF` on a
value. -/
def valueFuel : Value → Nat
  | .nil => 1
  | .bool _ => 1
  | .int _ => 1
  | .text _ => 1
  | .binary _ => 1
  | .list xs => 1 + valueListFuel xs
  | .dict es => 1 + valueEntriesFuel es
  | .num => 1

/-- Fuel budget for the item loop of a list value. -/
def valueListFuel : List Value → Nat
  | [] => 1
  | x :: xs => 1 + valueFuel x + valueListFuel xs

/-- Fuel budget for the entry walk of a dictionary value. -/
def valueEntriesFuel : List (Key × Value) → Nat
  | [] => 1
  | (_, v) :: es => 1 + valueFuel v + valueEntriesFuel es

end

/-- Embedding of `encodeInto` from `src/encoder.ts`: the fueled form
run with a fuel budget proved sufficient below. -/
def encodeInto (value : Value) (buffer : Bytes)
    (options : NonAllocEncodingOptions) :
    Except EncodeError (Bytes × EncodingState) :=
  (encodeIntoF (valueFuel value) value buffer options).getD
    (.ok (buffer, ⟨0, false⟩))

/-- Embedding of `encode` from `src/encoder.ts`: estimate with
`fastGuess`, allocate a zeroed buffer of that size, encode
speculatively, and trim to the written length. -/
def encode (value : Value) (options : EncodingOptions) :
    Except EncodeError Bytes :=
  match estimateSize value ⟨some .fastGuess⟩ with
  | .error e => .error e
  | .ok size =>
    match encodeInto value (List.replicate size 0)
        ⟨options.onDuplicateKeys, true⟩ with
    | .error e => .error e
    | .ok (buffer, st) => .ok (buffer.take st.written)

/-! ### Decoder (`src/decoder.ts`)

The `dictionaryConstructor` option is fixed to its default,
`BencodexDictionary`; every property proved about the decoder uses
that default. -/

/-- Policy for out-of-order / duplicate dictionary keys. -/
inductive KeyOrderPolicy where
  | error
  | ignore
  deriving Repr, DecidableEq

/-- Embedding of `DecodingOptions`; an absent `onInvalidKeyOrder`
behaves as `error`. -/
structure DecodingOptions where
  onInvalidKeyOrder : Option KeyOrderPolicy := none
  deriving Repr, DecidableEq

/-- Embedding of `DecodingErrorKind` (the key-decoding kinds
included). -/
inductive DecodingErrorKind where
  | unexpectedEndOfInput
  | noTextLength
  | noTextDelimiter
  | overRunTextLength
  | noBinaryLength
  | noBinaryDelimiter
  | overRunBinaryLength
  | unexpectedByte
  | invalidInteger
  | noIntegerSuffix
  | noListSuffix
  | noDictionarySuffix
  | unorderedDictionaryKeys
  | duplicateDictionaryKeys
  deriving Repr, DecidableEq

/-- Embedding of `DecodingState`: success with bytes read and a value,
or failure with bytes read and an error kind. -/
inductive DecState (T : Type) (E : Type) where
  | ok (read : Nat) (value : T)
  | err (read : Nat) (error : E)
  deriving Repr

/-- Embedding of `decodeKey` from `src/decoder.ts`. -/
def decodeKey (buffer : Bytes) : DecState Key DecodingErrorKind :=
  if buffer.length < 1 then .err 0 .unexpectedEndOfInput
  else if buffer.getD 0 0 = textPrefixByte then
    let parsed := decodeAsciiNaturalNumber (buffer.drop 1)
    if parsed.success = false then .err 1 .noTextLength
    else
      let read := 1 + parsed.read
      let byteSize := parsed.value
      if buffer.getD read 0 ≠ textLengthDelimiterByte then
        .err read .noTextDelimiter
      else if read + 1 + byteSize > buffer.length then
        .err buffer.length .overRunTextLength
      else
        .ok (read + 1 + byteSize)
          (.text (textDecoderDecode ((buffer.drop (read + 1)).take byteSize)))
  else
    let parsed := decodeAsciiNaturalNumber buffer
    if parsed.success = false then .err 0 .noBinaryLength
    else
      let read := parsed.read
      let byteSize := parsed.value
      if buffer.getD read 0 ≠ binaryLengthDelimiterByte then
        .err read .noBinaryDelimiter
      else if read + 1 + byteSize > buffer.length then
        .err buffer.length .overRunBinaryLength
      else
        .ok (read + 1 + byteSize) (.binary ((buffer.drop (read + 1)).take byteSize))

/-- The integer arm of `decodeValue` (non-recursive): optional minus
sign, ASCII natural, then the `e` suffix. -/
def decodeInteger (buffer : Bytes) : DecState Value DecodingErrorKind :=
  let neg := buffer.getD 1 0 = integerMinusSignByte
  let read1 := if neg then 2 else 1
  let endState := decodeAsciiNaturalNumber (buffer.drop read1)
  let read2 := read1 + endState.read
  if endState.success = false then .err read2 .invalidInteger
  else if buffer.getD read2 0 ≠ integerSuffixByte then .err read2 .noIntegerSuffix
  else .ok (read2 + 1) (.int ((endState.value : Int) * (if neg then -1 else 1)))

/-- A decoded `Key` as a `Value` (the decoder routes text and binary
first bytes through `decodeKey`). -/
def keyToValue : Key → Value
  | .text s => .text s
  | .binary b => .binary b

mutual

/-- Fueled embedding of `decodeValue` from `src/decoder.ts`.  One fuel
unit per recursive entry; the `2·length + 2` budget supplied by
`decodeValue` is proved sufficient below. -/
def decodeValueF : Nat → Bytes → DecodingOptions →
    Option (DecState Value DecodingErrorKind)
  | 0, _, _ => none
  | fuel + 1, buffer, options =>
    if buffer.length < 1 then some (.err 0 .unexpectedEndOfInput)
    else
      let firstByte := buffer.getD 0 0
      if firstByte = textPrefixByte ∨ (0x30 ≤ firstByte ∧ firstByte ≤ 0x39) then
        some
          (match decodeKey buffer with
          | .ok r k => .ok r (keyToValue k)
          | .err r e => .err r e)
      else if firstByte = nullAtomByte then some (.ok 1 .nil)
      else if firstByte = falseAtomByte then some (.ok 1 (.bool false))
      else if firstByte = trueAtomByte then some (.ok 1 (.bool true))
      else if firstByte = integerPrefixByte then some (decodeInteger buffer)
      else if firstByte = listPrefixByte then
        decodeListLoopF fuel buffer 1 [] options
      else if firstByte = dictionaryPrefixByte then
        decodeDictLoopF fuel buffer 1 [] none options
      else some (.err 0 .unexpectedByte)

/-- The element loop of the list arm of `decodeValue`. -/
def decodeListLoopF : Nat → Bytes → Nat → List Value → DecodingOptions →
    Option (DecState Value DecodingErrorKind)
  | 0, _, _, _, _ => none
  | fuel + 1, buffer, read, acc, options =>
    if read < buffer.length ∧ buffer.getD read 0 ≠ listSuffixByte then
      match decodeValueF fuel (buffer.drop read) options with
      | none => none
      | some (.err r e) => some (.err (read + r) e)
      | some (.ok r v) =>
        decodeListLoopF fuel buffer (read + r) (acc ++ [v]) options
    else if read ≥ buffer.length then some (.err read .noListSuffix)
    else some (.ok (read + 1) (.list acc))

/-- The entry loop of the dictionary arm of `decodeValue`, including
the key-order enforcement against the previously parsed key. -/
def decodeDictLoopF : Nat → Bytes → Nat → List (Key × Value) → Option Key →
    DecodingOptions → Option (DecState Value DecodingErrorKind)
  | 0, _, _, _, _, _ => none
  | fuel + 1, buffer, read, pairs, prevKey, options =>
    if read < buffer.length ∧ buffer.getD read 0 ≠ dictionarySuffixByte then
      match decodeKey (buffer.drop read) with
      | .err r e => some (.err (read + r) e)
      | .ok r k =>
        let read1 := read + r
        let check : Option DecodingErrorKind :=
          if options.onInvalidKeyOrder ≠ some .ignore then
            match prevKey with
            | some p =>
              if compareKeys p k > 0 then some .unorderedDictionaryKeys
              else if compareKeys p k = 0 then some .duplicateDictionaryKeys
              else none
            | none => none
          else none
        match check with
        | some e => some (.err read1 e)
        | none =>
          let prevKey2 :=
            if options.onInvalidKeyOrder ≠ some .ignore then some k else prevKey
          match decodeValueF fuel (buffer.drop read1) options with
          | none => none
          | some (.err r2 e) => some (.err (read1 + r2) e)
          | some (.ok r2 v) =>
            decodeDictLoopF fuel buffer (read1 + r2) (pairs ++ [(k, v)])
              prevKey2 options
    else if read ≥ buffer.length then some (.err read .noDictionarySuffix)
    else
      some (.ok (read + 1)
        (.dict (BencodexDictionary.ofEntries pairs).entriesList))

end

/-- Embedding of `decodeValue` from `src/decoder.ts`: the fueled form
with a fuel budget proved sufficient below. -/
def decodeValue (buffer : Bytes) (options : DecodingOptions) :
    DecState Value DecodingErrorKind :=
  (decodeValueF (2 * buffer.length + 2) buffer options).getD
    (.err 0 .unexpectedEndOfInput)

/-- Data carried by the thrown `DecodingError` exception (position and
kind; the human-readable message of the source is a fixed function of
the kind). -/
structure DecodingError where
  position : Nat
  kind : DecodingErrorKind
  deriving Repr, DecidableEq

/-- Embedding of `decode` from `src/decoder.ts`: run `decodeValue`,
raise its error, and reject trailing bytes with `unexpectedByte` at
the first trailing offset. -/
def decode (buffer : Bytes) (options : DecodingOptions) :
    Except DecodingError Value :=
  match decodeValue buffer options with
  | .err read e => .error ⟨read, e⟩
  | .ok read v =>
    if read < buffer.length then .error ⟨read, .unexpectedByte⟩
    else .ok v

/-! ### Specification-level definitions used by the statements and
proofs: well-formedness predicates, the canonical byte string of a
value, and the entry selection performed by the dictionary walk. -/

/-- Bytes-read component of a decoding state. -/
def DecState.read {T E : Type} : DecState T E → Nat
  | .ok r _ => r
  | .err r _ => r

/-- A UTF-16 code-unit sequence is well formed when every unit is
below `0x10000` and surrogates only occur as high-low pairs — i.e.
the string denotes a sequence of Unicode scalar values, as the
Bencodex grammar requires of text. -/
def wellFormedUtf16 : Str → Bool
  | [] => true
  | u :: rest =>
    if u < 0xd800 ∨ 0xdfff < u then u < 0x10000 && wellFormedUtf16 rest
    else if u ≤ 0xdbff then
      match rest with
      | l :: rest2 => (0xdc00 ≤ l && l ≤ 0xdfff) && wellFormedUtf16 rest2
      | [] => false
    else false

/-- Unicode scalar values denoted by a UTF-16 sequence (unpaired
surrogates become U+FFFD, mirroring the WHATWG encoder). -/
def utf16ToScalars : Str → List Nat
  | [] => []
  | u :: rest =>
    if u < 0xd800 ∨ 0xdfff < u then u :: utf16ToScalars rest
    else if u ≤ 0xdbff then
      match rest with
      | l :: rest2 =>
        if 0xdc00 ≤ l ∧ l ≤ 0xdfff then
          (0x10000 + (u - 0xd800) * 0x400 + (l - 0xdc00)) :: utf16ToScalars rest2
        else 0xfffd :: utf16ToScalars (l :: rest2)
      | [] => [0xfffd]
    else 0xfffd :: utf16ToScalars rest

/-- Well-formedness of a key: text keys are well-formed UTF-16. -/
def wellFormedKey : Key → Bool
  | .text s => wellFormedUtf16 s
  | .binary _ => true

mutual

/-- A value lies in the Bencodex value grammar: no `number` node and
every text is a sequence of Unicode scalar values. -/
def validValue : Value → Bool
  | .nil => true
  | .bool _ => true
  | .int _ => true
  | .text s => wellFormedUtf16 s
  | .binary _ => true
  | .list xs => validValueList xs
  | .dict es => validValueEntries es
  | .num => false

/-- `validValue` over the items of a list. -/
def validValueList : List Value → Bool
  | [] => true
  | x :: xs => validValue x && validValueList xs

/-- `validValue` over a dictionary's entries (keys included). -/
def validValueEntries : List (Key × Value) → Bool
  | [] => true
  | (k, v) :: es => wellFormedKey k && validValue v && validValueEntries es

end

/-- Pairwise distinctness (under `areKeysEqual`) of an entry
sequence's keys. -/
def distinctKeys : List (Key × Value) → Bool
  | [] => true
  | (k, _) :: rest => !dictKeyMember k rest && distinctKeys rest

mutual

/-- No dictionary anywhere in the value has two `areKeysEqual` keys. -/
def noDupValue : Value → Bool
  | .list xs => noDupValueList xs
  | .dict es => distinctKeys es && noDupValueEntries es
  | _ => true

/-- `noDupValue` over the items of a list. -/
def noDupValueList : List Value → Bool
  | [] => true
  | x :: xs => noDupValue x && noDupValueList xs

/-- `noDupValue` over a dictionary's entry values. -/
def noDupValueEntries : List (Key × Value) → Bool
  | [] => true
  | (_, v) :: es => noDupValue v && noDupValueEntries es

end

mutual

/-- Every integer in the value has a decimal representation (sign
included) of at most 9 characters, so that the estimator's
`asciiSize.toString().length` term is exactly the one byte of the
`e` suffix. -/
def smallInts : Value → Bool
  | .int i => (intToDecBytes i).length < 10
  | .list xs => smallIntsList xs
  | .dict es => smallIntsEntries es
  | _ => true

/-- `smallInts` over the items of a list. -/
def smallIntsList : List Value → Bool
  | [] => true
  | x :: xs => smallInts x && smallIntsList xs

/-- `smallInts` over a dictionary's entry values. -/
def smallIntsEntries : List (Key × Value) → Bool
  | [] => true
  | (_, v) :: es => smallInts v && smallIntsEntries es

end

/-- Canonical wire bytes of a key. -/
def encKeyBytes : Key → Bytes
  | .text s =>
    textPrefixByte :: natToDecBytes (textEncoderEncode s).length ++
      textLengthDelimiterByte :: textEncoderEncode s
  | .binary b => natToDecBytes b.length ++ binaryLengthDelimiterByte :: b

/-- The entry selection performed by the dictionary walk of
`encodeInto` on the sorted triples: drop an entry whose key equals
the previously kept key (under `useFirst`/`useLast`), fail with
`RangeError` on it (under `error`/unset). -/
def walkSelect (options : NonAllocEncodingOptions) :
    Option Key → List ((Key × Value) × Nat) →
    Except EncodeError (List (Key × Value))
  | _, [] => .ok []
  | prev, ((k, v), _) :: rest =>
    if (match prev with
        | some pk => areKeysEqual k pk
        | none => false) then
      match options.onDuplicateKeys with
      | none | some .error => .error .rangeError
      | some .useFirst | some .useLast => walkSelect options prev rest
    else
      match walkSelect options (some k) rest with
      | .ok l => .ok ((k, v) :: l)
      | .error e => .error e

mutual

/-- Fueled canonical byte string of a value: the bytes `encodeInto`
produces when the buffer is large enough, or the exception it
throws.  The fuel discipline mirrors `encodeIntoF` call for call, so
the two functions run out of fuel together. -/
def encBytesF : Nat → Value → NonAllocEncodingOptions →
    Option (Except EncodeError Bytes)
  | 0, _, _ => none
  | fuel + 1, value, options =>
    match value with
    | .nil => some (.ok [nullAtomByte])
    | .bool b => some (.ok [if b then trueAtomByte else falseAtomByte])
    | .text s => some (.ok (encKeyBytes (.text s)))
    | .binary b => some (.ok (encKeyBytes (.binary b)))
    | .int i =>
      some (.ok (integerPrefixByte :: intToDecBytes i ++ [integerSuffixByte]))
    | .list xs =>
      match encBytesListF fuel xs options with
      | none => none
      | some (.error e) => some (.error e)
      | some (.ok bs) => some (.ok (listPrefixByte :: bs ++ [listSuffixByte]))
    | .dict es =>
      match encBytesWalkF fuel
          (insertionSort (entryLe options) (zipWithIndex es)) none options with
      | none => none
      | some (.error e) => some (.error e)
      | some (.ok bs) =>
        some (.ok (dictionaryPrefixByte :: bs ++ [dictionarySuffixByte]))
    | .num => some (.error .typeError)

/-- Canonical bytes of the items of a list value. -/
def encBytesListF : Nat → List Value → NonAllocEncodingOptions →
    Option (Except EncodeError Bytes)
  | 0, _, _ => none
  | _ + 1, [], _ => some (.ok [])
  | fuel + 1, x :: xs, options =>
    match encBytesF fuel x options with
    | none => none
    | some (.error e) => some (.error e)
    | some (.ok bs) =>
      match encBytesListF fuel xs options with
      | none => none
      | some (.error e) => some (.error e)
      | some (.ok bs2) => some (.ok (bs ++ bs2))

/-- Canonical bytes of the walked entries of a dictionary value. -/
def encBytesWalkF : Nat → List ((Key × Value) × Nat) → Option Key →
    NonAllocEncodingOptions → Option (Except EncodeError Bytes)
  | 0, _, _, _ => none
  | _ + 1, [], _, _ => some (.ok [])
  | fuel + 1, ((k, v), _) :: rest, prev, options =>
    if (match prev with
        | some pk => areKeysEqual k pk
        | none => false) then
      match options.onDuplicateKeys with
      | none | some .error => some (.error .rangeError)
      | some .useFirst | some .useLast => encBytesWalkF fuel rest prev options
    else
      match encBytesF fuel v options with
      | none => none
      | some (.error e) => some (.error e)
      | some (.ok vb) =>
        match encBytesWalkF fuel rest (some k) options with
        | none => none
        | some (.error e) => some (.error e)
        | some (.ok rb) => some (.ok (encKeyBytes k ++ vb ++ rb))

end

/-- Canonical byte string (or thrown exception) of a value under the
given options. -/
def encBytes (value : Value) (options : NonAllocEncodingOptions) :
    Except EncodeError Bytes :=
  (encBytesF (valueFuel value) value options).getD (.ok [])

mutual

/-- Total wire length of a value with dictionary entries counted
without deduplication: an upper bound on the encoder's output and a
lower bound on what the estimator reports. -/
def fullLen : Value → Nat
  | .nil => 1
  | .bool _ => 1
  | .int i => (intToDecBytes i).length + 2
  | .text s => (encKeyBytes (.text s)).length
  | .binary b => (encKeyBytes (.binary b)).length
  | .list xs => 2 + fullLenList xs
  | .dict es => 2 + fullLenEntries es
  | .num => 0

/-- `fullLen` summed over list items. -/
def fullLenList : List Value → Nat
  | [] => 0
  | x :: xs => fullLen x + fullLenList xs

/-- `fullLen` of keys and values summed over all entries. -/
def fullLenEntries : List (Key × Value) → Nat
  | [] => 0
  | (k, v) :: es => (encKeyBytes k).length + fullLen v + fullLenEntries es

end

/-- `fullLen` of keys and values summed over sorted entry triples. -/
def fullLenTriples : List ((Key × Value) × Nat) → Nat
  | [] => 0
  | ((k, v), _) :: ts => (encKeyBytes k).length + fullLen v + fullLenTriples ts

/-- Fuel budget of the dictionary walk over sorted entry triples. -/
def triplesFuel : List ((Key × Value) × Nat) → Nat
  | [] => 1
  | ((_, v), _) :: ts => 1 + valueFuel v + triplesFuel ts

/-! ### Concrete data of the spec's end-to-end scenarios -/

/-- The text key `"단팥"` (U+B2E8, U+D325) of scenario S4. -/
def s4TextKey : Key := .text [0xb2e8, 0xd325]

/-- The binary key `span` of scenarios S4 and S6. -/
def s4SpanKey : Key := .binary [0x73, 0x70, 0x61, 0x6e]

/-- The binary key `spam` of scenarios S4 and S6. -/
def s4SpamKey : Key := .binary [0x73, 0x70, 0x61, 0x6d]

/-- The 30 output bytes of scenario S4. -/
def s4Bytes : Bytes :=
  [0x64,
    0x34, 0x3a, 0x73, 0x70, 0x61, 0x6d, 0x74,
    0x34, 0x3a, 0x73, 0x70, 0x61, 0x6e, 0x6e,
    0x75, 0x36, 0x3a, 0xeb, 0x8b, 0xa8, 0xed, 0x8c, 0xa5,
    0x69, 0x31, 0x32, 0x33, 0x65,
    0x65]

/-- The 16 input bytes `d4:spann4:spamte` of scenario S6. -/
def s6Bytes : Bytes :=
  [0x64, 0x34, 0x3a, 0x73, 0x70, 0x61, 0x6e, 0x6e,
    0x34, 0x3a, 0x73, 0x70, 0x61, 0x6d, 0x74, 0x65]

/-- A key is byte-valued when its binary contents are octets (always
true of a real `Uint8Array`; text keys are unconstrained here). -/
def bytesKey : Key → Bool
  | .text _ => true
  | .binary b => b.all (· < 256)

/-- Specification-level lookup following the words of claim C9: the
value of the last pair in the sequence whose key is Key-equal to the
query, or `none` when no such pair exists. -/
def lastAssoc : List (Key × Value) → Key → Option Value
  | [], _ => none
  | (k0, v) :: rest, k =>
    match lastAssoc rest k with
    | some w => some w
    | none => if areKeysEqual k0 k then some v else none

/-! ## Claim theorems and supporting lemmas -/

/-- Every value has a positive fuel budget. -/
theorem valueFuel_pos (v : Value) : 1 ≤ valueFuel v := by
  cases v <;> simp [valueFuel]

/-- C4: encoding the dictionary `{ "단팥" → 123n, binary "span" → null,
binary "spam" → true }`, in each of the six iteration orders of its
three entries, produces exactly the 30 bytes of scenario S4 — binary
keys before the text key, and binary key `spam` before `span`. -/
theorem encode_mixed_dict_scenario :
    encode (.dict [(s4TextKey, .int 123), (s4SpanKey, .nil),
      (s4SpamKey, .bool true)]) {} = .ok s4Bytes ∧
    encode (.dict [(s4TextKey, .int 123), (s4SpamKey, .bool true),
      (s4SpanKey, .nil)]) {} = .ok s4Bytes ∧
    encode (.dict [(s4SpanKey, .nil), (s4TextKey, .int 123),
      (s4SpamKey, .bool true)]) {} = .ok s4Bytes ∧
    encode (.dict [(s4SpanKey, .nil), (s4SpamKey, .bool true),
      (s4TextKey, .int 123)]) {} = .ok s4Bytes ∧
    encode (.dict [(s4SpamKey, .bool true), (s4TextKey, .int 123),
      (s4SpanKey, .nil)]) {} = .ok s4Bytes ∧
    encode (.dict [(s4SpamKey, .bool true), (s4SpanKey, .nil),
      (s4TextKey, .int 123)]) {} = .ok s4Bytes :=
  ⟨rfl, rfl, rfl, rfl, rfl, rfl⟩

/-- C10: a zero-length output buffer makes `encodeInto` return
`{ written: 0, complete: false }` before any validation runs, so even
a value outside the Value grammar (a JavaScript `number`, or a tree
containing one) throws nothing. -/
theorem encodeInto_zero_length_buffer :
    ∀ (value : Value) (options : NonAllocEncodingOptions),
      encodeInto value [] options = .ok ([], ⟨0, false⟩) := by
  intro v options
  obtain ⟨n, hn⟩ := Nat.exists_eq_add_of_le (valueFuel_pos v)
  rw [encodeInto, hn, Nat.add_comm]
  simp [encodeIntoF]

/-- C2 (counterexample): for the bigint `1234567890n`, whose decimal
representation has 10 characters, `estimateSize` with best-effort
accuracy returns 13 while `encode` produces 12 bytes — the claimed
exactness fails for bigints with 10 or more decimal characters. -/
theorem estimateSize_bigint_counterexample :
    estimateSize (.int 1234567890) {} = .ok 13 ∧
    (encode (.int 1234567890) {}).map List.length = .ok 12 :=
  ⟨rfl, rfl⟩

/-- C6: with `onInvalidKeyOrder` unset (or `error`), the dictionary
loop of the decoder, having parsed key `k` after previous key `p`,
fails with `unorderedDictionaryKeys` when `compareKeys p k > 0` and
with `duplicateDictionaryKeys` when `compareKeys p k = 0`, reporting
`read` just past the offending key; concretely, `decodeValue` on the
16 bytes `d4:spann4:spamte` fails with `unorderedDictionaryKeys` at
`read = 14`, while with `onInvalidKeyOrder = "ignore"` the same bytes
decode to a dictionary holding both keys. -/
theorem decoder_key_order_enforcement :
    (∀ (fuel read r : Nat) (buffer : Bytes) (pairs : List (Key × Value))
        (p k : Key) (options : DecodingOptions),
        options.onInvalidKeyOrder ≠ some .ignore →
        read < buffer.length →
        buffer.getD read 0 ≠ dictionarySuffixByte →
        decodeKey (buffer.drop read) = .ok r k →
        (compareKeys p k > 0 →
          decodeDictLoopF (fuel + 1) buffer read pairs (some p) options =
            some (.err (read + r) .unorderedDictionaryKeys)) ∧
        (compareKeys p k = 0 →
          decodeDictLoopF (fuel + 1) buffer read pairs (some p) options =
            some (.err (read + r) .duplicateDictionaryKeys))) ∧
    decodeValue s6Bytes {} = .err 14 .unorderedDictionaryKeys ∧
    decodeValue s6Bytes ⟨some .ignore⟩ =
      .ok 16 (.dict [(s4SpanKey, .nil), (s4SpamKey, .bool true)]) := by
  refine ⟨?_, rfl, rfl⟩
  intro fuel read r buffer pairs p k options hmode hread hbyte hkey
  constructor
  · intro hgt
    simp only [decodeDictLoopF, if_pos (And.intro hread hbyte), hkey, hmode]
    simp [hgt]
    rw [if_neg hmode]
  · intro heq
    simp only [decodeDictLoopF, if_pos (And.intro hread hbyte), hkey, hmode]
    simp [heq]
    rw [if_neg hmode]

/-- Witness for C6: the general loop fact applied at the concrete S6
input (second key `spam` after first key `span`). -/
theorem decoder_key_order_enforcement_witness :
    decodeDictLoopF 31 s6Bytes 8 [(s4SpanKey, .nil)] (some s4SpanKey) {} =
      some (.err 14 .unorderedDictionaryKeys) := by
  have h := (decoder_key_order_enforcement).1 30 8 6 s6Bytes
    [(s4SpanKey, .nil)] s4SpanKey s4SpamKey {} (by decide) (by decide)
    (by decide) (by rfl)
  exact h.1 (by decide)

/-! ### Key-order lemmas (claim C3) -/

/-- `areUint8ArraysEqual` decides list equality. -/
theorem areUint8ArraysEqual_iff :
    ∀ a b : Bytes, areUint8ArraysEqual a b = true ↔ a = b := by
  intro a
  induction a with
  | nil => intro b; cases b <;> simp [areUint8ArraysEqual]
  | cons x xs ih =>
    intro b
    cases b with
    | nil => simp [areUint8ArraysEqual]
    | cons y ys => simp [areUint8ArraysEqual, ih]

/-- `compareUint8Arrays` only returns `-1`, `0` or `1`. -/
theorem compareUint8Arrays_trichotomy :
    ∀ a b : Bytes, compareUint8Arrays a b = -1 ∨ compareUint8Arrays a b = 0 ∨
      compareUint8Arrays a b = 1 := by
  intro a
  induction a with
  | nil => intro b; cases b <;> simp [compareUint8Arrays]
  | cons x xs ih =>
    intro b
    cases b with
    | nil => simp [compareUint8Arrays]
    | cons y ys =>
      by_cases h1 : x < y
      · simp [compareUint8Arrays, h1]
      · by_cases h2 : y < x
        · simp [compareUint8Arrays, h1, h2]
        · simpa [compareUint8Arrays, h1, h2] using ih ys

/-- `compareUint8Arrays` returns zero exactly on equal byte lists. -/
theorem compareUint8Arrays_eq_zero_iff :
    ∀ a b : Bytes, compareUint8Arrays a b = 0 ↔ a = b := by
  intro a
  induction a with
  | nil => intro b; cases b <;> simp [compareUint8Arrays]
  | cons x xs ih =>
    intro b
    cases b with
    | nil => simp [compareUint8Arrays]
    | cons y ys =>
      by_cases h1 : x < y
      · simp [compareUint8Arrays, h1]
        omega
      · by_cases h2 : y < x
        · simp [compareUint8Arrays, h1, h2]
          omega
        · have hxy : x = y := by omega
          simp [compareUint8Arrays, h1, h2, hxy, ih]

/-- `compareUint8Arrays` is antisymmetric. -/
theorem compareUint8Arrays_neg :
    ∀ a b : Bytes, compareUint8Arrays a b = -compareUint8Arrays b a := by
  intro a
  induction a with
  | nil => intro b; cases b <;> simp [compareUint8Arrays]
  | cons x xs ih =>
    intro b
    cases b with
    | nil => simp [compareUint8Arrays]
    | cons y ys =>
      by_cases h1 : x < y
      · have : ¬ y < x := by omega
        simp [compareUint8Arrays, h1, this]
      · by_cases h2 : y < x
        · simp [compareUint8Arrays, h1, h2]
        · simp [compareUint8Arrays, h1, h2, ih ys]

/-- `compareUint8Arrays` returns `-1` exactly on the lexicographic
strict order (a strict prefix precedes its extensions). -/
theorem compareUint8Arrays_eq_neg_one_iff :
    ∀ a b : Bytes, compareUint8Arrays a b = -1 ↔ List.Lex (· < ·) a b := by
  intro a
  induction a with
  | nil =>
    intro b
    cases b with
    | nil => simp [compareUint8Arrays]
    | cons y ys =>
      simp [compareUint8Arrays]
      exact List.Lex.nil
  | cons x xs ih =>
    intro b
    cases b with
    | nil =>
      simp [compareUint8Arrays]
    | cons y ys =>
      by_cases h1 : x < y
      · simp [compareUint8Arrays, h1]
        exact List.Lex.rel h1
      · by_cases h2 : y < x
        · simp [compareUint8Arrays, h1, h2]
          intro h
          cases h with
          | rel h => omega
          | cons h => omega
        · have hxy : x = y := by omega
          subst hxy
          simp [compareUint8Arrays, h1, h2, ih ys]
          constructor
          · exact fun h => List.Lex.cons h
          · intro h
            cases h with
            | rel h => omega
            | cons h => exact h

/-- `compareUint8Arrays` at `-1` is transitive. -/
theorem compareUint8Arrays_trans :
    ∀ a b c : Bytes, compareUint8Arrays a b = -1 →
      compareUint8Arrays b c = -1 → compareUint8Arrays a c = -1 := by
  intro a
  induction a with
  | nil =>
    intro b c hab hbc
    cases b with
    | nil => simp [compareUint8Arrays] at hab
    | cons y ys =>
      cases c with
      | nil => simp [compareUint8Arrays] at hbc
      | cons z zs => simp [compareUint8Arrays]
  | cons x xs ih =>
    intro b c hab hbc
    cases b with
    | nil => simp [compareUint8Arrays] at hab
    | cons y ys =>
      cases c with
      | nil => simp [compareUint8Arrays] at hbc
      | cons z zs =>
        by_cases hxy : x < y
        · by_cases hyz : y < z
          · have : x < z := by omega
            simp [compareUint8Arrays, this]
          · by_cases hzy : z < y
            · simp [compareUint8Arrays, hyz, hzy] at hbc
            · have : y = z := by omega
              subst this
              simp [compareUint8Arrays, hxy]
        · by_cases hyx : y < x
          · simp [compareUint8Arrays, hxy, hyx] at hab
          · have hxy2 : x = y := by omega
            subst hxy2
            simp [compareUint8Arrays, hxy] at hab
            by_cases hyz : x < z
            · simp [compareUint8Arrays, hyz]
            · by_cases hzy : z < x
              · simp [compareUint8Arrays, hyz, hzy] at hbc
              · have : x = z := by omega
                subst this
                simp [compareUint8Arrays, hyz] at hbc ⊢
                exact ih ys zs hab hbc

/-- JavaScript string `<` coincides with `compareUint8Arrays` being
`-1` on the code-unit sequences. -/
theorem jsStrLt_iff_compare :
    ∀ a b : Str, jsStrLt a b = true ↔ compareUint8Arrays a b = -1 := by
  intro a
  induction a with
  | nil => intro b; cases b <;> simp [jsStrLt, compareUint8Arrays]
  | cons x xs ih =>
    intro b
    cases b with
    | nil => simp [jsStrLt, compareUint8Arrays]
    | cons y ys =>
      by_cases h1 : x < y
      · simp [jsStrLt, compareUint8Arrays, h1]
      · by_cases h2 : y < x
        · simp [jsStrLt, compareUint8Arrays, h1, h2]
        · simp [jsStrLt, compareUint8Arrays, h1, h2, ih ys]

/-- C3: `compareKeys` is a total order on keys returning only `-1`,
`0` and `1`: binary keys precede text keys; on two binary keys it is
the lexicographic byte order (strict prefix first); on two text keys
it is the lexicographic UTF-16 code-unit order (strict prefix
first); it is antisymmetric and transitive; and it returns `0`
exactly when `areKeysEqual` holds. -/
theorem compareKeys_total_order :
    (∀ a b : Key, compareKeys a b = -1 ∨ compareKeys a b = 0 ∨
      compareKeys a b = 1) ∧
    (∀ (bb : Bytes) (s : Str), compareKeys (.binary bb) (.text s) < 0) ∧
    (∀ a b : Bytes,
      compareKeys (.binary a) (.binary b) < 0 ↔ List.Lex (· < ·) a b) ∧
    (∀ s t : Str,
      compareKeys (.text s) (.text t) < 0 ↔ List.Lex (· < ·) s t) ∧
    (∀ a b : Key, compareKeys a b = -compareKeys b a) ∧
    (∀ a b c : Key, compareKeys a b < 0 → compareKeys b c < 0 →
      compareKeys a c < 0) ∧
    (∀ a b : Key, compareKeys a b = 0 ↔ areKeysEqual a b = true) := by
  have hlt : ∀ a b : Bytes, compareUint8Arrays a b < 0 ↔
      compareUint8Arrays a b = -1 := by
    intro a b
    rcases compareUint8Arrays_trichotomy a b with h | h | h <;> rw [h] <;> omega
  have htextlt : ∀ s t : Str, compareKeys (.text s) (.text t) < 0 ↔
      compareUint8Arrays s t = -1 := by
    intro s t
    by_cases h : jsStrLt s t = true
    · simp [compareKeys, h, (jsStrLt_iff_compare s t).mp h]
    · simp [compareKeys, h]
      constructor
      · intro hc
        split at hc <;> omega
      · intro hc
        exact absurd ((jsStrLt_iff_compare s t).mpr hc) h
  refine ⟨?_, ?_, ?_, ?_, ?_, ?_, ?_⟩
  · intro a b
    cases a <;> cases b
    case text.text s t =>
      by_cases h : jsStrLt s t = true
      · left; simp [compareKeys, h]
      · by_cases h2 : s = t
        · subst h2
          right; left; simp [compareKeys, h]
        · right; right; simp [compareKeys, h, h2]
    case text.binary s b => right; right; rfl
    case binary.text b s => left; rfl
    case binary.binary a b => exact compareUint8Arrays_trichotomy a b
  · intro bb s
    simp [compareKeys]
  · intro a b
    rw [show compareKeys (.binary a) (.binary b) = compareUint8Arrays a b
        from rfl, hlt, compareUint8Arrays_eq_neg_one_iff]
  · intro s t
    rw [htextlt, compareUint8Arrays_eq_neg_one_iff]
  · intro a b
    cases a <;> cases b
    case text.binary s bb => simp [compareKeys]
    case binary.text bb s => simp [compareKeys]
    case binary.binary a b => exact compareUint8Arrays_neg a b
    case text.text s t =>
      simp only [compareKeys]
      by_cases hst : jsStrLt s t = true
      · have hcmp := (jsStrLt_iff_compare s t).mp hst
        have hts : compareUint8Arrays t s = 1 := by
          have := compareUint8Arrays_neg t s
          omega
        have h2 : jsStrLt t s ≠ true := by
          intro h
          have := (jsStrLt_iff_compare t s).mp h
          omega
        have hne : ¬ t = s := by
          intro he
          subst he
          rw [(compareUint8Arrays_eq_zero_iff t t).mpr rfl] at hcmp
          omega
        simp [hst, h2, hne]
      · by_cases hts : jsStrLt t s = true
        · have hcmp := (jsStrLt_iff_compare t s).mp hts
          have hne : ¬ s = t := by
            intro he
            subst he
            rw [(compareUint8Arrays_eq_zero_iff s s).mpr rfl] at hcmp
            omega
          simp [hst, hts, hne]
        · have h1 : compareUint8Arrays s t ≠ -1 :=
            fun h => hst ((jsStrLt_iff_compare s t).mpr h)
          have h2 : compareUint8Arrays t s ≠ -1 :=
            fun h => hts ((jsStrLt_iff_compare t s).mpr h)
          have h3 : compareUint8Arrays s t = 0 := by
            have ha := compareUint8Arrays_trichotomy s t
            have hb := compareUint8Arrays_neg s t
            omega
          have he : s = t := (compareUint8Arrays_eq_zero_iff s t).mp h3
          subst he
          simp [hst, hts]
  · intro a b c hab hbc
    cases a <;> cases b <;> cases c
    case text.text.text s t u =>
      rw [htextlt] at hab hbc ⊢
      exact compareUint8Arrays_trans s t u hab hbc
    case binary.binary.binary a b c =>
      simp only [compareKeys] at hab hbc ⊢
      rw [hlt] at hab hbc ⊢
      exact compareUint8Arrays_trans a b c hab hbc
    case text.binary.text s bb u => simp only [compareKeys] at hab; omega
    case text.binary.binary s bb c => simp only [compareKeys] at hab; omega
    case text.text.binary s t c => simp only [compareKeys] at hbc; omega
    case binary.text.text bb t u => simp only [compareKeys]; omega
    case binary.binary.text a b u => simp only [compareKeys]; omega
    case binary.text.binary a t c => simp only [compareKeys] at hbc; omega
  · intro a b
    cases a <;> cases b
    case text.binary s bb => simp [compareKeys, areKeysEqual]
    case binary.text bb s => simp [compareKeys, areKeysEqual]
    case binary.binary a b =>
      simp only [compareKeys, areKeysEqual]
      rw [show ((compareUint8Arrays a b : Int) = 0 ↔ a = b)
          from compareUint8Arrays_eq_zero_iff a b, areUint8ArraysEqual_iff]
    case text.text s t =>
      simp only [compareKeys, areKeysEqual]
      by_cases hst : jsStrLt s t = true
      · have hcmp := (jsStrLt_iff_compare s t).mp hst
        have hne : ¬ s = t := by
          intro he
          subst he
          rw [(compareUint8Arrays_eq_zero_iff s s).mpr rfl] at hcmp
          omega
        simp [hst, hne]
      · by_cases he : s = t
        · subst he
          simp [hst]
        · simp [hst, he]

/-- Witness for C3: the order facts instantiated at concrete keys
(transitivity at three binary keys, the zero-iff at equal text
keys). -/
theorem compareKeys_total_order_witness :
    compareKeys (.binary [1]) (.binary [3]) < 0 ∧
    compareKeys (.text [5]) (.text [5]) = 0 := by
  refine ⟨compareKeys_total_order.2.2.2.2.2.1
    (.binary [1]) (.binary [2]) (.binary [3]) (by decide) (by decide), ?_⟩
  exact (compareKeys_total_order.2.2.2.2.2.2 (.text [5]) (.text [5])).mpr
    (by decide)

/-! ### Decoder position lemmas (claims C6/C7) -/

/-- The digit loop never reads past the buffer. -/
theorem decodeAsciiNaturalNumberAux_le :
    ∀ (b : Bytes) (acc : Nat), (decodeAsciiNaturalNumberAux b acc).1 ≤ b.length := by
  intro b
  induction b with
  | nil => intro acc; simp [decodeAsciiNaturalNumberAux]
  | cons x xs ih =>
    intro acc
    by_cases h : 0x30 ≤ x ∧ x ≤ 0x39
    · simp only [decodeAsciiNaturalNumberAux, if_pos h, List.length_cons]
      have := ih (acc * 10 + (x - 0x30))
      omega
    · simp [decodeAsciiNaturalNumberAux, if_neg h]

/-- `decodeAsciiNaturalNumber` never reads past the buffer. -/
theorem decodeAsciiNaturalNumber_read_le (b : Bytes) :
    (decodeAsciiNaturalNumber b).read ≤ b.length := by
  have := decodeAsciiNaturalNumberAux_le b 0
  simp only [decodeAsciiNaturalNumber]
  split <;> simp <;> omega

/-- A non-default `getD` result witnesses an in-range index. -/
theorem getD_ne_imp_lt {b : Bytes} {i d : Nat} (h : b.getD i d ≠ d) :
    i < b.length := by
  by_contra hge
  rw [List.getD_eq_default] at h
  · exact h rfl
  · omega

/-- `decodeKey` never reads past the buffer. -/
theorem decodeKey_read_le (b : Bytes) : (decodeKey b).read ≤ b.length := by
  have h1 := decodeAsciiNaturalNumber_read_le (b.drop 1)
  have h1t := decodeAsciiNaturalNumber_read_le b.tail
  have h2 := decodeAsciiNaturalNumber_read_le b
  rw [List.length_drop] at h1
  rw [List.length_tail] at h1t
  simp only [decodeKey]
  split_ifs <;> simp only [DecState.read] <;> omega

/-- A successful `decodeKey` reads at least one byte. -/
theorem decodeKey_read_pos {b : Bytes} {r : Nat} {k : Key}
    (h : decodeKey b = .ok r k) : 1 ≤ r := by
  revert h
  simp only [decodeKey]
  split_ifs <;> intro h <;> cases h <;> omega

/-- `decodeInteger` never reads past the buffer. -/
theorem decodeInteger_read_le (b : Bytes) (hb : 1 ≤ b.length) :
    (decodeInteger b).read ≤ b.length := by
  have h1 := decodeAsciiNaturalNumber_read_le (b.drop 1)
  have h2 := decodeAsciiNaturalNumber_read_le (b.drop 2)
  rw [List.length_drop] at h1 h2
  simp only [decodeInteger]
  by_cases hneg : b.getD 1 0 = integerMinusSignByte
  · have hlen2 : 1 < b.length := @getD_ne_imp_lt b 1 0
      (by rw [hneg]; simp [integerMinusSignByte])
    simp only [hneg, eq_self_iff_true, if_true]
    split_ifs with hA hB
    · simp only [DecState.read]
      omega
    · simp only [DecState.read]
      omega
    · push_neg at hB
      have : 2 + (decodeAsciiNaturalNumber (b.drop 2)).read < b.length :=
        @getD_ne_imp_lt b (2 + (decodeAsciiNaturalNumber (b.drop 2)).read) 0
          (by rw [hB]; simp [integerSuffixByte])
      simp only [DecState.read]
      omega
  · simp only [hneg, if_false]
    split_ifs with hA hB
    · simp only [DecState.read]
      omega
    · simp only [DecState.read]
      omega
    · push_neg at hB
      have : 1 + (decodeAsciiNaturalNumber (b.drop 1)).read < b.length :=
        @getD_ne_imp_lt b (1 + (decodeAsciiNaturalNumber (b.drop 1)).read) 0
          (by rw [hB]; simp [integerSuffixByte])
      simp only [DecState.read]
      omega

/-- Mutual position invariant: the decoder's `read` never exceeds the
buffer length (the loops assuming their entry offset is in range). -/
theorem decodeValueF_read_le : ∀ fuel : Nat,
    (∀ (b : Bytes) (o : DecodingOptions) (st : DecState Value DecodingErrorKind),
      decodeValueF fuel b o = some st → st.read ≤ b.length) ∧
    (∀ (b : Bytes) (read : Nat) (acc : List Value) (o : DecodingOptions)
        (st : DecState Value DecodingErrorKind), read ≤ b.length →
      decodeListLoopF fuel b read acc o = some st → st.read ≤ b.length) ∧
    (∀ (b : Bytes) (read : Nat) (pairs : List (Key × Value)) (prev : Option Key)
        (o : DecodingOptions) (st : DecState Value DecodingErrorKind),
        read ≤ b.length →
      decodeDictLoopF fuel b read pairs prev o = some st → st.read ≤ b.length) := by
  intro fuel
  induction fuel with
  | zero =>
    refine ⟨?_, ?_, ?_⟩ <;> intros <;> simp_all [decodeValueF,
      decodeListLoopF, decodeDictLoopF]
  | succ fuel ih =>
    obtain ⟨ihv, ihl, ihd⟩ := ih
    refine ⟨?_, ?_, ?_⟩
    · intro b o st h
      simp only [decodeValueF] at h
      split_ifs at h with h1 h2 h3 h4 h5 h6 h7 h8
      · cases h; simp [DecState.read]
      · have hk := decodeKey_read_le b
        split at h <;> cases h <;> simp_all [DecState.read]
      · cases h; simp [DecState.read]; omega
      · cases h; simp [DecState.read]; omega
      · cases h; simp [DecState.read]; omega
      · cases h
        exact decodeInteger_read_le b (by omega)
      · exact ihl b 1 [] o st (by omega) h
      · exact ihd b 1 [] none o st (by omega) h
      · cases h; simp [DecState.read]
    · intro b read acc o st hr h
      simp only [decodeListLoopF] at h
      split_ifs at h with h1 hge
      · split at h
        · cases h
        · rename_i r e hv
          have hvle := ihv _ _ _ hv
          simp only [DecState.read, List.length_drop] at hvle
          cases h
          simp only [DecState.read]
          omega
        · rename_i r v hv
          have hvle := ihv _ _ _ hv
          simp only [DecState.read, List.length_drop] at hvle
          exact ihl b (read + r) (acc ++ [v]) o st (by omega) h
      · cases h
        simp only [DecState.read]
        omega
      · cases h
        simp only [DecState.read]
        omega
    · intro b read pairs prev o st hr h
      simp only [decodeDictLoopF] at h
      split_ifs at h with h1 hmode hge
      · obtain ⟨hlt, hne⟩ := h1
        split at h
        · rename_i r e hk
          have hkle := decodeKey_read_le (b.drop read)
          rw [hk] at hkle
          simp only [DecState.read, List.length_drop] at hkle
          cases h
          simp only [DecState.read]
          omega
        · rename_i r k hk
          have hkle := decodeKey_read_le (b.drop read)
          rw [hk] at hkle
          simp only [DecState.read, List.length_drop] at hkle
          split at h
          · cases h
            simp only [DecState.read]
            omega
          · split at h
            · cases h
            · rename_i r2 e hv
              have hvle := ihv _ _ _ hv
              simp only [DecState.read, List.length_drop] at hvle
              cases h
              simp only [DecState.read]
              omega
            · rename_i r2 v hv
              have hvle := ihv _ _ _ hv
              simp only [DecState.read, List.length_drop] at hvle
              exact ihd b (read + r + r2) (pairs ++ [(k, v)]) _ o st
                (by omega) h
      · obtain ⟨hlt, hne⟩ := h1
        split at h
        · rename_i r e hk
          have hkle := decodeKey_read_le (b.drop read)
          rw [hk] at hkle
          simp only [DecState.read, List.length_drop] at hkle
          cases h
          simp only [DecState.read]
          omega
        · rename_i r k hk
          have hkle := decodeKey_read_le (b.drop read)
          rw [hk] at hkle
          simp only [DecState.read, List.length_drop] at hkle
          dsimp only [] at h
          split at h
          · cases h
          · rename_i r2 e hv
            have hvle := ihv _ _ _ hv
            simp only [DecState.read, List.length_drop] at hvle
            cases h
            simp only [DecState.read]
            omega
          · rename_i r2 v hv
            have hvle := ihv _ _ _ hv
            simp only [DecState.read, List.length_drop] at hvle
            exact ihd b (read + r + r2) (pairs ++ [(k, v)]) _ o st
              (by omega) h
      · cases h
        simp only [DecState.read]
        omega
      · cases h
        simp only [DecState.read]
        omega

/-- `decodeValue` never reports a position past the buffer. -/
theorem decodeValue_read_le (b : Bytes) (o : DecodingOptions) :
    (decodeValue b o).read ≤ b.length := by
  unfold decodeValue
  rcases h : decodeValueF (2 * b.length + 2) b o with _ | st
  · simp [DecState.read]
  · simpa using (decodeValueF_read_le (2 * b.length + 2)).1 b o st h

/-- C7: `decode` returns a value exactly when `decodeValue` consumes
the whole buffer; a successful partial parse throws `unexpectedByte`
positioned at the first trailing byte; and a failed parse throws the
parse error's kind at its read offset. -/
theorem decode_whole_buffer :
    ∀ (buffer : Bytes) (options : DecodingOptions),
      (∀ v, decode buffer options = .ok v ↔
        decodeValue buffer options = .ok buffer.length v) ∧
      (∀ read v, decodeValue buffer options = .ok read v →
        read < buffer.length →
        decode buffer options = .error ⟨read, .unexpectedByte⟩) ∧
      (∀ read e, decodeValue buffer options = .err read e →
        decode buffer options = .error ⟨read, e⟩) := by
  intro buffer options
  refine ⟨?_, ?_, ?_⟩
  · intro v
    constructor
    · intro h
      unfold decode at h
      rcases hd : decodeValue buffer options with ⟨read, w⟩ | ⟨read, e⟩ <;>
        rw [hd] at h <;> dsimp only [] at h
      · have hle : read ≤ buffer.length := by
          have := decodeValue_read_le buffer options
          rw [hd] at this
          simpa [DecState.read] using this
        split_ifs at h with hlt
        cases h
        have hrl : read = List.length buffer := by omega
        rw [hrl]
      · cases h
    · intro h
      unfold decode
      rw [h]
      simp
  · intro read v h hlt
    unfold decode
    rw [h]
    dsimp only []
    rw [if_pos hlt]
  · intro read e h
    unfold decode
    rw [h]

/-- Witness for C7: the whole-buffer law applied to the one-byte
buffer `n`, which decodes to null. -/
theorem decode_whole_buffer_witness : decode [0x6e] {} = .ok .nil :=
  ((decode_whole_buffer [0x6e] {}).1 .nil).mpr (by rfl)

/-- The base64 alphabet is injective on 6-bit indexes. -/
theorem base64Char_lt_inj :
    ∀ i < 64, ∀ j < 64, base64Char i = base64Char j → i = j := by decide

/-- No alphabet character is the padding byte. -/
theorem base64Char_ne_pad : ∀ i < 64, base64Char i ≠ 0x3d := by decide

/-- The empty byte string is the only one with an empty digest. -/
theorem base64Encode_eq_nil_iff (b : Bytes) :
    base64Encode b = [] ↔ b = [] := by
  rcases b with _ | ⟨b1, _ | ⟨b2, _ | ⟨b3, rest⟩⟩⟩ <;> simp [base64Encode]

/-- The standard base64 digest is injective on octet strings. -/
theorem base64Encode_inj :
    ∀ (n : Nat) (a b : Bytes), a.length ≤ n →
      a.all (· < 256) = true → b.all (· < 256) = true →
      base64Encode a = base64Encode b → a = b := by
  intro n
  induction n with
  | zero =>
    intro a b hl _ _ h
    have ha : a = [] := by
      cases a
      · rfl
      · simp at hl
    subst ha
    simp only [base64Encode] at h
    exact ((base64Encode_eq_nil_iff b).mp h.symm).symm
  | succ n ih =>
    intro a b hl hab hbb h
    rcases a with _ | ⟨a1, _ | ⟨a2, _ | ⟨a3, arest⟩⟩⟩
    · simp only [base64Encode] at h
      exact ((base64Encode_eq_nil_iff b).mp h.symm).symm
    all_goals (
      rcases b with _ | ⟨b1, _ | ⟨b2, _ | ⟨b3, brest⟩⟩⟩ <;>
        simp [base64Encode] at h hab hbb ⊢)
    case succ.cons.nil.cons.nil =>
      obtain ⟨h1, h2⟩ := h
      have e1 := base64Char_lt_inj _ (by omega) _ (by omega) h1
      have e2 := base64Char_lt_inj _ (by omega) _ (by omega) h2
      omega
    case succ.cons.nil.cons.cons.nil =>
      exact absurd h.2.2.symm (base64Char_ne_pad _ (by omega))
    case succ.cons.nil.cons.cons.cons =>
      exact absurd h.2.2.1.symm (base64Char_ne_pad _ (by omega))
    case succ.cons.cons.nil.cons.nil =>
      exact absurd h.2.2 (base64Char_ne_pad _ (by omega))
    case succ.cons.cons.nil.cons.cons.nil =>
      obtain ⟨h1, h2, h3⟩ := h
      have e1 := base64Char_lt_inj _ (by omega) _ (by omega) h1
      have e2 := base64Char_lt_inj _ (by omega) _ (by omega) h2
      have e3 := base64Char_lt_inj _ (by omega) _ (by omega) h3
      exact ⟨by omega, by omega⟩
    case succ.cons.cons.nil.cons.cons.cons =>
      exact absurd h.2.2.2.1.symm (base64Char_ne_pad _ (by omega))
    case succ.cons.cons.cons.cons.nil =>
      exact absurd h.2.2.1 (base64Char_ne_pad _ (by omega))
    case succ.cons.cons.cons.cons.cons.nil =>
      exact absurd h.2.2.2.1 (base64Char_ne_pad _ (by omega))
    case succ.cons.cons.cons.cons.cons.cons =>
      obtain ⟨h1, h2, h3, h4, h5⟩ := h
      obtain ⟨ha1, ha2, ha3, harest⟩ := hab
      obtain ⟨hb1, hb2, hb3, hbrest⟩ := hbb
      have e1 := base64Char_lt_inj _ (by omega) _ (by omega) h1
      have e2 := base64Char_lt_inj _ (by omega) _ (by omega) h2
      have e3 := base64Char_lt_inj _ (by omega) _ (by omega) h3
      have e4 := base64Char_lt_inj _ (by omega) _ (by omega) h4
      have etail := ih arest brest (by simp at hl; omega)
        (by simpa using harest) (by simpa using hbrest) h5
      exact ⟨by omega, by omega, by omega, etail⟩

/-- `areKeysEqual` decides key equality. -/
theorem areKeysEqual_iff : ∀ a b : Key, areKeysEqual a b = true ↔ a = b := by
  intro a b
  cases a <;> cases b <;>
    simp [areKeysEqual, areUint8ArraysEqual_iff]

/-- `areKeysEqual` is reflexive. -/
theorem areKeysEqual_refl (a : Key) : areKeysEqual a a = true :=
  (areKeysEqual_iff a a).mpr rfl

/-- `areUint8ArraysEqual` is reflexive. -/
theorem areUint8ArraysEqual_refl (a : Bytes) : areUint8ArraysEqual a a = true :=
  (areUint8ArraysEqual_iff a a).mpr rfl

/-- Inserting a long-binary key makes it findable with its value. -/
theorem longerBinaryInsert_find_self (l : List (Bytes × Value)) (key : Bytes)
    (v : Value) :
    ((longerBinaryInsert l key v).1.find? fun p => areUint8ArraysEqual p.1 key) =
      some (key, v) := by
  induction l with
  | nil => simp [longerBinaryInsert, List.find?, areUint8ArraysEqual_refl]
  | cons hd rest ih =>
    obtain ⟨k0, w⟩ := hd
    by_cases h : areUint8ArraysEqual k0 key = true
    · simp [longerBinaryInsert, h, List.find?, areUint8ArraysEqual_refl]
    · simp only [longerBinaryInsert, h, if_false, Bool.false_eq_true]
      simpa [List.find?, h] using ih

/-- Inserting a long-binary key leaves other keys' lookups unchanged. -/
theorem longerBinaryInsert_find_other (l : List (Bytes × Value)) (key c : Bytes)
    (v : Value) (h : areUint8ArraysEqual key c = false) :
    ((longerBinaryInsert l key v).1.find? fun p => areUint8ArraysEqual p.1 c) =
      l.find? fun p => areUint8ArraysEqual p.1 c := by
  induction l with
  | nil => simp [longerBinaryInsert, List.find?, h]
  | cons hd rest ih =>
    obtain ⟨k0, w⟩ := hd
    by_cases h0 : areUint8ArraysEqual k0 key = true
    · have hk0 : k0 = key := (areUint8ArraysEqual_iff k0 key).mp h0
      subst hk0
      simp [longerBinaryInsert, List.find?, h, areUint8ArraysEqual_refl]
    · simp only [longerBinaryInsert, h0, if_false, Bool.false_eq_true]
      by_cases hc : areUint8ArraysEqual k0 c = true
      · simp [List.find?, hc]
      · simpa [List.find?, hc] using ih

/-- The replaced-in-place flag of the long-binary insert is exactly
the membership scan. -/
theorem longerBinaryInsert_flag (l : List (Bytes × Value)) (key : Bytes)
    (v : Value) :
    (longerBinaryInsert l key v).2 =
      l.any fun p => areUint8ArraysEqual p.1 key := by
  induction l with
  | nil => simp [longerBinaryInsert]
  | cons hd rest ih =>
    obtain ⟨k0, w⟩ := hd
    by_cases h : areUint8ArraysEqual k0 key = true
    · simp [longerBinaryInsert, h]
    · simp only [longerBinaryInsert, h, if_false, Bool.false_eq_true, List.any_cons]
      simpa [h] using ih

/-- Appending one pair overrides `lastAssoc` at its key. -/
theorem lastAssoc_append (ps : List (Key × Value)) (p : Key × Value) (k : Key) :
    lastAssoc (ps ++ [p]) k =
      if areKeysEqual p.1 k = true then some p.2 else lastAssoc ps k := by
  induction ps with
  | nil => simp [lastAssoc]
  | cons hd rest ih =>
    obtain ⟨k0, v0⟩ := hd
    simp only [List.cons_append, lastAssoc, List.append_eq]
    rw [ih]
    by_cases hp : areKeysEqual p.1 k = true
    · simp [hp]
    · simp [hp]

/-- Appending one pair extends key membership. -/
theorem dictKeyMember_append (ps : List (Key × Value)) (p : Key × Value)
    (k : Key) :
    dictKeyMember k (ps ++ [p]) = (dictKeyMember k ps || areKeysEqual p.1 k) := by
  induction ps with
  | nil => simp [dictKeyMember]
  | cons hd rest ih =>
    obtain ⟨k0, v0⟩ := hd
    simp [dictKeyMember, ih, Bool.or_assoc]

/-- Appending one pair grows the distinct-key count exactly on fresh
keys. -/
theorem dictSize_append (ps : List (Key × Value)) (p : Key × Value) :
    dictSize (ps ++ [p]) =
      if dictKeyMember p.1 ps = true then dictSize ps else dictSize ps + 1 := by
  induction ps with
  | nil => simp [dictSize, dictKeyMember]
  | cons hd rest ih =>
    obtain ⟨k0, v0⟩ := hd
    simp only [List.cons_append, dictSize, dictKeyMember, List.append_eq,
      dictKeyMember_append, ih]
    by_cases h1 : k0 = p.1
    · subst h1
      simp only [areKeysEqual_refl, Bool.or_true, if_true]
      by_cases h2 : dictKeyMember p.1 rest = true <;> simp [h2] <;> omega
    · have hne : areKeysEqual p.1 k0 = false := by
        rcases hq : areKeysEqual p.1 k0
        · rfl
        · exact absurd ((areKeysEqual_iff _ _).mp hq).symm h1
      have hne2 : areKeysEqual k0 p.1 = false := by
        rcases hq : areKeysEqual k0 p.1
        · rfl
        · exact absurd ((areKeysEqual_iff _ _).mp hq) h1
      simp only [hne, hne2, Bool.or_false, Bool.false_or]
      by_cases h2 : dictKeyMember k0 rest = true <;>
        by_cases h3 : dictKeyMember p.1 rest = true <;>
        simp [h2, h3] <;> omega

/-- A present key forces a positive distinct-key count. -/
theorem dictSize_pos_of_member (ps : List (Key × Value)) (k : Key)
    (h : dictKeyMember k ps = true) : 1 ≤ dictSize ps := by
  induction ps with
  | nil => simp [dictKeyMember] at h
  | cons hd rest ih =>
    obtain ⟨k0, v0⟩ := hd
    simp only [dictKeyMember, Bool.or_eq_true] at h
    simp only [dictSize]
    rcases h with h | h
    · have hk : k0 = k := (areKeysEqual_iff _ _).mp h
      subst hk
      by_cases h2 : dictKeyMember k0 rest = true
      · have := ih h2
        omega
      · simp [h2]
    · have := ih h
      omega

/-! ### Decimal-digit toolkit -/

/-- `natToDecAux` ignores any sufficient fuel. -/
theorem natToDecAux_fuel_eq :
    ∀ n f, n < f → natToDecAux f n = natToDecBytes n := by
  intro n
  induction n using Nat.strong_induction_on with
  | _ n ih =>
    intro f hf
    match f, hf with
    | f + 1, hf =>
      by_cases h : n < 10
      · simp [natToDecAux, natToDecBytes, h]
      · have h10 : (10 : Nat) ≤ n := by omega
        have hd : n / 10 < n := by omega
        simp only [natToDecAux, h, if_false]
        rw [ih (n / 10) hd f (by omega)]
        have e1 : natToDecBytes n = natToDecAux n (n / 10) ++ [0x30 + n % 10] := by
          simp only [natToDecBytes, natToDecAux, h, if_false]
        rw [e1, ih (n / 10) hd n (by omega)]

/-- One-digit rendering. -/
theorem natToDecBytes_small {n : Nat} (h : n < 10) :
    natToDecBytes n = [0x30 + n] := by
  simp [natToDecBytes, natToDecAux, h]

/-- Multi-digit rendering peels the last digit. -/
theorem natToDecBytes_step {n : Nat} (h : 10 ≤ n) :
    natToDecBytes n = natToDecBytes (n / 10) ++ [0x30 + n % 10] := by
  have h1 : ¬ n < 10 := by omega
  have e1 : natToDecBytes n = natToDecAux n (n / 10) ++ [0x30 + n % 10] := by
    simp only [natToDecBytes, natToDecAux, h1, if_false]
  rw [e1, natToDecAux_fuel_eq (n / 10) n (by omega)]

/-- A decimal rendering is never empty. -/
theorem natToDecBytes_len_pos (n : Nat) : 1 ≤ (natToDecBytes n).length := by
  by_cases h : n < 10
  · simp [natToDecBytes_small h]
  · rw [natToDecBytes_step (by omega)]
    simp

/-- Digit-count characterization of the decimal rendering. -/
theorem natToDecBytes_len_le_iff :
    ∀ n k, (natToDecBytes n).length ≤ k + 1 ↔ n < 10 ^ (k + 1) := by
  intro n
  induction n using Nat.strong_induction_on with
  | _ n ih =>
    intro k
    by_cases h : n < 10
    · rw [natToDecBytes_small h]
      simp only [List.length_cons, List.length_nil]
      constructor
      · intro _
        have h10 : (10 : Nat) = 10 ^ 1 := by norm_num
        calc n < 10 := h
        _ ≤ 10 ^ (k + 1) := by
          rw [h10]
          exact Nat.pow_le_pow_right (by norm_num) (by omega)
      · intro _
        omega
    · rw [natToDecBytes_step (by omega)]
      rw [List.length_append]
      simp only [List.length_cons, List.length_nil]
      cases k with
      | zero =>
        have hp := natToDecBytes_len_pos (n / 10)
        constructor
        · intro hle
          omega
        · intro hlt
          have : (10 : Nat) ^ 1 = 10 := by norm_num
          omega
      | succ k2 =>
        have ihn := ih (n / 10) (by omega) k2
        have hdiv : n / 10 < 10 ^ (k2 + 1) ↔ n < 10 ^ (k2 + 1 + 1) := by
          rw [Nat.div_lt_iff_lt_mul (by norm_num)]
          rw [pow_succ 10 (k2 + 1)]
        constructor
        · intro hle
          exact hdiv.mp (ihn.mp (by omega))
        · intro hlt
          have := ihn.mpr (hdiv.mpr hlt)
          omega

/-- Digit counts are monotone. -/
theorem natToDecBytes_len_mono {m n : Nat} (h : m ≤ n) :
    (natToDecBytes m).length ≤ (natToDecBytes n).length := by
  have h1 := natToDecBytes_len_pos n
  have h2 := (natToDecBytes_len_le_iff n ((natToDecBytes n).length - 1)).mp
    (by omega)
  have h3 := (natToDecBytes_len_le_iff m ((natToDecBytes n).length - 1)).mpr
    (by omega)
  omega

/-- Any two numbers in the same decimal window render with the same
number of digits. -/
theorem natToDecBytes_len_eq_of_window {m n k : Nat}
    (hm1 : 10 ^ k ≤ m) (hm2 : m < 10 ^ (k + 1))
    (hn1 : 10 ^ k ≤ n) (hn2 : n < 10 ^ (k + 1)) :
    (natToDecBytes m).length = (natToDecBytes n).length := by
  suffices h : ∀ x, 10 ^ k ≤ x → x < 10 ^ (k + 1) →
      (natToDecBytes x).length = k + 1 by
    rw [h m hm1 hm2, h n hn1 hn2]
  intro x hx1 hx2
  have e1 := (natToDecBytes_len_le_iff x k).mpr hx2
  cases k with
  | zero =>
    have := natToDecBytes_len_pos x
    omega
  | succ k2 =>
    have e2 : ¬ (natToDecBytes x).length ≤ k2 + 1 := by
      intro hc
      have := (natToDecBytes_len_le_iff x k2).mp hc
      omega
    omega

/-- Every byte of a decimal rendering is an ASCII digit. -/
theorem natToDecBytes_digits :
    ∀ n c, c ∈ natToDecBytes n → 0x30 ≤ c ∧ c ≤ 0x39 := by
  intro n
  induction n using Nat.strong_induction_on with
  | _ n ih =>
    intro c hc
    by_cases h : n < 10
    · rw [natToDecBytes_small h] at hc
      simp at hc
      omega
    · rw [natToDecBytes_step (by omega)] at hc
      simp at hc
      rcases hc with hc | hc
      · exact ih (n / 10) (by omega) c hc
      · omega

/-- The digit loop of `decodeAsciiNaturalNumber` consumes exactly a
leading all-digit block. -/
theorem parseAux_digits :
    ∀ (ds rest : Bytes) (acc : Nat),
      (∀ c ∈ ds, 0x30 ≤ c ∧ c ≤ 0x39) →
      (∀ c, rest.head? = some c → ¬(0x30 ≤ c ∧ c ≤ 0x39)) →
      decodeAsciiNaturalNumberAux (ds ++ rest) acc =
        (ds.length, ds.foldl (fun a c => a * 10 + (c - 0x30)) acc) := by
  intro ds
  induction ds with
  | nil =>
    intro rest acc _ hrest
    cases rest with
    | nil => simp [decodeAsciiNaturalNumberAux]
    | cons c r =>
      have hnc := hrest c rfl
      simp only [List.nil_append, decodeAsciiNaturalNumberAux, List.foldl]
      rw [if_neg hnc]
      simp
  | cons d ds ih =>
    intro rest acc hds hrest
    have hd := hds d (by simp)
    simp only [List.cons_append, decodeAsciiNaturalNumberAux, List.append_eq]
    rw [if_pos hd]
    rw [ih rest _ (fun c hc => hds c (by simp [hc])) hrest]
    simp [List.foldl]

/-- Folding the digit loop over a decimal rendering recovers the
number. -/
theorem foldl_natToDecBytes :
    ∀ n acc, (natToDecBytes n).foldl (fun a c => a * 10 + (c - 0x30)) acc =
      acc * 10 ^ (natToDecBytes n).length + n := by
  intro n
  induction n using Nat.strong_induction_on with
  | _ n ih =>
    intro acc
    by_cases h : n < 10
    · rw [natToDecBytes_small h]
      simp [List.foldl]
    · rw [natToDecBytes_step (by omega)]
      rw [List.foldl_append, ih (n / 10) (by omega) acc]
      simp only [List.foldl, List.length_append, List.length_cons,
        List.length_nil]
      have hsub : 0x30 + n % 10 - 0x30 = n % 10 := by omega
      rw [hsub, pow_succ]
      ring_nf
      omega

/-- `decodeAsciiNaturalNumber` inverts the decimal rendering when
followed by a non-digit (or nothing). -/
theorem decodeAsciiNaturalNumber_inv (n : Nat) (rest : Bytes)
    (hrest : ∀ c, rest.head? = some c → ¬(0x30 ≤ c ∧ c ≤ 0x39)) :
    decodeAsciiNaturalNumber (natToDecBytes n ++ rest) =
      ⟨true, (natToDecBytes n).length, n⟩ := by
  unfold decodeAsciiNaturalNumber
  rw [parseAux_digits _ _ _ (natToDecBytes_digits n) hrest]
  have h1 := natToDecBytes_len_pos n
  rw [foldl_natToDecBytes]
  simp only []
  rw [if_neg (by omega)]
  simp

/-! ### UTF-8 toolkit -/

/-- UTF-8 never encodes a scalar to zero bytes. -/
theorem utf8EncodeScalar_len_pos (c : Nat) :
    1 ≤ (utf8EncodeScalar c).length := by
  unfold utf8EncodeScalar
  split_ifs <;> simp

/-- A BMP scalar takes at most three UTF-8 bytes. -/
theorem utf8EncodeScalar_len_le3 {c : Nat} (h : c < 0x10000) :
    (utf8EncodeScalar c).length ≤ 3 := by
  unfold utf8EncodeScalar
  split_ifs <;> simp <;> omega

/-- The replacement character takes three UTF-8 bytes. -/
theorem utf8EncodeScalar_fffd_len : (utf8EncodeScalar 0xfffd).length = 3 := by
  decide

/-- An astral scalar takes four UTF-8 bytes. -/
theorem utf8EncodeScalar_len_astral {c : Nat} (h : 0x10000 ≤ c) :
    (utf8EncodeScalar c).length = 4 := by
  unfold utf8EncodeScalar
  rw [if_neg (by omega), if_neg (by omega), if_neg (by omega)]
  simp

/-- Every unit of a well-formed UTF-16 sequence is a single code
unit value. -/
theorem wellFormedUtf16_units :
    ∀ (n : Nat) (s : Str), s.length ≤ n → wellFormedUtf16 s = true →
      ∀ c ∈ s, c < 0x10000 := by
  intro n
  induction n with
  | zero =>
    intro s hs _ c hc
    cases s with
    | nil => simp at hc
    | cons a b => simp at hs
  | succ n ih =>
    intro s hs hwf c hc
    cases s with
    | nil => simp at hc
    | cons u rest =>
      cases rest with
      | nil =>
        simp only [wellFormedUtf16] at hwf
        simp at hc
        subst hc
        by_cases hu : c < 0xd800 ∨ 0xdfff < c
        · rw [if_pos hu] at hwf
          simp at hwf
          omega
        · rw [if_neg hu] at hwf
          split_ifs at hwf <;> simp at hwf
      | cons l rest2 =>
        simp only [wellFormedUtf16] at hwf
        by_cases hu : u < 0xd800 ∨ 0xdfff < u
        · rw [if_pos hu] at hwf
          simp only [Bool.and_eq_true, decide_eq_true_eq] at hwf
          simp at hc
          rcases hc with hc | hc
          · omega
          · exact ih (l :: rest2) (by simp at hs ⊢; omega) hwf.2 c
              (by simpa using hc)
        · rw [if_neg hu] at hwf
          by_cases hu2 : u ≤ 0xdbff
          · rw [if_pos hu2] at hwf
            simp only [Bool.and_eq_true, decide_eq_true_eq] at hwf
            simp at hc
            rcases hc with hc | hc | hc
            · omega
            · omega
            · exact ih rest2 (by simp at hs; omega) hwf.2 c hc
          · rw [if_neg hu2] at hwf
            simp at hwf

/-- The UTF-8 byte count of a code-unit sequence lies between the
unit count and three times the unit count. -/
theorem textEncoderEncode_len_bounds :
    ∀ (n : Nat) (s : Str), s.length ≤ n → (∀ c ∈ s, c < 0x10000) →
      s.length ≤ (textEncoderEncode s).length ∧
        (textEncoderEncode s).length ≤ 3 * s.length := by
  intro n
  induction n with
  | zero =>
    intro s hs _
    cases s with
    | nil => simp [textEncoderEncode]
    | cons a b => simp at hs
  | succ n ih =>
    intro s hs hin
    cases s with
    | nil => simp [textEncoderEncode]
    | cons u rest =>
      cases rest with
      | nil =>
        simp only [textEncoderEncode]
        have hp := utf8EncodeScalar_len_pos u
        have hl := utf8EncodeScalar_len_le3 (hin u (by simp))
        by_cases hu : u < 0xd800 ∨ 0xdfff < u
        · rw [if_pos hu]
          simp only [List.append_nil, List.length_cons, List.length_nil]
          omega
        · rw [if_neg hu]
          by_cases hu2 : u ≤ 0xdbff
          · rw [if_pos hu2]
            simp [utf8EncodeScalar_fffd_len]
          · rw [if_neg hu2]
            simp [utf8EncodeScalar_fffd_len]
      | cons l rest2 =>
        simp only [textEncoderEncode]
        by_cases hu : u < 0xd800 ∨ 0xdfff < u
        · rw [if_pos hu]
          have hb := ih (l :: rest2) (by simp at hs ⊢; omega)
            (fun c hc => hin c (by simp at hc ⊢; tauto))
          have hp := utf8EncodeScalar_len_pos u
          have hl := utf8EncodeScalar_len_le3 (hin u (by simp))
          simp only [List.length_append, List.length_cons] at hb ⊢
          omega
        · rw [if_neg hu]
          by_cases hu2 : u ≤ 0xdbff
          · rw [if_pos hu2]
            by_cases hl : 0xdc00 ≤ l ∧ l ≤ 0xdfff
            · rw [if_pos hl]
              have hb := ih rest2 (by simp at hs; omega)
                (fun c hc => hin c (by simp [hc]))
              have h4 := utf8EncodeScalar_len_astral
                (show 0x10000 ≤ 0x10000 + (u - 0xd800) * 0x400 + (l - 0xdc00)
                  by omega)
              simp only [List.length_append, List.length_cons, h4]
              omega
            · rw [if_neg hl]
              have hb := ih (l :: rest2) (by simp at hs ⊢; omega)
                (fun c hc => hin c (by simp at hc ⊢; tauto))
              simp only [List.length_append, List.length_cons,
                utf8EncodeScalar_fffd_len] at hb ⊢
              omega
          · rw [if_neg hu2]
            have hb := ih (l :: rest2) (by simp at hs ⊢; omega)
              (fun c hc => hin c (by simp at hc ⊢; tauto))
            simp only [List.length_append, List.length_cons,
              utf8EncodeScalar_fffd_len] at hb ⊢
            omega

/-- `TextEncoder.encodeInto` writes everything when the capacity
covers the full UTF-8 length. -/
theorem textEncoderEncodeInto_complete :
    ∀ (n : Nat) (s : Str) (cap : Nat), s.length ≤ n →
      (textEncoderEncode s).length ≤ cap →
      textEncoderEncodeInto s cap = (s.length, textEncoderEncode s) := by
  intro n
  induction n with
  | zero =>
    intro s cap hs _
    cases s with
    | nil => simp [textEncoderEncodeInto, textEncoderEncode]
    | cons a b => simp at hs
  | succ n ih =>
    intro s cap hs hcap
    match s with
    | [] => simp [textEncoderEncodeInto, textEncoderEncode]
    | [u] =>
      by_cases hu : u < 0xd800 ∨ 0xdfff < u
      · simp only [textEncoderEncode, if_pos hu, List.append_nil] at hcap ⊢
        simp only [textEncoderEncodeInto, if_pos hu]
        rw [if_pos hcap]
        simp
      · simp only [textEncoderEncode, if_neg hu] at hcap ⊢
        by_cases hu2 : u ≤ 0xdbff
        · simp only [if_pos hu2] at hcap ⊢
          simp only [textEncoderEncodeInto, if_neg hu]
          rw [if_pos hcap]
          simp
        · simp only [if_neg hu2, List.append_nil] at hcap ⊢
          simp only [textEncoderEncodeInto, if_neg hu]
          rw [if_pos hcap]
          simp
    | u :: l :: rest2 =>
      by_cases hu : u < 0xd800 ∨ 0xdfff < u
      · simp only [textEncoderEncode, if_pos hu, List.length_append] at hcap ⊢
        simp only [textEncoderEncodeInto, if_pos hu]
        rw [if_pos (by omega)]
        rw [ih (l :: rest2) (cap - (utf8EncodeScalar u).length)
          (by simp at hs ⊢; omega) (by omega)]
        simp
        omega
      · by_cases hu2 : u ≤ 0xdbff
        · by_cases hl : 0xdc00 ≤ l ∧ l ≤ 0xdfff
          · simp only [textEncoderEncode, if_neg hu, if_pos hu2, if_pos hl,
              List.length_append] at hcap ⊢
            simp only [textEncoderEncodeInto, if_neg hu, if_pos hu2, if_pos hl]
            rw [if_pos (by omega)]
            rw [ih rest2 _ (by simp at hs ⊢; omega) (by omega)]
            simp
            omega
          · simp only [textEncoderEncode, if_neg hu, if_pos hu2, if_neg hl,
              List.length_append] at hcap ⊢
            simp only [textEncoderEncodeInto, if_neg hu, if_pos hu2, if_neg hl]
            rw [if_pos (by omega)]
            rw [ih (l :: rest2) _ (by simp at hs ⊢; omega) (by omega)]
            simp
            omega
        · simp only [textEncoderEncode, if_neg hu, if_neg hu2,
            List.length_append] at hcap ⊢
          simp only [textEncoderEncodeInto, if_neg hu, if_neg hu2]
          rw [if_pos (by omega)]
          rw [ih (l :: rest2) _ (by simp at hs ⊢; omega) (by omega)]
          simp
          omega

/-- `TextEncoder.encodeInto` never writes more than the capacity. -/
theorem textEncoderEncodeInto_written_le :
    ∀ (n : Nat) (s : Str) (cap : Nat), s.length ≤ n →
      (textEncoderEncodeInto s cap).2.length ≤ cap := by
  intro n
  induction n with
  | zero =>
    intro s cap hs
    cases s with
    | nil => simp [textEncoderEncodeInto]
    | cons a b => simp at hs
  | succ n ih =>
    intro s cap hs
    match s with
    | [] => simp [textEncoderEncodeInto]
    | [u] =>
      simp only [textEncoderEncodeInto]
      split_ifs with h1 h2 h3 <;> simp <;> omega
    | u :: l :: rest2 =>
      simp only [textEncoderEncodeInto]
      split_ifs with h1 h2 h3 h4 h5 h6 h7 <;>
        simp only [List.length_append, List.length_nil] <;>
        first
          | omega
          | (have hih := ih (l :: rest2)
              (cap - (utf8EncodeScalar u).length) (by simp at hs ⊢; omega)
             omega)
          | (have hih := ih rest2
              (cap - (utf8EncodeScalar
                (0x10000 + (u - 0xd800) * 0x400 + (l - 0xdc00))).length)
              (by simp at hs ⊢; omega)
             omega)
          | (have hih := ih (l :: rest2)
              (cap - (utf8EncodeScalar 0xfffd).length) (by simp at hs ⊢; omega)
             omega)

/-- The WHATWG encoder is the identity on ASCII-only strings. -/
theorem textEncoderEncode_ascii :
    ∀ s : Str, (∀ c ∈ s, c < 0x80) → textEncoderEncode s = s := by
  intro s
  induction s with
  | nil => intro _; rfl
  | cons u rest ih =>
    intro h
    have hu : u < 0x80 := h u (by simp)
    have hU : utf8EncodeScalar u = [u] := by
      unfold utf8EncodeScalar
      rw [if_pos hu]
    have hrest := ih (fun c hc => h c (by simp [hc]))
    cases rest with
    | nil =>
      simp only [textEncoderEncode]
      rw [if_pos (Or.inl (by omega)), hU]
      simp
    | cons l rest2 =>
      simp only [textEncoderEncode]
      rw [if_pos (Or.inl (by omega)), hU, hrest]
      simp

/-- On ASCII-only strings `encodeInto` writes a capacity-clipped
prefix. -/
theorem textEncoderEncodeInto_ascii :
    ∀ s : Str, (∀ c ∈ s, c < 0x80) → ∀ cap : Nat,
      textEncoderEncodeInto s cap = (min s.length cap, s.take cap) := by
  intro s
  induction s with
  | nil => intro _ cap; simp [textEncoderEncodeInto]
  | cons u rest ih =>
    intro h cap
    have hu : u < 0x80 := h u (by simp)
    have hU : utf8EncodeScalar u = [u] := by
      unfold utf8EncodeScalar
      rw [if_pos hu]
    cases rest with
    | nil =>
      simp only [textEncoderEncodeInto]
      rw [if_pos (Or.inl (by omega)), hU]
      by_cases hc : 1 ≤ cap
      · rw [if_pos (by simpa using hc)]
        match cap, hc with
        | c + 1, _ => simp [List.take_succ_cons]
      · have hc0 : cap = 0 := by omega
        subst hc0
        rw [if_neg (by simp)]
        simp
    | cons l rest2 =>
      simp only [textEncoderEncodeInto]
      rw [if_pos (Or.inl (by omega)), hU]
      by_cases hc : 1 ≤ cap
      · rw [if_pos (by simpa using hc)]
        rw [ih (fun c hc2 => h c (by simp [hc2])) (cap - [u].length)]
        match cap, hc with
        | c + 1, _ =>
          simp only [List.take_succ_cons, List.singleton_append,
            Nat.add_sub_cancel, List.length_cons, List.length_nil]
          rw [Prod.mk.injEq]
          constructor
          · omega
          · rfl
      · have hc0 : cap = 0 := by omega
        subst hc0
        rw [if_neg (by simp)]
        simp

/-! ### Buffer-write algebra -/

/-- Writes preserve the buffer length. -/
theorem listWrite_length (b : Bytes) (off : Nat) (d : Bytes) :
    (listWrite b off d).length = b.length := by
  unfold listWrite
  simp only [List.length_append, List.length_take, List.length_drop]
  omega

/-- Setting a byte at the boundary of a decomposed buffer. -/
theorem set_append_length (p q : Bytes) (x : Nat) :
    (p ++ q).set p.length x = p ++ q.set 0 x := by
  induction p with
  | nil => simp
  | cons c p ih => simp [List.set, ih]

/-- A fitting bulk write splits the buffer around the data. -/
theorem listWrite_append (p r d : Bytes) (hd : d.length ≤ r.length) :
    listWrite (p ++ r) p.length d = p ++ d ++ r.drop d.length := by
  unfold listWrite
  have h1 : (p ++ r).take p.length = p := List.take_left p r
  have h2 : d.take ((p ++ r).length - p.length) = d := by
    apply List.take_of_length_le
    simp only [List.length_append]
    omega
  have h3 : (p ++ r).drop (p.length + d.length) = r.drop d.length :=
    List.drop_append d.length
  rw [h1, h2, h3]

/-- The decimal form of a `bigint` is ASCII-only. -/
theorem intToDecBytes_ascii (i : Int) : ∀ c ∈ intToDecBytes i, c < 0x80 := by
  intro c hc
  unfold intToDecBytes at hc
  split_ifs at hc with h
  · simp at hc
    rcases hc with hc | hc
    · subst hc
      decide
    · have := natToDecBytes_digits i.natAbs c hc
      omega
  · have := natToDecBytes_digits i.natAbs c hc
    omega

/-- The decimal form of a natural number is ASCII-only. -/
theorem natToDecBytes_ascii (n : Nat) : ∀ c ∈ natToDecBytes n, c < 0x80 := by
  intro c hc
  have := natToDecBytes_digits n c hc
  omega

/-- `TextEncoder.encodeInto` on an ASCII string with enough capacity
writes the string itself. -/
theorem textEncoderEncodeInto_ascii_full (s : Str)
    (h : ∀ c ∈ s, c < 0x80) (cap : Nat) (hcap : s.length ≤ cap) :
    textEncoderEncodeInto s cap = (s.length, s) := by
  rw [textEncoderEncodeInto_ascii s h cap]
  rw [Prod.mk.injEq]
  constructor
  · omega
  · exact List.take_of_length_le hcap

/-! ### Exact characterization of the leaf encoders -/

/-- The wire form of a key is at least two bytes. -/
theorem encKeyBytes_len_lower (k : Key) : 2 ≤ (encKeyBytes k).length := by
  cases k with
  | text s =>
    simp only [encKeyBytes, List.length_cons, List.length_append]
    have := natToDecBytes_len_pos (textEncoderEncode s).length
    omega
  | binary b =>
    simp only [encKeyBytes, List.length_cons, List.length_append]
    have := natToDecBytes_len_pos b.length
    omega

/-- `estimateUtf8Length` with default options is the exact UTF-8
byte count. -/
theorem estimateUtf8Length_default (s : Str) :
    estimateUtf8Length s {} = (textEncoderEncode s).length := by
  simp [estimateUtf8Length]

/-- The speculative digit ladder of `encodeKeyInto` preserves the
digit count of the UTF-8 length. -/
theorem speculative_digits (s : Str) (hwf : wellFormedUtf16 s = true) :
    (natToDecBytes
        (if s.length ≤ 3 then 3
          else if 10 ≤ s.length ∧ s.length ≤ 33 then 33
          else if 100 ≤ s.length ∧ s.length ≤ 333 then 333
          else if 1000 ≤ s.length ∧ s.length ≤ 3333 then 3333
          else if 10000 ≤ s.length ∧ s.length ≤ 33333 then 33333
          else if 100000 ≤ s.length ∧ s.length ≤ 333333 then 333333
          else estimateUtf8Length s {})).length =
      (natToDecBytes (textEncoderEncode s).length).length := by
  have hb := textEncoderEncode_len_bounds s.length s (le_refl _)
    (wellFormedUtf16_units s.length s (le_refl _) hwf)
  split_ifs with h1 h2 h3 h4 h5 h6
  · rw [natToDecBytes_small (by norm_num), natToDecBytes_small (by omega)]
    simp
  · exact @natToDecBytes_len_eq_of_window 33 _ 1 (by norm_num) (by norm_num)
      (by norm_num; omega) (by norm_num; omega)
  · exact @natToDecBytes_len_eq_of_window 333 _ 2 (by norm_num) (by norm_num)
      (by norm_num; omega) (by norm_num; omega)
  · exact @natToDecBytes_len_eq_of_window 3333 _ 3 (by norm_num) (by norm_num)
      (by norm_num; omega) (by norm_num; omega)
  · exact @natToDecBytes_len_eq_of_window 33333 _ 4 (by norm_num) (by norm_num)
      (by norm_num; omega) (by norm_num; omega)
  · exact @natToDecBytes_len_eq_of_window 333333 _ 5 (by norm_num)
      (by norm_num) (by norm_num; omega) (by norm_num; omega)
  · rw [estimateUtf8Length_default]

/-- Bulk write against an explicit buffer decomposition. -/
theorem listWrite_split {b : Bytes} (p r d : Bytes) (off : Nat)
    (hb : b = p ++ r) (hoff : off = p.length) (hd : d.length ≤ r.length) :
    listWrite b off d = p ++ d ++ r.drop d.length := by
  subst hb
  subst hoff
  exact listWrite_append p r d hd

/-- Single-byte write against an explicit buffer decomposition. -/
theorem set_split {b : Bytes} (p : Bytes) (c : Nat) (r : Bytes) (off x : Nat)
    (hb : b = p ++ c :: r) (hoff : off = p.length) :
    b.set off x = p ++ x :: r := by
  subst hb
  subst hoff
  rw [set_append_length]
  simp [List.set]

/-- The integer arm of `encodeInto` writes the exact wire form when
the buffer fits it. -/
theorem encodeIntegerInto_spec (i : Int) (b : Bytes)
    (hb : (intToDecBytes i).length + 2 ≤ b.length) :
    encodeIntegerInto i b =
      (integerPrefixByte :: intToDecBytes i ++ [integerSuffixByte] ++
          b.drop ((intToDecBytes i).length + 2),
        ⟨(intToDecBytes i).length + 2, true⟩) := by
  cases b with
  | nil => simp at hb
  | cons c r =>
    have hr : (intToDecBytes i).length + 1 ≤ r.length := by
      simp at hb
      omega
    simp only [encodeIntegerInto]
    rw [textEncoderEncodeInto_ascii_full (intToDecBytes i)
      (intToDecBytes_ascii i) ((c :: r).length - 1) (by simp; omega)]
    have hset : (c :: r).set 0 integerPrefixByte = integerPrefixByte :: r := by
      simp [List.set]
    rw [hset]
    rw [listWrite_split [integerPrefixByte] r (intToDecBytes i) 1 (by simp)
      (by simp) (by omega)]
    rw [if_neg (by simp; omega)]
    have hdrop : r.drop (intToDecBytes i).length =
        r[(intToDecBytes i).length] :: r.drop ((intToDecBytes i).length + 1) :=
      List.drop_eq_getElem_cons (by omega)
    rw [set_split (integerPrefixByte :: intToDecBytes i)
      (r[(intToDecBytes i).length]) (r.drop ((intToDecBytes i).length + 1))
      ((intToDecBytes i).length + 1) integerSuffixByte
      (by rw [hdrop]; simp) (by simp)]
    rw [Prod.mk.injEq]
    constructor
    · simp [List.append_assoc]
    · rfl

/-- `encodeKeyInto` writes the exact wire form of a binary key when
the buffer fits it. -/
theorem encodeKeyInto_binary_spec (bb : Bytes) (b : Bytes)
    (o : NonAllocEncodingOptions)
    (hb : (encKeyBytes (.binary bb)).length ≤ b.length) :
    encodeKeyInto (.binary bb) b o =
      (encKeyBytes (.binary bb) ++ b.drop (encKeyBytes (.binary bb)).length,
        ⟨(encKeyBytes (.binary bb)).length, true⟩) := by
  have hkl : (encKeyBytes (.binary bb)).length =
      (natToDecBytes bb.length).length + 1 + bb.length := by
    simp [encKeyBytes]
    omega
  rw [hkl] at hb ⊢
  simp only [encodeKeyInto]
  rw [textEncoderEncodeInto_ascii_full (natToDecBytes bb.length)
    (natToDecBytes_ascii bb.length) b.length (by omega)]
  rw [listWrite_split ([] : Bytes) b (natToDecBytes bb.length) 0 (by simp)
    (by simp) (by omega)]
  simp only [List.nil_append]
  rw [if_neg (by omega)]
  have hdrop : b.drop (natToDecBytes bb.length).length =
      b[(natToDecBytes bb.length).length] ::
        b.drop ((natToDecBytes bb.length).length + 1) :=
    List.drop_eq_getElem_cons (by omega)
  rw [set_split (natToDecBytes bb.length)
    (b[(natToDecBytes bb.length).length])
    (b.drop ((natToDecBytes bb.length).length + 1))
    (natToDecBytes bb.length).length binaryLengthDelimiterByte
    (by rw [hdrop]) rfl]
  rw [List.take_of_length_le (by omega)]
  rw [listWrite_split (natToDecBytes bb.length ++ [binaryLengthDelimiterByte])
    (b.drop ((natToDecBytes bb.length).length + 1)) bb
    (1 + (natToDecBytes bb.length).length) (by simp) (by simp; omega)
    (by simp; omega)]
  rw [if_neg (by omega)]
  rw [Prod.mk.injEq]
  constructor
  · rw [List.drop_drop]
    simp only [encKeyBytes, List.append_assoc, List.cons_append,
      List.singleton_append, List.nil_append]
  · congr 1
    omega

/-- Setting the first byte of a nonempty buffer. -/
theorem set_zero_drop {b : Bytes} (h : 1 ≤ b.length) (x : Nat) :
    b.set 0 x = x :: b.drop 1 := by
  cases b with
  | nil => simp at h
  | cons c r => simp [List.set]

/-- `encodeKeyInto` writes the exact wire form of a text key when
the buffer fits it, under either speculation mode. -/
theorem encodeKeyInto_text_spec (s : Str) (b : Bytes)
    (o : NonAllocEncodingOptions) (hwf : wellFormedUtf16 s = true)
    (hb : (encKeyBytes (.text s)).length ≤ b.length) :
    encodeKeyInto (.text s) b o =
      (encKeyBytes (.text s) ++ b.drop (encKeyBytes (.text s)).length,
        ⟨(encKeyBytes (.text s)).length, true⟩) := by
  have hkl : (encKeyBytes (.text s)).length =
      (natToDecBytes (textEncoderEncode s).length).length +
        (textEncoderEncode s).length + 2 := by
    simp [encKeyBytes]
    omega
  rw [hkl] at hb ⊢
  have hdl := natToDecBytes_len_pos (textEncoderEncode s).length
  simp only [encodeKeyInto]
  rw [if_neg (by omega)]
  generalize hSP : (if o.speculative ≠ true then estimateUtf8Length s {}
    else if s.length ≤ 3 then 3
    else if 10 ≤ s.length ∧ s.length ≤ 33 then 33
    else if 100 ≤ s.length ∧ s.length ≤ 333 then 333
    else if 1000 ≤ s.length ∧ s.length ≤ 3333 then 3333
    else if 10000 ≤ s.length ∧ s.length ≤ 33333 then 33333
    else if 100000 ≤ s.length ∧ s.length ≤ 333333 then 333333
    else estimateUtf8Length s {}) = sp
  have hsd : (natToDecBytes sp).length =
      (natToDecBytes (textEncoderEncode s).length).length := by
    rw [← hSP]
    by_cases hos : o.speculative = true
    · rw [if_neg (by simp [hos])]
      exact speculative_digits s hwf
    · rw [if_pos (by simp [hos])]
      rw [estimateUtf8Length_default]
  rw [textEncoderEncodeInto_ascii_full (natToDecBytes sp)
    (natToDecBytes_ascii sp) (b.length - 1) (by omega)]
  rw [set_zero_drop (by omega) textPrefixByte]
  rw [listWrite_split [textPrefixByte] (b.drop 1) (natToDecBytes sp) 1
    (by simp) (by simp) (by simp; omega)]
  rw [if_neg (by omega)]
  rw [List.drop_drop]
  rw [Nat.add_comm 1 (natToDecBytes sp).length]
  have hdrop1 : b.drop ((natToDecBytes sp).length + 1) =
      b[(natToDecBytes sp).length + 1] ::
        b.drop ((natToDecBytes sp).length + 2) :=
    List.drop_eq_getElem_cons (by omega)
  rw [set_split (textPrefixByte :: natToDecBytes sp)
    (b[(natToDecBytes sp).length + 1])
    (b.drop ((natToDecBytes sp).length + 2))
    ((natToDecBytes sp).length + 1) textLengthDelimiterByte
    (by rw [hdrop1]; simp) (by simp)]
  rw [textEncoderEncodeInto_complete s.length s
    (b.length - ((natToDecBytes sp).length + 2)) (le_refl _) (by omega)]
  rw [listWrite_split
    (textPrefixByte :: (natToDecBytes sp ++ [textLengthDelimiterByte]))
    (b.drop ((natToDecBytes sp).length + 2)) (textEncoderEncode s)
    ((natToDecBytes sp).length + 2) (by simp) (by simp) (by simp; omega)]
  rw [if_neg (by omega)]
  rw [List.drop_drop]
  by_cases hul : (textEncoderEncode s).length = sp
  · rw [if_neg (by simp [hul])]
    rw [Prod.mk.injEq]
    constructor
    · rw [← hul] at hsd ⊢
      simp only [encKeyBytes, List.append_assoc, List.cons_append,
        List.singleton_append, List.nil_append]
      have hidx : (natToDecBytes (textEncoderEncode s).length).length + 2 +
          (textEncoderEncode s).length =
          (natToDecBytes (textEncoderEncode s).length).length +
            (textEncoderEncode s).length + 2 := by omega
      rw [hidx]
    · rw [← hul] at hsd ⊢
      congr 1
      dsimp only
      omega
  · rw [if_pos (by simp; omega)]
    rw [textEncoderEncodeInto_ascii_full
      (natToDecBytes (textEncoderEncode s).length)
      (natToDecBytes_ascii (textEncoderEncode s).length) (b.length - 1)
      (by omega)]
    rw [listWrite_split [textPrefixByte]
      (natToDecBytes sp ++ textLengthDelimiterByte :: (textEncoderEncode s ++
        b.drop ((natToDecBytes sp).length + 2 +
          (textEncoderEncode s).length)))
      (natToDecBytes (textEncoderEncode s).length) 1
      (by simp) (by simp) (by simp; omega)]
    rw [show (natToDecBytes (textEncoderEncode s).length).length =
      (natToDecBytes sp).length from hsd.symm]
    rw [List.drop_left]
    rw [Prod.mk.injEq]
    constructor
    · simp only [encKeyBytes, List.append_assoc, List.cons_append,
        List.singleton_append, List.nil_append]
      have hidx : (natToDecBytes sp).length + 2 +
          (textEncoderEncode s).length =
          (natToDecBytes sp).length + (textEncoderEncode s).length + 2 := by
        omega
      rw [hidx]
    · congr 1
      dsimp only
      omega

/-! ### Toolkit for the encoder main induction -/

/-- Setting a byte in the middle of a buffer. -/
theorem set_mid {b : Bytes} {tw : Nat} (h : tw < b.length) (x : Nat) :
    b.set tw x = b.take tw ++ x :: b.drop (tw + 1) := by
  have hsplit : b = b.take tw ++ b.drop tw := (List.take_append_drop tw b).symm
  have hdrop : b.drop tw = b[tw] :: b.drop (tw + 1) :=
    List.drop_eq_getElem_cons h
  rw [set_split (b.take tw) (b[tw]) (b.drop (tw + 1)) tw x
    (by rw [← hdrop]; exact hsplit) (by simp; omega)]

/-- Taking exactly a known prefix. -/
theorem take_append_exact (p r : Bytes) (n : Nat) (h : n = p.length) :
    (p ++ r).take n = p := by
  subst h
  exact List.take_left p r

/-- Dropping past a known prefix. -/
theorem drop_append_exact (p r : Bytes) (m : Nat) (h : p.length ≤ m) :
    (p ++ r).drop m = r.drop (m - p.length) := by
  have hm : m = p.length + (m - p.length) := by omega
  rw [hm, List.drop_append, hm]
  simp

/-- Every valid value occupies at least one wire byte. -/
theorem fullLen_pos (v : Value) (hv : validValue v = true) : 1 ≤ fullLen v := by
  cases v with
  | nil => simp [fullLen]
  | bool b => simp [fullLen]
  | int i => simp [fullLen]
  | text s =>
    have := encKeyBytes_len_lower (.text s)
    simp [fullLen]
    omega
  | binary b =>
    have := encKeyBytes_len_lower (.binary b)
    simp [fullLen]
    omega
  | list xs =>
    simp [fullLen]
    omega
  | dict es =>
    simp [fullLen]
    omega
  | num => simp [validValue] at hv

/-- Pairing with indexes preserves an `all` over the payloads. -/
theorem zipWithIndexAux_all {α : Type} (p : α → Bool) :
    ∀ (l : List α) (i : Nat),
      ((zipWithIndexAux l i).all fun t => p t.1) = l.all p := by
  intro l
  induction l with
  | nil => intro i; rfl
  | cons x xs ih =>
    intro i
    simp [zipWithIndexAux, List.all, ih]

/-- Ordered insertion preserves an `all`. -/
theorem insertSorted_all {α : Type} (le : α → α → Bool) (p : α → Bool)
    (x : α) : ∀ l : List α,
      ((insertSorted le x l).all p) = (p x && l.all p) := by
  intro l
  induction l with
  | nil => simp [insertSorted]
  | cons y ys ih =>
    simp only [insertSorted]
    by_cases h : le x y = true
    · rw [if_pos h]
      simp [List.all]
    · rw [if_neg h]
      simp only [List.all, ih]
      rw [Bool.and_left_comm]

/-- Insertion sort preserves an `all`. -/
theorem insertionSort_all {α : Type} (le : α → α → Bool) (p : α → Bool) :
    ∀ l : List α, ((insertionSort le l).all p) = l.all p := by
  intro l
  induction l with
  | nil => rfl
  | cons x xs ih =>
    simp only [insertionSort, insertSorted_all, ih, List.all]

/-- Ordered insertion adds one entry to the walked wire length. -/
theorem fullLenTriples_insertSorted (le : (Key × Value) × Nat →
      (Key × Value) × Nat → Bool) (x : (Key × Value) × Nat) :
    ∀ l, fullLenTriples (insertSorted le x l) =
      (encKeyBytes x.1.1).length + fullLen x.1.2 + fullLenTriples l := by
  intro l
  induction l with
  | nil => simp [insertSorted, fullLenTriples]
  | cons y ys ih =>
    simp only [insertSorted]
    by_cases h : le x y = true
    · rw [if_pos h]
      simp [fullLenTriples]
    · rw [if_neg h]
      obtain ⟨⟨xk, xv⟩, xi⟩ := x
      obtain ⟨⟨yk, yv⟩, yi⟩ := y
      simp only [fullLenTriples, ih]
      omega

/-- Insertion sort preserves the walked wire length. -/
theorem fullLenTriples_insertionSort (le : (Key × Value) × Nat →
      (Key × Value) × Nat → Bool) :
    ∀ l, fullLenTriples (insertionSort le l) = fullLenTriples l := by
  intro l
  induction l with
  | nil => rfl
  | cons x xs ih =>
    obtain ⟨⟨xk, xv⟩, xi⟩ := x
    simp only [insertionSort, fullLenTriples_insertSorted, ih, fullLenTriples]

/-- Pairing with indexes preserves the walked wire length. -/
theorem fullLenTriples_zipWithIndexAux :
    ∀ (es : List (Key × Value)) (i : Nat),
      fullLenTriples (zipWithIndexAux es i) = fullLenEntries es := by
  intro es
  induction es with
  | nil => intro i; rfl
  | cons e rest ih =>
    intro i
    obtain ⟨k, v⟩ := e
    simp only [zipWithIndexAux, fullLenTriples, fullLenEntries, ih]

/-- `encodeKeyInto` writes the exact wire form of any well-formed key
when the buffer fits it. -/
theorem encodeKeyInto_spec (k : Key) (b : Bytes)
    (o : NonAllocEncodingOptions) (hwf : wellFormedKey k = true)
    (hb : (encKeyBytes k).length ≤ b.length) :
    encodeKeyInto k b o =
      (encKeyBytes k ++ b.drop (encKeyBytes k).length,
        ⟨(encKeyBytes k).length, true⟩) := by
  cases k with
  | text s => exact encodeKeyInto_text_spec s b o (by simpa [wellFormedKey] using hwf) hb
  | binary bb => exact encodeKeyInto_binary_spec bb b o hb

/-- `validValueEntries` as an `all` over pairs. -/
theorem validValueEntries_all :
    ∀ es, validValueEntries es =
      es.all fun e => wellFormedKey e.1 && validValue e.2 := by
  intro es
  induction es with
  | nil => rfl
  | cons e rest ih =>
    obtain ⟨k, v⟩ := e
    simp [validValueEntries, ih, List.all]

/-- Pairing entries with indexes preserves entry validity. -/
theorem zipWithIndexAux_validKV :
    ∀ (es : List (Key × Value)) (i : Nat),
      ((zipWithIndexAux es i).all fun t =>
        wellFormedKey t.1.1 && validValue t.1.2) = validValueEntries es := by
  intro es
  induction es with
  | nil => intro i; rfl
  | cons e rest ih =>
    intro i
    obtain ⟨k, v⟩ := e
    simp [zipWithIndexAux, List.all, validValueEntries, ih]

/-- The encoder characterization: the three mutual encoder loops,
compared against their canonical byte strings, on every
sufficiently large buffer. -/
theorem encoder_main : ∀ fuel : Nat,
    (∀ (v : Value) (b : Bytes) (o : NonAllocEncodingOptions),
      validValue v = true → fullLen v ≤ b.length →
      (match encBytesF fuel v o with
       | none => encodeIntoF fuel v b o = none
       | some (.error e) => encodeIntoF fuel v b o = some (.error e)
       | some (.ok bs) => bs.length ≤ fullLen v ∧
           encodeIntoF fuel v b o =
             some (.ok (bs ++ b.drop bs.length, ⟨bs.length, true⟩)) : Prop)) ∧
    (∀ (xs : List Value) (b : Bytes) (tw : Nat)
        (o : NonAllocEncodingOptions),
      validValueList xs = true → tw + fullLenList xs + 1 ≤ b.length →
      (match encBytesListF fuel xs o with
       | none => encodeListItemsF fuel xs b tw o = none
       | some (.error e) => encodeListItemsF fuel xs b tw o = some (.error e)
       | some (.ok bs) => bs.length ≤ fullLenList xs ∧
           encodeListItemsF fuel xs b tw o =
             some (.ok (b.take tw ++ bs ++ listSuffixByte ::
               b.drop (tw + bs.length + 1), ⟨tw + bs.length + 1, true⟩)) :
        Prop)) ∧
    (∀ (ts : List ((Key × Value) × Nat)) (b : Bytes) (tw : Nat)
        (prev : Option Key) (o : NonAllocEncodingOptions),
      (ts.all fun t => wellFormedKey t.1.1 && validValue t.1.2) = true →
      tw + fullLenTriples ts + 1 ≤ b.length →
      (match encBytesWalkF fuel ts prev o with
       | none => encodeDictWalkF fuel ts b tw prev o = none
       | some (.error e) =>
           encodeDictWalkF fuel ts b tw prev o = some (.error e)
       | some (.ok bs) => bs.length ≤ fullLenTriples ts ∧
           encodeDictWalkF fuel ts b tw prev o =
             some (.ok (b.take tw ++ bs ++ dictionarySuffixByte ::
               b.drop (tw + bs.length + 1), ⟨tw + bs.length + 1, true⟩)) :
        Prop)) := by
  intro fuel
  induction fuel with
  | zero =>
    exact ⟨fun v b o _ _ => rfl, fun xs b tw o _ _ => rfl,
      fun ts b tw prev o _ _ => rfl⟩
  | succ fuel ih =>
    obtain ⟨ih1, ih2, ih3⟩ := ih
    refine ⟨?_, ?_, ?_⟩
    · intro v b o hv hfl
      have hpos := fullLen_pos v hv
      cases v with
      | nil =>
        simp only [encBytesF]
        refine ⟨by simp [fullLen], ?_⟩
        simp only [encodeIntoF]
        rw [if_neg (by omega), set_zero_drop (by omega) nullAtomByte]
        simp
      | bool bv =>
        simp only [encBytesF]
        refine ⟨by simp [fullLen], ?_⟩
        simp only [encodeIntoF]
        rw [if_neg (by omega),
          set_zero_drop (by omega) (if bv then trueAtomByte else falseAtomByte)]
        simp
      | int i =>
        simp only [encBytesF]
        simp only [fullLen] at hfl hpos ⊢
        refine ⟨by simp, ?_⟩
        simp only [encodeIntoF]
        rw [if_neg (by omega), encodeIntegerInto_spec i b (by omega)]
        have hL : (integerPrefixByte :: intToDecBytes i ++
            [integerSuffixByte]).length = (intToDecBytes i).length + 2 := by
          simp
        rw [hL]
      | text s =>
        simp only [encBytesF]
        simp only [fullLen] at hfl hpos ⊢
        refine ⟨le_refl _, ?_⟩
        simp only [encodeIntoF]
        rw [if_neg (by omega)]
        rw [encodeKeyInto_text_spec s b o (by simpa [validValue] using hv) hfl]
      | binary bb =>
        simp only [encBytesF]
        simp only [fullLen] at hfl hpos ⊢
        refine ⟨le_refl _, ?_⟩
        simp only [encodeIntoF]
        rw [if_neg (by omega)]
        rw [encodeKeyInto_binary_spec bb b o hfl]
      | num => simp [validValue] at hv
      | list xs =>
        have hv2 : validValueList xs = true := by
          simpa [validValue] using hv
        simp only [fullLen] at hfl hpos
        have hIH := ih2 xs (listPrefixByte :: b.drop 1) 1 o hv2
          (by simp; omega)
        simp only [encBytesF]
        rcases hE : encBytesListF fuel xs o with _ | e | bsl
        · rw [hE] at hIH
          simp only [encodeIntoF]
          rw [if_neg (by omega), set_zero_drop (by omega) listPrefixByte]
          exact hIH
        · rw [hE] at hIH
          simp only [encodeIntoF]
          rw [if_neg (by omega), set_zero_drop (by omega) listPrefixByte]
          exact hIH
        · rw [hE] at hIH
          obtain ⟨hbl, hrun⟩ := hIH
          constructor
          · simp [fullLen]
            omega
          · simp only [encodeIntoF]
            rw [if_neg (by omega), set_zero_drop (by omega) listPrefixByte]
            rw [hrun]
            simp only [List.take_succ_cons, List.take_zero, List.drop_succ_cons,
              List.drop_drop, List.length_cons, List.length_append,
              List.cons_append, List.nil_append, List.append_assoc,
              List.singleton_append, List.length_nil]
            rw [show 1 + bsl.length + 1 = bsl.length + 1 + 1 from by omega]
            rw [show 1 + (1 + bsl.length) = bsl.length + (0 + 1) + 1 from by
              omega]
      | dict es =>
        have hv2 : validValueEntries es = true := by
          simpa [validValue] using hv
        simp only [fullLen] at hfl hpos
        have hall : ((insertionSort (entryLe o) (zipWithIndex es)).all
            fun t => wellFormedKey t.1.1 && validValue t.1.2) = true := by
          rw [insertionSort_all]
          simp only [zipWithIndex]
          rw [zipWithIndexAux_validKV]
          exact hv2
        have hlt : fullLenTriples (insertionSort (entryLe o)
            (zipWithIndex es)) = fullLenEntries es := by
          rw [fullLenTriples_insertionSort]
          simp only [zipWithIndex]
          exact fullLenTriples_zipWithIndexAux es 0
        have hIH := ih3 (insertionSort (entryLe o) (zipWithIndex es))
          (dictionaryPrefixByte :: b.drop 1) 1 none o hall
          (by simp [hlt]; omega)
        simp only [encBytesF]
        rcases hE : encBytesWalkF fuel
            (insertionSort (entryLe o) (zipWithIndex es)) none o
          with _ | e | bsw
        · rw [hE] at hIH
          simp only [encodeIntoF]
          rw [if_neg (by omega), set_zero_drop (by omega) dictionaryPrefixByte]
          exact hIH
        · rw [hE] at hIH
          simp only [encodeIntoF]
          rw [if_neg (by omega), set_zero_drop (by omega) dictionaryPrefixByte]
          exact hIH
        · rw [hE] at hIH
          obtain ⟨hbl, hrun⟩ := hIH
          rw [hlt] at hbl
          constructor
          · simp [fullLen]
            omega
          · simp only [encodeIntoF]
            rw [if_neg (by omega),
              set_zero_drop (by omega) dictionaryPrefixByte]
            rw [hrun]
            simp only [List.take_succ_cons, List.take_zero,
              List.drop_succ_cons, List.drop_drop, List.length_cons,
              List.length_append, List.cons_append, List.nil_append,
              List.append_assoc, List.singleton_append, List.length_nil]
            rw [show 1 + bsw.length + 1 = bsw.length + 1 + 1 from by omega]
            rw [show 1 + (1 + bsw.length) = bsw.length + (0 + 1) + 1 from by
              omega]
    · intro xs b tw o hall hlen
      cases xs with
      | nil =>
        simp only [encBytesListF]
        refine ⟨by simp [fullLenList], ?_⟩
        simp only [encodeListItemsF]
        rw [if_neg (by simp only [fullLenList] at hlen; omega)]
        rw [set_mid (by simp only [fullLenList] at hlen; omega) listSuffixByte]
        simp
      | cons x rest =>
        have hvx : validValue x = true := by
          simp only [validValueList, Bool.and_eq_true] at hall
          exact hall.1
        have hvr : validValueList rest = true := by
          simp only [validValueList, Bool.and_eq_true] at hall
          exact hall.2
        simp only [fullLenList] at hlen
        have hIH1 := ih1 x (b.drop tw) o hvx (by simp; omega)
        simp only [encBytesListF]
        rcases hE : encBytesF fuel x o with _ | e | bx
        · rw [hE] at hIH1
          simp only [encodeListItemsF]
          rw [hIH1]
        · rw [hE] at hIH1
          simp only [encodeListItemsF]
          rw [hIH1]
        · rw [hE] at hIH1
          obtain ⟨hbx, hrunx⟩ := hIH1
          simp only [encodeListItemsF]
          rw [hrunx]
          dsimp only
          have hIH2 := ih2 rest
            (b.take tw ++ (bx ++ (b.drop tw).drop bx.length))
            (tw + bx.length) o hvr (by
              simp only [List.length_append, List.length_take,
                List.length_drop]
              omega)
          rcases hE2 : encBytesListF fuel rest o with _ | e2 | bsr
          · rw [hE2] at hIH2
            exact hIH2
          · rw [hE2] at hIH2
            exact hIH2
          · rw [hE2] at hIH2
            obtain ⟨hbr, hrunr⟩ := hIH2
            rw [if_pos rfl]
            refine ⟨by simp only [fullLenList, List.length_append]; omega, ?_⟩
            rw [hrunr]
            have hT : (b.take tw ++ (bx ++ (b.drop tw).drop bx.length)).take
                (tw + bx.length) = b.take tw ++ bx := by
              rw [← List.append_assoc]
              exact take_append_exact _ _ _ (by
                simp only [List.length_append, List.length_take]
                omega)
            have hD : (b.take tw ++ (bx ++ (b.drop tw).drop bx.length)).drop
                (tw + bx.length + bsr.length + 1) =
                b.drop (tw + (bx ++ bsr).length + 1) := by
              rw [← List.append_assoc]
              rw [drop_append_exact _ _ _ (by
                simp only [List.length_append, List.length_take]
                omega)]
              rw [List.drop_drop, List.drop_drop]
              congr 1
              simp only [List.length_append, List.length_take]
              omega
            rw [hT, hD]
            simp only [List.append_assoc, List.length_append]
            rw [show tw + (bx.length + bsr.length) + 1 =
              tw + bx.length + bsr.length + 1 from by omega]
    · intro ts b tw prev o hall hlen
      cases ts with
      | nil =>
        simp only [encBytesWalkF]
        refine ⟨by simp [fullLenTriples], ?_⟩
        simp only [encodeDictWalkF]
        rw [if_neg (by simp only [fullLenTriples] at hlen; omega)]
        rw [set_mid (by simp only [fullLenTriples] at hlen; omega)
          dictionarySuffixByte]
        simp
      | cons t rest =>
        obtain ⟨⟨k, v⟩, idx⟩ := t
        simp only [List.all_cons, Bool.and_eq_true] at hall
        obtain ⟨⟨hwk, hvv⟩, hallr⟩ := hall
        simp only [fullLenTriples] at hlen
        have hkp := encKeyBytes_len_lower k
        have hvp := fullLen_pos v hvv
        simp only [encBytesWalkF, encodeDictWalkF]
        by_cases hdup :
            (match prev with
              | some pk => areKeysEqual k pk
              | none => false) = true
        · rw [if_pos hdup, if_pos hdup]
          cases hpol : o.onDuplicateKeys with
          | none => rfl
          | some p =>
            cases p with
            | error => rfl
            | useFirst =>
              dsimp only
              have hIH := ih3 rest b tw prev o hallr (by omega)
              rcases hE : encBytesWalkF fuel rest prev o with _ | e | bs
              · rw [hE] at hIH
                exact hIH
              · rw [hE] at hIH
                exact hIH
              · rw [hE] at hIH
                refine ⟨?_, hIH.2⟩
                have := hIH.1
                simp only [fullLenTriples]
                omega
            | useLast =>
              dsimp only
              have hIH := ih3 rest b tw prev o hallr (by omega)
              rcases hE : encBytesWalkF fuel rest prev o with _ | e | bs
              · rw [hE] at hIH
                exact hIH
              · rw [hE] at hIH
                exact hIH
              · rw [hE] at hIH
                refine ⟨?_, hIH.2⟩
                have := hIH.1
                simp only [fullLenTriples]
                omega
        · rw [if_neg hdup, if_neg hdup]
          rw [encodeKeyInto_spec k (b.drop tw) o hwk (by simp; omega)]
          dsimp only
          rw [if_pos rfl]
          have hIH1 := ih1 v ((b.take tw ++ (encKeyBytes k ++
              (b.drop tw).drop (encKeyBytes k).length)).drop
              (tw + (encKeyBytes k).length)) o hvv (by
            simp only [List.length_drop, List.length_append, List.length_take]
            omega)
          rcases hE : encBytesF fuel v o with _ | e | vb
          · rw [hE] at hIH1
            rw [hIH1]
          · rw [hE] at hIH1
            rw [hIH1]
          · rw [hE] at hIH1
            obtain ⟨hvb, hrunv⟩ := hIH1
            rw [hrunv]
            dsimp only
            rw [if_pos rfl]
            have hIH3 := ih3 rest
              ((b.take tw ++ (encKeyBytes k ++
                  (b.drop tw).drop (encKeyBytes k).length)).take
                  (tw + (encKeyBytes k).length) ++
                (vb ++ ((b.take tw ++ (encKeyBytes k ++
                  (b.drop tw).drop (encKeyBytes k).length)).drop
                  (tw + (encKeyBytes k).length)).drop vb.length))
              (tw + (encKeyBytes k).length + vb.length) (some k) o hallr
              (by
                simp only [List.length_append, List.length_take,
                  List.length_drop]
                omega)
            rcases hE2 : encBytesWalkF fuel rest (some k) o with _ | e2 | rb
            · rw [hE2] at hIH3
              exact hIH3
            · rw [hE2] at hIH3
              exact hIH3
            · rw [hE2] at hIH3
              obtain ⟨hrb, hrunr⟩ := hIH3
              refine ⟨?_, ?_⟩
              · simp only [fullLenTriples, List.length_append]
                omega
              · rw [hrunr]
                have hTK : (b.take tw ++ (encKeyBytes k ++
                    (b.drop tw).drop (encKeyBytes k).length)).take
                    (tw + (encKeyBytes k).length) =
                    b.take tw ++ encKeyBytes k := by
                  rw [← List.append_assoc]
                  exact take_append_exact _ _ _ (by
                    simp only [List.length_append, List.length_take]
                    omega)
                have hD2 : (b.take tw ++ (encKeyBytes k ++
                    (b.drop tw).drop (encKeyBytes k).length)).drop
                    (tw + (encKeyBytes k).length) =
                    (b.drop tw).drop (encKeyBytes k).length := by
                  rw [← List.append_assoc]
                  rw [drop_append_exact _ _ _ (by
                    simp only [List.length_append, List.length_take]
                    omega)]
                  rw [show tw + (encKeyBytes k).length -
                    (b.take tw ++ encKeyBytes k).length = 0 from by
                    simp only [List.length_append, List.length_take]
                    omega]
                  rfl
                rw [hTK, hD2]
                rw [show (b.take tw ++ encKeyBytes k) ++ (vb ++
                    ((b.drop tw).drop (encKeyBytes k).length).drop vb.length) =
                    ((b.take tw ++ encKeyBytes k) ++ vb) ++
                    (((b.drop tw).drop (encKeyBytes k).length).drop
                      vb.length) from by simp [List.append_assoc]]
                rw [take_append_exact ((b.take tw ++ encKeyBytes k) ++ vb)
                  (((b.drop tw).drop (encKeyBytes k).length).drop vb.length)
                  (tw + (encKeyBytes k).length + vb.length) (by
                    simp only [List.length_append, List.length_take]
                    omega)]
                rw [show tw + (encKeyBytes k).length + vb.length +
                    rb.length + 1 =
                    ((b.take tw ++ encKeyBytes k) ++ vb).length +
                    (rb.length + 1) from by
                  simp only [List.length_append, List.length_take]
                  omega]
                rw [List.drop_append]
                rw [List.drop_drop, List.drop_drop, List.drop_drop]
                simp only [List.length_append, List.length_take,
                  List.append_assoc]
                rw [Nat.min_eq_left (by omega)]
                rw [show tw + ((encKeyBytes k).length + (vb.length +
                    (rb.length + 1))) =
                    tw + ((encKeyBytes k).length + (vb.length + rb.length)) +
                    1 from by omega]
                rw [show tw + ((encKeyBytes k).length + vb.length) +
                    (rb.length + 1) =
                    tw + ((encKeyBytes k).length + (vb.length + rb.length)) +
                    1 from by omega]

/-! ### Totality of the canonical byte string -/

/-- Ordered insertion adds one entry to the walk fuel. -/
theorem triplesFuel_insertSorted (le : (Key × Value) × Nat →
      (Key × Value) × Nat → Bool) (x : (Key × Value) × Nat) :
    ∀ l, triplesFuel (insertSorted le x l) =
      1 + valueFuel x.1.2 + triplesFuel l := by
  intro l
  induction l with
  | nil => simp [insertSorted, triplesFuel]
  | cons y ys ih =>
    simp only [insertSorted]
    by_cases h : le x y = true
    · rw [if_pos h]
      simp [triplesFuel]
    · rw [if_neg h]
      obtain ⟨⟨xk, xv⟩, xi⟩ := x
      obtain ⟨⟨yk, yv⟩, yi⟩ := y
      simp only [triplesFuel, ih]
      omega

/-- Insertion sort preserves the walk fuel. -/
theorem triplesFuel_insertionSort (le : (Key × Value) × Nat →
      (Key × Value) × Nat → Bool) :
    ∀ l, triplesFuel (insertionSort le l) = triplesFuel l := by
  intro l
  induction l with
  | nil => rfl
  | cons x xs ih =>
    obtain ⟨⟨xk, xv⟩, xi⟩ := x
    simp only [insertionSort, triplesFuel_insertSorted, ih, triplesFuel]

/-- Pairing with indexes carries the entry fuel to the walk fuel. -/
theorem triplesFuel_zipWithIndexAux :
    ∀ (es : List (Key × Value)) (i : Nat),
      triplesFuel (zipWithIndexAux es i) = valueEntriesFuel es := by
  intro es
  induction es with
  | nil => intro i; rfl
  | cons e rest ih =>
    intro i
    obtain ⟨k, v⟩ := e
    simp only [zipWithIndexAux, triplesFuel, valueEntriesFuel, ih]

/-- The canonical byte string never runs out of fuel under the
`valueFuel` budget. -/
theorem encBytesF_total : ∀ fuel : Nat,
    (∀ (v : Value) (o : NonAllocEncodingOptions),
      valueFuel v ≤ fuel → encBytesF fuel v o ≠ none) ∧
    (∀ (xs : List Value) (o : NonAllocEncodingOptions),
      valueListFuel xs ≤ fuel → encBytesListF fuel xs o ≠ none) ∧
    (∀ (ts : List ((Key × Value) × Nat)) (prev : Option Key)
        (o : NonAllocEncodingOptions),
      triplesFuel ts ≤ fuel → encBytesWalkF fuel ts prev o ≠ none) := by
  intro fuel
  induction fuel with
  | zero =>
    refine ⟨?_, ?_, ?_⟩
    · intro v o h
      have := valueFuel_pos v
      omega
    · intro xs o h
      cases xs <;> simp [valueListFuel] at h
    · intro ts o prev h
      cases ts with
      | nil => simp [triplesFuel] at h
      | cons t rest =>
        obtain ⟨⟨k, v⟩, i⟩ := t
        simp [triplesFuel] at h
  | succ fuel ih =>
    obtain ⟨ih1, ih2, ih3⟩ := ih
    refine ⟨?_, ?_, ?_⟩
    · intro v o hf
      cases v with
      | nil => simp [encBytesF]
      | bool bv => simp [encBytesF]
      | int i => simp [encBytesF]
      | text s => simp [encBytesF]
      | binary bb => simp [encBytesF]
      | num => simp [encBytesF]
      | list xs =>
        simp only [valueFuel] at hf
        have h2 := ih2 xs o (by omega)
        simp only [encBytesF]
        rcases hE : encBytesListF fuel xs o with _ | e | bs
        · exact absurd hE h2
        · simp
        · simp
      | dict es =>
        simp only [valueFuel] at hf
        have h3 := ih3 (insertionSort (entryLe o) (zipWithIndex es)) none o
          (by
            rw [triplesFuel_insertionSort]
            simp only [zipWithIndex]
            rw [triplesFuel_zipWithIndexAux]
            omega)
        simp only [encBytesF]
        rcases hE : encBytesWalkF fuel
            (insertionSort (entryLe o) (zipWithIndex es)) none o
          with _ | e | bs
        · exact absurd hE h3
        · simp
        · simp
    · intro xs o hf
      cases xs with
      | nil => simp [encBytesListF]
      | cons x rest =>
        simp only [valueListFuel] at hf
        have h1 := ih1 x o (by omega)
        have h2 := ih2 rest o (by omega)
        simp only [encBytesListF]
        rcases hE : encBytesF fuel x o with _ | e | bx
        · exact absurd hE h1
        · simp
        · rcases hE2 : encBytesListF fuel rest o with _ | e2 | br
          · exact absurd hE2 h2
          · simp
          · simp
    · intro ts prev o hf
      cases ts with
      | nil => simp [encBytesWalkF]
      | cons t rest =>
        obtain ⟨⟨k, v⟩, i⟩ := t
        simp only [triplesFuel] at hf
        simp only [encBytesWalkF]
        by_cases hdup :
            (match prev with
              | some pk => areKeysEqual k pk
              | none => false) = true
        · rw [if_pos hdup]
          cases hpol : o.onDuplicateKeys with
          | none => simp
          | some p =>
            cases p with
            | error => simp
            | useFirst => exact ih3 rest prev o (by omega)
            | useLast => exact ih3 rest prev o (by omega)
        · rw [if_neg hdup]
          have h1 := ih1 v o (by omega)
          have h3 := ih3 rest (some k) o (by omega)
          rcases hE : encBytesF fuel v o with _ | e | vb
          · exact absurd hE h1
          · simp
          · rcases hE2 : encBytesWalkF fuel rest (some k) o with _ | e2 | rb
            · exact absurd hE2 h3
            · simp
            · simp

/-! ### Wrappers: `encodeInto`, `encode`, and the estimator -/

/-- The canonical byte function runs with the wrapper budget. -/
theorem encBytes_eq_encBytesF (v : Value) (o : NonAllocEncodingOptions) :
    encBytesF (valueFuel v) v o = some (encBytes v o) := by
  rcases hE : encBytesF (valueFuel v) v o with _ | r
  · exact absurd hE ((encBytesF_total (valueFuel v)).1 v o (le_refl _))
  · simp [encBytes, hE]

/-- `encodeInto` on a sufficient buffer realizes the canonical byte
string (or throws its exception). -/
theorem encodeInto_eq (v : Value) (b : Bytes) (o : NonAllocEncodingOptions)
    (hv : validValue v = true) (hfl : fullLen v ≤ b.length) :
    (match encBytes v o with
     | .error e => encodeInto v b o = .error e
     | .ok bs => bs.length ≤ fullLen v ∧
         encodeInto v b o = .ok (bs ++ b.drop bs.length, ⟨bs.length, true⟩) :
      Prop) := by
  have hmain := (encoder_main (valueFuel v)).1 v b o hv hfl
  rw [encBytes_eq_encBytesF v o] at hmain
  rcases hE : encBytes v o with e | bs
  · rw [hE] at hmain
    simp [encodeInto, hmain]
  · rw [hE] at hmain
    obtain ⟨h1, h2⟩ := hmain
    exact ⟨h1, by simp [encodeInto, h2]⟩

/-- The size estimator is sound for `fullLen` at any accuracy, and
exact away from `fastGuess` when every integer is small. -/
theorem estimate_main : ∀ fuel : Nat,
    (∀ (v : Value) (opts : SizeEstimationOptions), valueFuel v ≤ fuel →
      validValue v = true →
      (match estimateSize v opts with
       | .error _ => False
       | .ok n => fullLen v ≤ n ∧
           (smallInts v = true → opts.accuracy ≠ some .fastGuess →
             n = fullLen v) : Prop)) ∧
    (∀ (xs : List Value) (opts : SizeEstimationOptions),
      valueListFuel xs ≤ fuel → validValueList xs = true →
      (match estimateSizeList xs opts with
       | .error _ => False
       | .ok n => fullLenList xs ≤ n ∧
           (smallIntsList xs = true → opts.accuracy ≠ some .fastGuess →
             n = fullLenList xs) : Prop)) ∧
    (∀ (es : List (Key × Value)) (opts : SizeEstimationOptions),
      valueEntriesFuel es ≤ fuel → validValueEntries es = true →
      (match estimateSizeEntries es opts with
       | .error _ => False
       | .ok n => fullLenEntries es ≤ n ∧
           (smallIntsEntries es = true → opts.accuracy ≠ some .fastGuess →
             n = fullLenEntries es) : Prop)) := by
  intro fuel
  induction fuel with
  | zero =>
    refine ⟨?_, ?_, ?_⟩
    · intro v opts h
      have := valueFuel_pos v
      omega
    · intro xs opts h
      cases xs <;> simp [valueListFuel] at h
    · intro es opts h
      cases es with
      | nil => simp [valueEntriesFuel] at h
      | cons e rest =>
        obtain ⟨k, v⟩ := e
        simp [valueEntriesFuel] at h
  | succ fuel ih =>
    obtain ⟨ih1, ih2, ih3⟩ := ih
    refine ⟨?_, ?_, ?_⟩
    · intro v opts hf hv
      cases v with
      | nil => exact ⟨le_refl _, fun _ _ => rfl⟩
      | bool bv => exact ⟨le_refl _, fun _ _ => rfl⟩
      | int i =>
        simp only [estimateSize, fullLen]
        have hd := natToDecBytes_len_pos (intToDecBytes i).length
        refine ⟨by omega, ?_⟩
        intro hsm _
        simp only [smallInts, decide_eq_true_eq] at hsm
        rw [natToDecBytes_small (by omega)]
        simp
        omega
      | text s =>
        have hwf : wellFormedUtf16 s = true := by simpa [validValue] using hv
        have hb := textEncoderEncode_len_bounds s.length s (le_refl _)
          (wellFormedUtf16_units s.length s (le_refl _) hwf)
        simp only [estimateSize, estimateKeySize, fullLen, encKeyBytes]
        constructor
        · by_cases hfg : opts.accuracy = some .fastGuess ∧ s.length < 128
          · have hU : estimateUtf8Length s opts = 3 * s.length := by
              simp [estimateUtf8Length, hfg]
            rw [hU]
            have hmono := natToDecBytes_len_mono
              (show (textEncoderEncode s).length ≤ 3 * s.length from hb.2)
            simp only [List.length_cons, List.length_append]
            omega
          · have hU : estimateUtf8Length s opts =
                (textEncoderEncode s).length := by
              simp only [estimateUtf8Length]
              rw [if_neg hfg]
            rw [hU]
            simp only [List.length_cons, List.length_append]
            omega
        · intro _ hnf
          have hU : estimateUtf8Length s opts =
              (textEncoderEncode s).length := by
            simp only [estimateUtf8Length]
            rw [if_neg (by
              intro hc
              exact hnf hc.1)]
          rw [hU]
          simp only [List.length_cons, List.length_append]
          omega
      | binary bb =>
        simp only [estimateSize, estimateKeySize, fullLen, encKeyBytes]
        constructor
        · simp only [List.length_cons, List.length_append]
          omega
        · intro _ _
          simp only [List.length_cons, List.length_append]
          omega
      | num => simp [validValue] at hv
      | list xs =>
        have hv2 : validValueList xs = true := by simpa [validValue] using hv
        simp only [valueFuel] at hf
        have hIH := ih2 xs opts (by omega) hv2
        simp only [estimateSize, fullLen]
        rcases hE : estimateSizeList xs opts with e | n
        · rw [hE] at hIH
          exact hIH
        · rw [hE] at hIH
          obtain ⟨h1, h2⟩ := hIH
          refine ⟨by omega, ?_⟩
          intro hsm hnf
          simp only [smallInts] at hsm
          have := h2 hsm hnf
          omega
      | dict es =>
        have hv2 : validValueEntries es = true := by simpa [validValue] using hv
        simp only [valueFuel] at hf
        have hIH := ih3 es opts (by omega) hv2
        simp only [estimateSize, fullLen]
        rcases hE : estimateSizeEntries es opts with e | n
        · rw [hE] at hIH
          exact hIH
        · rw [hE] at hIH
          obtain ⟨h1, h2⟩ := hIH
          refine ⟨by omega, ?_⟩
          intro hsm hnf
          simp only [smallInts] at hsm
          have := h2 hsm hnf
          omega
    · intro xs opts hf hall
      cases xs with
      | nil => exact ⟨le_refl _, fun _ _ => rfl⟩
      | cons x rest =>
        simp only [valueListFuel] at hf
        simp only [validValueList, Bool.and_eq_true] at hall
        have hIH1 := ih1 x opts (by omega) hall.1
        have hIH2 := ih2 rest opts (by omega) hall.2
        simp only [estimateSizeList, fullLenList]
        rcases hE : estimateSize x opts with e | n
        · rw [hE] at hIH1
          exact hIH1
        · rw [hE] at hIH1
          rcases hE2 : estimateSizeList rest opts with e2 | m
          · rw [hE2] at hIH2
            exact hIH2
          · rw [hE2] at hIH2
            obtain ⟨h1, h2⟩ := hIH1
            obtain ⟨h3, h4⟩ := hIH2
            refine ⟨by omega, ?_⟩
            intro hsm hnf
            simp only [smallIntsList, Bool.and_eq_true] at hsm
            have e1 := h2 hsm.1 hnf
            have e2 := h4 hsm.2 hnf
            omega
    · intro es opts hf hall
      cases es with
      | nil => exact ⟨le_refl _, fun _ _ => rfl⟩
      | cons e rest =>
        obtain ⟨k, v⟩ := e
        simp only [valueEntriesFuel] at hf
        simp only [validValueEntries, Bool.and_eq_true] at hall
        obtain ⟨⟨hwk, hvv⟩, hallr⟩ := hall
        have hIH1 := ih1 v opts (by omega) hvv
        have hIH2 := ih3 rest opts (by omega) hallr
        simp only [estimateSizeEntries, fullLenEntries]
        rcases hE : estimateSize v opts with e | n
        · rw [hE] at hIH1
          exact hIH1
        · rw [hE] at hIH1
          rcases hE2 : estimateSizeEntries rest opts with e2 | m
          · rw [hE2] at hIH2
            exact hIH2
          · rw [hE2] at hIH2
            obtain ⟨h1, h2⟩ := hIH1
            obtain ⟨h3, h4⟩ := hIH2
            have hkey : (encKeyBytes k).length ≤ estimateKeySize k opts ∧
                (opts.accuracy ≠ some .fastGuess →
                  estimateKeySize k opts = (encKeyBytes k).length) := by
              cases k with
              | text s =>
                have hwf : wellFormedUtf16 s = true := by
                  simpa [wellFormedKey] using hwk
                have hb := textEncoderEncode_len_bounds s.length s (le_refl _)
                  (wellFormedUtf16_units s.length s (le_refl _) hwf)
                simp only [estimateKeySize, encKeyBytes]
                constructor
                · by_cases hfg : opts.accuracy = some .fastGuess ∧
                      s.length < 128
                  · have hU : estimateUtf8Length s opts = 3 * s.length := by
                      simp [estimateUtf8Length, hfg]
                    rw [hU]
                    have hmono := natToDecBytes_len_mono
                      (show (textEncoderEncode s).length ≤ 3 * s.length from
                        hb.2)
                    simp only [List.length_cons, List.length_append]
                    omega
                  · have hU : estimateUtf8Length s opts =
                        (textEncoderEncode s).length := by
                      simp only [estimateUtf8Length]
                      rw [if_neg hfg]
                    rw [hU]
                    simp only [List.length_cons, List.length_append]
                    omega
                · intro hnf
                  have hU : estimateUtf8Length s opts =
                      (textEncoderEncode s).length := by
                    simp only [estimateUtf8Length]
                    rw [if_neg (by
                      intro hc
                      exact hnf hc.1)]
                  rw [hU]
                  simp only [List.length_cons, List.length_append]
                  omega
              | binary bb =>
                simp only [estimateKeySize, encKeyBytes]
                constructor
                · simp only [List.length_cons, List.length_append]
                  omega
                · intro _
                  simp only [List.length_cons, List.length_append]
                  omega
            refine ⟨by omega, ?_⟩
            intro hsm hnf
            simp only [smallIntsEntries, Bool.and_eq_true] at hsm
            have e1 := h2 hsm.1 hnf
            have e2 := h4 hsm.2 hnf
            have e3 := hkey.2 hnf
            omega

/-- `encode` realizes the canonical byte string under the speculative
options `encode` passes to `encodeInto`. -/
theorem encode_eq (v : Value) (pol : Option DuplicatePolicy)
    (hv : validValue v = true) :
    (match encBytes v ⟨pol, true⟩ with
     | .error e => encode v ⟨pol⟩ = .error e
     | .ok bs => bs.length ≤ fullLen v ∧ encode v ⟨pol⟩ = .ok bs : Prop) := by
  unfold encode
  dsimp only
  have hest := (estimate_main (valueFuel v)).1 v ⟨some .fastGuess⟩
    (le_refl _) hv
  rcases hE : estimateSize v ⟨some .fastGuess⟩ with e | size
  · rw [hE] at hest
    exact absurd hest (by simp)
  · rw [hE] at hest
    obtain ⟨hsize, -⟩ := hest
    have hinto := encodeInto_eq v (List.replicate size 0) ⟨pol, true⟩ hv
      (by simp; omega)
    rcases hB : encBytes v ⟨pol, true⟩ with e | bs
    · rw [hB] at hinto
      dsimp only at hinto ⊢
      rw [hinto]
    · rw [hB] at hinto
      dsimp only at hinto ⊢
      obtain ⟨hlen, hrun⟩ := hinto
      refine ⟨hlen, ?_⟩
      rw [hrun]
      have := List.take_left bs ((List.replicate size 0).drop bs.length)
      simp [this]

/-! ### Permutation and distinctness toolkit -/

/-- Key equality is symmetric. -/
theorem areKeysEqual_comm (a b : Key) :
    areKeysEqual a b = areKeysEqual b a := by
  rcases hab : areKeysEqual a b <;> rcases hba : areKeysEqual b a <;>
    first
      | rfl
      | (exact absurd ((areKeysEqual_iff a b).mpr
          ((areKeysEqual_iff b a).mp hba).symm) (by simp [hab]))
      | (exact absurd ((areKeysEqual_iff b a).mpr
          ((areKeysEqual_iff a b).mp hab).symm) (by simp [hba]))

/-- Ordered insertion permutes to consing. -/
theorem insertSorted_perm {α : Type} (le : α → α → Bool) (x : α) :
    ∀ l : List α, (insertSorted le x l).Perm (x :: l) := by
  intro l
  induction l with
  | nil => simp [insertSorted]
  | cons y ys ih =>
    simp only [insertSorted]
    by_cases h : le x y = true
    · rw [if_pos h]
    · rw [if_neg h]
      exact (List.Perm.cons y ih).trans (List.Perm.swap x y ys)

/-- Insertion sort permutes its input. -/
theorem insertionSort_perm {α : Type} (le : α → α → Bool) :
    ∀ l : List α, (insertionSort le l).Perm l := by
  intro l
  induction l with
  | nil => simp [insertionSort]
  | cons x xs ih =>
    exact (insertSorted_perm le x (insertionSort le xs)).trans
      (List.Perm.cons x ih)

/-- A key is absent from an entry sequence iff no entry key equals
it. -/
theorem dictKeyMember_eq_false_iff (key : Key) :
    ∀ l : List (Key × Value), dictKeyMember key l = false ↔
      ∀ p ∈ l, areKeysEqual p.1 key = false := by
  intro l
  induction l with
  | nil => simp [dictKeyMember]
  | cons e rest ih =>
    obtain ⟨k, v⟩ := e
    simp only [dictKeyMember, Bool.or_eq_false_iff, ih, List.mem_cons]
    constructor
    · rintro ⟨h1, h2⟩ p hp
      rcases hp with hp | hp
      · subst hp
        exact h1
      · exact h2 p hp
    · intro h
      exact ⟨h (k, v) (Or.inl rfl), fun p hp => h p (Or.inr hp)⟩

/-- `distinctKeys` is pairwise key-distinctness. -/
theorem distinctKeys_pairwise :
    ∀ es : List (Key × Value), distinctKeys es = true ↔
      es.Pairwise (fun a b => areKeysEqual a.1 b.1 = false) := by
  intro es
  induction es with
  | nil => simp [distinctKeys]
  | cons e rest ih =>
    obtain ⟨k, v⟩ := e
    simp only [distinctKeys, Bool.and_eq_true, Bool.not_eq_true',
      List.pairwise_cons, ih, dictKeyMember_eq_false_iff]
    constructor
    · rintro ⟨h1, h2⟩
      refine ⟨fun p hp => ?_, h2⟩
      rw [areKeysEqual_comm]
      exact h1 p hp
    · rintro ⟨h1, h2⟩
      refine ⟨fun p hp => ?_, h2⟩
      rw [areKeysEqual_comm]
      exact h1 p hp

/-- Members of the indexed list project to members of the list. -/
theorem mem_zipWithIndexAux {α : Type} (t : α × Nat) :
    ∀ (l : List α) (i : Nat), t ∈ zipWithIndexAux l i → t.1 ∈ l := by
  intro l
  induction l with
  | nil => intro i h; simp [zipWithIndexAux] at h
  | cons x xs ih =>
    intro i h
    simp only [zipWithIndexAux, List.mem_cons] at h
    rcases h with h | h
    · subst h
      simp
    · simp [ih (i + 1) h]

/-- Pairwise key-distinctness carries over to the indexed list. -/
theorem pairwise_zipWithIndexAux :
    ∀ (es : List (Key × Value)) (i : Nat),
      es.Pairwise (fun a b => areKeysEqual a.1 b.1 = false) →
      (zipWithIndexAux es i).Pairwise
        (fun a b => areKeysEqual a.1.1 b.1.1 = false) := by
  intro es
  induction es with
  | nil => intro i _; simp [zipWithIndexAux]
  | cons e rest ih =>
    intro i h
    rw [List.pairwise_cons] at h
    simp only [zipWithIndexAux, List.pairwise_cons]
    refine ⟨fun t ht => ?_, ih (i + 1) h.2⟩
    exact h.1 t.1 (mem_zipWithIndexAux t rest (i + 1) ht)

/-- The key-distinctness relation on triples is symmetric. -/
theorem keyDistinct_symm : Symmetric (fun (a b : (Key × Value) × Nat) =>
    areKeysEqual a.1.1 b.1.1 = false) := by
  intro a b h
  rw [areKeysEqual_comm]
  exact h

/-- `noDupValueEntries` as an `all` over entry values. -/
theorem noDupValueEntries_all :
    ∀ es : List (Key × Value), noDupValueEntries es =
      es.all fun e => noDupValue e.2 := by
  intro es
  induction es with
  | nil => rfl
  | cons e rest ih =>
    obtain ⟨k, v⟩ := e
    simp [noDupValueEntries, ih, List.all]

/-- Pairing entries with indexes preserves value no-duplication. -/
theorem zipWithIndexAux_noDupV :
    ∀ (es : List (Key × Value)) (i : Nat),
      ((zipWithIndexAux es i).all fun t => noDupValue t.1.2) =
        noDupValueEntries es := by
  intro es
  induction es with
  | nil => intro i; rfl
  | cons e rest ih =>
    intro i
    obtain ⟨k, v⟩ := e
    simp [zipWithIndexAux, List.all, noDupValueEntries, ih]

/-- On values without duplicate dictionary keys the canonical byte
string always succeeds and has exactly the full wire length. -/
theorem encBytes_noDup_main : ∀ fuel : Nat,
    (∀ (v : Value) (o : NonAllocEncodingOptions), valueFuel v ≤ fuel →
      validValue v = true → noDupValue v = true →
      ∃ bs, encBytesF fuel v o = some (.ok bs) ∧ bs.length = fullLen v) ∧
    (∀ (xs : List Value) (o : NonAllocEncodingOptions),
      valueListFuel xs ≤ fuel → validValueList xs = true →
      noDupValueList xs = true →
      ∃ bs, encBytesListF fuel xs o = some (.ok bs) ∧
        bs.length = fullLenList xs) ∧
    (∀ (ts : List ((Key × Value) × Nat)) (prev : Option Key)
        (o : NonAllocEncodingOptions), triplesFuel ts ≤ fuel →
      (ts.all fun t => wellFormedKey t.1.1 && validValue t.1.2) = true →
      (ts.all fun t => noDupValue t.1.2) = true →
      ts.Pairwise (fun a b => areKeysEqual a.1.1 b.1.1 = false) →
      (∀ pk, prev = some pk →
        ∀ t ∈ ts, areKeysEqual t.1.1 pk = false) →
      ∃ bs, encBytesWalkF fuel ts prev o = some (.ok bs) ∧
        bs.length = fullLenTriples ts) := by
  intro fuel
  induction fuel with
  | zero =>
    refine ⟨?_, ?_, ?_⟩
    · intro v o h
      have := valueFuel_pos v
      omega
    · intro xs o h
      cases xs <;> simp [valueListFuel] at h
    · intro ts prev o h
      cases ts with
      | nil => simp [triplesFuel] at h
      | cons t rest =>
        obtain ⟨⟨k, v⟩, i⟩ := t
        simp [triplesFuel] at h
  | succ fuel ih =>
    obtain ⟨ih1, ih2, ih3⟩ := ih
    refine ⟨?_, ?_, ?_⟩
    · intro v o hf hv hnd
      cases v with
      | nil => exact ⟨_, rfl, rfl⟩
      | bool bv => exact ⟨_, rfl, rfl⟩
      | int i =>
        refine ⟨_, rfl, ?_⟩
        simp [fullLen]
      | text s => exact ⟨_, rfl, rfl⟩
      | binary bb => exact ⟨_, rfl, rfl⟩
      | num => simp [validValue] at hv
      | list xs =>
        simp only [valueFuel] at hf
        obtain ⟨bs, hbs, hlen⟩ := ih2 xs o (by omega)
          (by simpa [validValue] using hv) (by simpa [noDupValue] using hnd)
        refine ⟨listPrefixByte :: bs ++ [listSuffixByte], ?_, ?_⟩
        · simp only [encBytesF, hbs]
        · simp [fullLen, hlen]
          omega
      | dict es =>
        simp only [valueFuel] at hf
        have hnd2 : (distinctKeys es && noDupValueEntries es) = true := by
          simpa [noDupValue] using hnd
        simp only [Bool.and_eq_true] at hnd2
        have hall : ((insertionSort (entryLe o) (zipWithIndex es)).all
            fun t => wellFormedKey t.1.1 && validValue t.1.2) = true := by
          rw [insertionSort_all]
          simp only [zipWithIndex]
          rw [zipWithIndexAux_validKV]
          simpa [validValue] using hv
        have hndall : ((insertionSort (entryLe o) (zipWithIndex es)).all
            fun t => noDupValue t.1.2) = true := by
          rw [insertionSort_all]
          simp only [zipWithIndex]
          rw [zipWithIndexAux_noDupV]
          exact hnd2.2
        have hpw : (insertionSort (entryLe o) (zipWithIndex es)).Pairwise
            (fun a b => areKeysEqual a.1.1 b.1.1 = false) := by
          have h1 := (distinctKeys_pairwise es).mp hnd2.1
          have h2 := pairwise_zipWithIndexAux es 0 h1
          exact ((insertionSort_perm (entryLe o)
            (zipWithIndex es)).pairwise_iff
            (fun hxy => keyDistinct_symm hxy)).mpr h2
        obtain ⟨bs, hbs, hlen⟩ := ih3
          (insertionSort (entryLe o) (zipWithIndex es)) none o
          (by
            rw [triplesFuel_insertionSort]
            simp only [zipWithIndex]
            rw [triplesFuel_zipWithIndexAux]
            omega)
          hall hndall hpw (by intro pk h; cases h)
        refine ⟨dictionaryPrefixByte :: bs ++ [dictionarySuffixByte], ?_, ?_⟩
        · simp only [encBytesF, hbs]
        · simp only [fullLen, List.length_cons, List.length_append,
            List.length_nil]
          rw [hlen, fullLenTriples_insertionSort]
          simp only [zipWithIndex]
          rw [fullLenTriples_zipWithIndexAux]
          omega
    · intro xs o hf hall hnd
      cases xs with
      | nil => exact ⟨[], rfl, rfl⟩
      | cons x rest =>
        simp only [valueListFuel] at hf
        simp only [validValueList, Bool.and_eq_true] at hall
        simp only [noDupValueList, Bool.and_eq_true] at hnd
        obtain ⟨bx, hbx, hlx⟩ := ih1 x o (by omega) hall.1 hnd.1
        obtain ⟨br, hbr, hlr⟩ := ih2 rest o (by omega) hall.2 hnd.2
        refine ⟨bx ++ br, ?_, ?_⟩
        · simp only [encBytesListF, hbx, hbr]
        · simp [fullLenList, hlx, hlr]
    · intro ts prev o hf hall hnd hpw hprev
      cases ts with
      | nil => exact ⟨[], rfl, rfl⟩
      | cons t rest =>
        obtain ⟨⟨k, v⟩, idx⟩ := t
        simp only [triplesFuel] at hf
        simp only [List.all_cons, Bool.and_eq_true] at hall hnd
        rw [List.pairwise_cons] at hpw
        obtain ⟨vb, hvb, hlv⟩ := ih1 v o (by omega) hall.1.2 hnd.1
        obtain ⟨rb, hrb, hlr⟩ := ih3 rest (some k) o (by omega) hall.2 hnd.2
          hpw.2 (by
            intro pk h t ht
            cases h
            rw [areKeysEqual_comm]
            exact hpw.1 t ht)
        refine ⟨encKeyBytes k ++ vb ++ rb, ?_, ?_⟩
        · cases prev with
          | none =>
            simp only [encBytesWalkF]
            rw [if_neg (by simp)]
            rw [hvb]
            dsimp only
            rw [hrb]
          | some pk =>
            have hkpk : areKeysEqual k pk = false :=
              hprev pk rfl ((k, v), idx) (by simp)
            simp only [encBytesWalkF]
            rw [if_neg (by simp [hkpk])]
            rw [hvb]
            dsimp only
            rw [hrb]
        · simp only [fullLenTriples, List.length_append, hlv, hlr]
  
/-- On values without duplicate dictionary keys the canonical byte
string is exactly `fullLen` long. -/
theorem encBytes_noDup_ok (v : Value) (o : NonAllocEncodingOptions)
    (hv : validValue v = true) (hnd : noDupValue v = true) :
    ∃ bs, encBytes v o = .ok bs ∧ bs.length = fullLen v := by
  obtain ⟨bs, hbs, hlen⟩ := (encBytes_noDup_main (valueFuel v)).1 v o
    (le_refl _) hv hnd
  rw [encBytes_eq_encBytesF] at hbs
  exact ⟨bs, Option.some.inj hbs, hlen⟩

/-- C2 (amended): for every valid value the best-effort estimate is
at least the encoded length; it is exact when no dictionary has
duplicate keys and every integer's decimal form (sign included) is
under ten characters; and for a `bigint` of ten or more decimal
characters the estimate strictly exceeds the encoded length. -/
theorem estimator_soundness_amended :
    ∀ v : Value, validValue v = true →
      ∃ n, estimateSize v ⟨some .bestEffort⟩ = .ok n ∧
        (∀ bs, encode v {} = .ok bs → bs.length ≤ n) ∧
        (noDupValue v = true → smallInts v = true →
          ∃ bs, encode v {} = .ok bs ∧ bs.length = n) ∧
        (∀ i : Int, v = .int i → 10 ≤ (intToDecBytes i).length →
          ∀ bs, encode v {} = .ok bs → bs.length < n) := by
  intro v hv
  have hest := (estimate_main (valueFuel v)).1 v ⟨some .bestEffort⟩
    (le_refl _) hv
  rcases hE : estimateSize v ⟨some .bestEffort⟩ with e | n
  · rw [hE] at hest
    exact absurd hest (by simp)
  · rw [hE] at hest
    obtain ⟨hsound, hexact⟩ := hest
    refine ⟨n, rfl, ?_, ?_, ?_⟩
    · intro bs hbs
      have henc := encode_eq v none hv
      rcases hB : encBytes v ⟨none, true⟩ with e | bs2
      · rw [hB] at henc
        rw [henc] at hbs
        cases hbs
      · rw [hB] at henc
        obtain ⟨hle, hrun⟩ := henc
        rw [hrun] at hbs
        cases hbs
        omega
    · intro hnd hsm
      obtain ⟨bs2, hB, hlen⟩ := encBytes_noDup_ok v ⟨none, true⟩ hv hnd
      have henc := encode_eq v none hv
      rw [hB] at henc
      obtain ⟨-, hrun⟩ := henc
      refine ⟨bs2, hrun, ?_⟩
      rw [hlen, hexact hsm (by decide)]
    · intro i hvi hbig bs hbs
      subst hvi
      simp only [estimateSize] at hE
      have hn : n = 1 + (intToDecBytes i).length +
          (natToDecBytes (intToDecBytes i).length).length := by
        cases hE
        rfl
      have hdig : 2 ≤ (natToDecBytes (intToDecBytes i).length).length := by
        have hpos := natToDecBytes_len_pos (intToDecBytes i).length
        by_contra hc
        have h2 := (natToDecBytes_len_le_iff (intToDecBytes i).length 0).mp
          (by omega)
        simp at h2
        omega
      obtain ⟨bs2, hB, hlen⟩ := encBytes_noDup_ok (.int i) ⟨none, true⟩
        (by simp [validValue]) (by simp [noDupValue])
      have henc := encode_eq (.int i) none (by simp [validValue])
      rw [hB] at henc
      obtain ⟨-, hrun⟩ := henc
      rw [hrun] at hbs
      cases hbs
      simp only [fullLen] at hlen
      omega

/-- Witness for C2 (amended): the instance at `5n`, where the
best-effort estimate is exact. -/
theorem estimator_soundness_amended_witness :
    ∃ n, estimateSize (.int 5) ⟨some .bestEffort⟩ = .ok n ∧
      (∀ bs, encode (.int 5) {} = .ok bs → bs.length ≤ n) ∧
      (noDupValue (.int 5) = true → smallInts (.int 5) = true →
        ∃ bs, encode (.int 5) {} = .ok bs ∧ bs.length = n) ∧
      (∀ i : Int, Value.int 5 = .int i → 10 ≤ (intToDecBytes i).length →
        ∀ bs, encode (.int 5) {} = .ok bs → bs.length < n) :=
  estimator_soundness_amended (.int 5) (by rfl)

/-! ### Write-frame toolkit (claim C8) -/

/-- Dropping past a single-byte write. -/
theorem set_drop {b : Bytes} {i m : Nat} (h : i < m) (x : Nat) :
    (b.set i x).drop m = b.drop m := by
  by_cases hi : i < b.length
  · rw [set_mid hi x]
    rw [drop_append_exact _ _ _ (by simp [List.length_take]; omega)]
    rw [show m - (b.take i).length = (m - i - 1) + 1 from by
      simp [List.length_take]
      omega]
    rw [List.drop_succ_cons, List.drop_drop]
    congr 1
    omega
  · rw [List.set_eq_of_length_le (by omega)]

/-- Dropping past a bulk write. -/
theorem listWrite_drop {b d : Bytes} {off m : Nat}
    (h : off + d.length ≤ m) :
    (listWrite b off d).drop m = b.drop m := by
  by_cases hin : off + d.length ≤ b.length
  · unfold listWrite
    rw [List.append_assoc]
    rw [drop_append_exact _ _ _ (by simp [List.length_take]; omega)]
    rw [drop_append_exact _ _ _ (by simp [List.length_take]; omega)]
    rw [List.drop_drop]
    congr 1
    simp [List.length_take]
    omega
  · have h1 : (listWrite b off d).drop m = [] := by
      apply List.drop_eq_nil_of_le
      rw [listWrite_length]
      omega
    have h2 : b.drop m = [] := List.drop_eq_nil_of_le (by omega)
    rw [h1, h2]

/-- Take-prefixes shrink compatibly. -/
theorem take_eq_of_take_eq {x y : Bytes} {m m2 : Nat} (h : m2 ≤ m)
    (ht : x.take m = y.take m) : x.take m2 = y.take m2 := by
  have hx : x.take m2 = (x.take m).take m2 := by
    rw [List.take_take, Nat.min_eq_left h]
  have hy : y.take m2 = (y.take m).take m2 := by
    rw [List.take_take, Nat.min_eq_left h]
  rw [hx, hy, ht]

/-- A single-byte write preserves prefix agreement one byte further. -/
theorem set_take_eq {x y : Bytes} {i : Nat} (hl : x.length = y.length)
    (ht : x.take i = y.take i) (c : Nat) :
    (x.set i c).take (i + 1) = (y.set i c).take (i + 1) := by
  by_cases hi : i < x.length
  · rw [set_mid hi c, set_mid (by omega) c]
    rw [show i + 1 = (x.take i).length + 1 from by simp; omega]
    rw [List.take_append]
    rw [show (x.take i).length + 1 = (y.take i).length + 1 from by
      simp
      omega]
    rw [List.take_append]
    rw [ht]
    simp
  · have hx : x.take i = x := List.take_of_length_le (by omega)
    have hy : y.take i = y := List.take_of_length_le (by omega)
    have hxy : x = y := by rw [← hx, ← hy, ht]
    rw [hxy]

/-- A bulk write preserves prefix agreement through its span. -/
theorem listWrite_take_eq {x y : Bytes} {off : Nat}
    (hl : x.length = y.length) (ht : x.take off = y.take off) (d : Bytes) :
    (listWrite x off d).take (off + d.length) =
      (listWrite y off d).take (off + d.length) := by
  by_cases hoff : off ≤ x.length
  · unfold listWrite
    rw [List.append_assoc, List.append_assoc]
    rw [show off + d.length = (x.take off).length + d.length from by
      simp [List.length_take]
      omega]
    rw [List.take_append]
    rw [show (x.take off).length + d.length =
        (y.take off).length + d.length from by
      simp [List.length_take]
      omega]
    rw [List.take_append]
    rw [ht, hl]
    by_cases hfit : d.length ≤ y.length - off
    · rw [List.take_append_of_le_length (by simp [List.length_take]; omega),
        List.take_append_of_le_length (by simp [List.length_take]; omega)]
    · rw [List.drop_eq_nil_of_le (by simp [List.length_take]; omega),
        List.drop_eq_nil_of_le (by simp [List.length_take]; omega)]
  · have hx : x.take off = x := List.take_of_length_le (by omega)
    have hy : y.take off = y := List.take_of_length_le (by omega)
    have hxy : x = y := by rw [← hx, ← hy, ht]
    rw [hxy]

/-- Frame and buffer-independence of the integer arm. -/
theorem encodeIntegerInto_frame (i : Int) (x y : Bytes)
    (hx : 1 ≤ x.length) (hl : x.length = y.length) :
    (encodeIntegerInto i x).2 = (encodeIntegerInto i y).2 ∧
    (encodeIntegerInto i x).2.written ≤ x.length ∧
    (encodeIntegerInto i x).1.length = x.length ∧
    (encodeIntegerInto i x).1.drop (encodeIntegerInto i x).2.written =
      x.drop (encodeIntegerInto i x).2.written ∧
    (encodeIntegerInto i x).1.take (encodeIntegerInto i x).2.written =
      (encodeIntegerInto i y).1.take (encodeIntegerInto i y).2.written := by
  simp only [encodeIntegerInto]
  rw [← hl]
  rw [textEncoderEncodeInto_ascii (intToDecBytes i) (intToDecBytes_ascii i)]
  have hw0 : (x.set 0 integerPrefixByte).take 1 =
      (y.set 0 integerPrefixByte).take 1 := by
    have h0 : x.take 0 = y.take 0 := by simp
    have := set_take_eq hl h0 integerPrefixByte
    simpa using this
  have hl0 : (x.set 0 integerPrefixByte).length =
      (y.set 0 integerPrefixByte).length := by
    simp [hl]
  by_cases hc : x.length < (intToDecBytes i).length + 2
  · rw [if_pos hc, if_pos hc]
    dsimp only
    refine ⟨rfl, ?_, ?_, ?_, ?_⟩
    · simp [List.length_take]
      omega
    · rw [listWrite_length, List.length_set]
    · rw [listWrite_drop (by simp [List.length_take]; omega)]
      rw [set_drop (by omega)]
    · have h1 := listWrite_take_eq hl0 hw0
        ((intToDecBytes i).take (x.length - 1))
      simp only [List.length_take] at h1
      simp only [List.length_take]
      rw [show (x.length - 1) ⊓ (intToDecBytes i).length + 1 =
        1 + (x.length - 1) ⊓ (intToDecBytes i).length from by omega]
      exact h1
  · rw [if_neg hc, if_neg hc]
    dsimp only
    have htk : (intToDecBytes i).take (x.length - 1) = intToDecBytes i :=
      List.take_of_length_le (by omega)
    rw [htk]
    refine ⟨rfl, ?_, ?_, ?_, ?_⟩
    · dsimp only
      omega
    · rw [List.length_set, listWrite_length, List.length_set]
    · rw [@set_drop _ ((intToDecBytes i).length + 1)
        ((intToDecBytes i).length + 2) (by omega) integerSuffixByte]
      rw [@listWrite_drop _ (intToDecBytes i) 1
        ((intToDecBytes i).length + 2) (by omega)]
      rw [@set_drop _ 0 ((intToDecBytes i).length + 2) (by omega)
        integerPrefixByte]
    · have h1 := listWrite_take_eq hl0 hw0 (intToDecBytes i)
      have hll : (listWrite (x.set 0 integerPrefixByte) 1
          (intToDecBytes i)).length =
          (listWrite (y.set 0 integerPrefixByte) 1
            (intToDecBytes i)).length := by
        rw [listWrite_length, List.length_set, listWrite_length,
          List.length_set, hl]
      have h2 := set_take_eq hll
        (@take_eq_of_take_eq _ _ (1 + (intToDecBytes i).length)
          ((intToDecBytes i).length + 1) (by omega) h1) integerSuffixByte
      simpa using h2
  
/-- A single-byte store is a one-byte bulk store. -/
theorem set_as_listWrite (x : Bytes) (i c : Nat) :
    x.set i c = listWrite x i [c] := by
  by_cases hi : i < x.length
  · rw [set_mid hi c]
    unfold listWrite
    rw [show List.take (x.length - i) [c] = [c] from
      List.take_of_length_le (by simp; omega)]
    rw [List.append_assoc]
    rfl
  · rw [List.set_eq_of_length_le (by omega)]
    unfold listWrite
    rw [List.take_of_length_le (by omega),
      show ([c] : Bytes).take (x.length - i) = [] from by
        rw [show x.length - i = 0 from by omega]
        rfl,
      List.drop_eq_nil_of_le (by omega)]
    simp

/-- A bulk write entirely below an agreeing prefix preserves the
agreement. -/
theorem listWrite_take_preserve {x y : Bytes} {off m : Nat} {d : Bytes}
    (hl : x.length = y.length) (ht : x.take m = y.take m)
    (hm : off + d.length ≤ m) :
    (listWrite x off d).take m = (listWrite y off d).take m := by
  unfold listWrite
  rw [List.take_append_eq_append_take, List.take_append_eq_append_take,
    List.take_append_eq_append_take, List.take_append_eq_append_take]
  have h1 : (x.take off).take m = (y.take off).take m := by
    rw [List.take_take, List.take_take]
    exact take_eq_of_take_eq (Nat.min_le_left m off) ht
  rw [h1]
  simp only [List.length_append, List.length_take]
  rw [← hl]
  by_cases hk : off + d.length ≤ x.length
  · have hC : (x.drop (off + d.length)).take
        (m - (min off x.length + min (x.length - off) d.length)) =
        (y.drop (off + d.length)).take
        (m - (min off x.length + min (x.length - off) d.length)) := by
      rw [List.take_drop, List.take_drop,
        show off + d.length + (m - (min off x.length +
          min (x.length - off) d.length)) = m from by omega, ht]
    rw [hC]
  · rw [List.drop_eq_nil_of_le (by omega), List.drop_eq_nil_of_le (by omega)]

/-- Decimal digit strings are never longer than the successor of the
number. -/
theorem natToDecBytes_len_le_succ (n : Nat) :
    (natToDecBytes n).length ≤ n + 1 := by
  rw [natToDecBytes_len_le_iff n n]
  calc n < 10 ^ n := Nat.lt_pow_self (by norm_num) n
  _ ≤ 10 ^ (n + 1) := Nat.pow_le_pow_right (by norm_num) (by omega)

/-- Agreement of suffixes propagates to later suffixes. -/
theorem drop_eq_of_drop_eq {u x : Bytes} {w m : Nat}
    (hd : u.drop w = x.drop w) (hm : w ≤ m) : u.drop m = x.drop m := by
  have hu : u.drop m = (u.drop w).drop (m - w) := by
    rw [List.drop_drop]
    rw [show w + (m - w) = m from by omega]
  have hx : x.drop m = (x.drop w).drop (m - w) := by
    rw [List.drop_drop]
    rw [show w + (m - w) = m from by omega]
  rw [hu, hx, hd]

/-- Frame property of the key encoder: the state depends only on the
buffer length, writes stay below `written`, `written` stays within the
buffer, and the written prefix is buffer-independent. -/
theorem encodeKeyInto_frame (k : Key) (x y : Bytes)
    (o : NonAllocEncodingOptions) (hl : x.length = y.length) :
    (encodeKeyInto k x o).2 = (encodeKeyInto k y o).2 ∧
    (encodeKeyInto k x o).2.written ≤ x.length ∧
    (encodeKeyInto k x o).1.length = x.length ∧
    (encodeKeyInto k x o).1.drop (encodeKeyInto k x o).2.written =
      x.drop (encodeKeyInto k x o).2.written ∧
    (encodeKeyInto k x o).1.take (encodeKeyInto k x o).2.written =
      (encodeKeyInto k y o).1.take (encodeKeyInto k y o).2.written := by
  have hx0 : x.take 0 = y.take 0 := rfl
  cases k with
  | binary b =>
    simp only [encodeKeyInto]
    rw [← hl]
    by_cases h1 : x.length < (natToDecBytes b.length).length + 1
    · rw [if_pos h1, if_pos h1]
      dsimp only
      have hle : (textEncoderEncodeInto (natToDecBytes b.length)
          x.length).2.length ≤ x.length :=
        textEncoderEncodeInto_written_le (natToDecBytes b.length).length
          (natToDecBytes b.length) x.length le_rfl
      refine ⟨rfl, hle, listWrite_length x 0 _, ?_, ?_⟩
      · exact @listWrite_drop x _ 0 _ (by omega)
      · have t1 := listWrite_take_eq hl hx0
          (textEncoderEncodeInto (natToDecBytes b.length) x.length).2
        simpa using t1
    · rw [if_neg h1, if_neg h1]
      rw [textEncoderEncodeInto_ascii_full (natToDecBytes b.length)
        (natToDecBytes_ascii b.length) x.length (by omega)]
      dsimp only
      have hLp : 1 ≤ (natToDecBytes b.length).length :=
        natToDecBytes_len_pos b.length
      have t1 : (listWrite x 0 (natToDecBytes b.length)).take
            (natToDecBytes b.length).length =
          (listWrite y 0 (natToDecBytes b.length)).take
            (natToDecBytes b.length).length := by
        have := listWrite_take_eq hl hx0 (natToDecBytes b.length)
        simpa using this
      have hl1 : (listWrite x 0 (natToDecBytes b.length)).length =
          (listWrite y 0 (natToDecBytes b.length)).length := by
        rw [listWrite_length, listWrite_length, hl]
      have t2 := set_take_eq hl1 t1 binaryLengthDelimiterByte
      have t2' : ((listWrite x 0 (natToDecBytes b.length)).set
            (natToDecBytes b.length).length binaryLengthDelimiterByte).take
            (1 + (natToDecBytes b.length).length) =
          ((listWrite y 0 (natToDecBytes b.length)).set
            (natToDecBytes b.length).length binaryLengthDelimiterByte).take
            (1 + (natToDecBytes b.length).length) := by
        rw [Nat.add_comm 1 (natToDecBytes b.length).length]
        exact t2
      have hl2 : ((listWrite x 0 (natToDecBytes b.length)).set
            (natToDecBytes b.length).length binaryLengthDelimiterByte).length =
          ((listWrite y 0 (natToDecBytes b.length)).set
            (natToDecBytes b.length).length binaryLengthDelimiterByte).length := by
        rw [List.length_set, List.length_set, hl1]
      by_cases h2 : x.length < 1 + (natToDecBytes b.length).length + b.length
      · rw [if_pos h2, if_pos h2]
        dsimp only
        have ht : (b.take (x.length - 1 -
            (natToDecBytes b.length).length)).length =
            x.length - 1 - (natToDecBytes b.length).length := by
          rw [List.length_take]
          omega
        refine ⟨rfl, le_rfl, ?_, ?_, ?_⟩
        · rw [listWrite_length, List.length_set, listWrite_length]
        · rw [List.drop_eq_nil_of_le (by
              rw [listWrite_length, List.length_set, listWrite_length]),
            List.drop_eq_nil_of_le le_rfl]
        · have t3 := listWrite_take_eq hl2 t2'
            (b.take (x.length - 1 - (natToDecBytes b.length).length))
          rw [ht] at t3
          rw [show 1 + (natToDecBytes b.length).length +
            (x.length - 1 - (natToDecBytes b.length).length) =
            x.length from by omega] at t3
          exact t3
      · rw [if_neg h2, if_neg h2]
        rw [List.take_of_length_le (show b.length ≤ x.length - 1 -
          (natToDecBytes b.length).length from by omega)]
        dsimp only
        refine ⟨rfl, by omega, ?_, ?_, ?_⟩
        · rw [listWrite_length, List.length_set, listWrite_length]
        · rw [@listWrite_drop _ b (1 + (natToDecBytes b.length).length)
              (1 + (natToDecBytes b.length).length + b.length) (by omega),
            @set_drop _ (natToDecBytes b.length).length
              (1 + (natToDecBytes b.length).length + b.length) (by omega)
              binaryLengthDelimiterByte,
            @listWrite_drop _ (natToDecBytes b.length) 0
              (1 + (natToDecBytes b.length).length + b.length) (by omega)]
        · exact listWrite_take_eq hl2 t2' b
  | text s =>
    simp only [encodeKeyInto]
    rw [← hl]
    by_cases h0 : x.length < 1
    · rw [if_pos h0, if_pos h0]
      dsimp only
      exact ⟨rfl, by omega, rfl, rfl, hx0⟩
    · rw [if_neg h0, if_neg h0]
      set sp := if o.speculative ≠ true then estimateUtf8Length s {}
        else if s.length ≤ 3 then 3
        else if 10 ≤ s.length ∧ s.length ≤ 33 then 33
        else if 100 ≤ s.length ∧ s.length ≤ 333 then 333
        else if 1000 ≤ s.length ∧ s.length ≤ 3333 then 3333
        else if 10000 ≤ s.length ∧ s.length ≤ 33333 then 33333
        else if 100000 ≤ s.length ∧ s.length ≤ 333333 then 333333
        else estimateUtf8Length s {} with hsp
      by_cases h1 : x.length < (natToDecBytes sp).length + 2
      · rw [if_pos h1, if_pos h1]
        dsimp only
        have hle : (textEncoderEncodeInto (natToDecBytes sp)
            (x.length - 1)).2.length ≤ x.length - 1 :=
          textEncoderEncodeInto_written_le (natToDecBytes sp).length
            (natToDecBytes sp) (x.length - 1) le_rfl
        refine ⟨rfl, by omega, ?_, ?_, ?_⟩
        · rw [listWrite_length, List.length_set]
        · rw [@listWrite_drop _ _ 1 ((textEncoderEncodeInto (natToDecBytes sp)
              (x.length - 1)).2.length + 1) (by omega),
            @set_drop _ 0 ((textEncoderEncodeInto (natToDecBytes sp)
              (x.length - 1)).2.length + 1) (by omega) textPrefixByte]
        · have hls : (x.set 0 textPrefixByte).length =
              (y.set 0 textPrefixByte).length := by
            rw [List.length_set, List.length_set, hl]
          have t1 : (x.set 0 textPrefixByte).take 1 =
              (y.set 0 textPrefixByte).take 1 := by
            simpa using set_take_eq hl hx0 textPrefixByte
          have t2 := listWrite_take_eq hls t1
            (textEncoderEncodeInto (natToDecBytes sp) (x.length - 1)).2
          rw [Nat.add_comm 1 ((textEncoderEncodeInto (natToDecBytes sp)
            (x.length - 1)).2.length)] at t2
          exact t2
      · rw [if_neg h1, if_neg h1]
        rw [textEncoderEncodeInto_ascii_full (natToDecBytes sp)
          (natToDecBytes_ascii sp) (x.length - 1) (by omega)]
        dsimp only
        set L := natToDecBytes sp with hLdef
        set ct := textEncoderEncodeInto s (x.length - (L.length + 2)) with hct
        have hcl : ct.2.length ≤ x.length - (L.length + 2) := by
          rw [hct]
          exact textEncoderEncodeInto_written_le s.length s _ le_rfl
        have hls : (x.set 0 textPrefixByte).length =
            (y.set 0 textPrefixByte).length := by
          rw [List.length_set, List.length_set, hl]
        have t1 : (x.set 0 textPrefixByte).take 1 =
            (y.set 0 textPrefixByte).take 1 := by
          simpa using set_take_eq hl hx0 textPrefixByte
        have t2 := listWrite_take_eq hls t1 L
        have hl1 : (listWrite (x.set 0 textPrefixByte) 1 L).length =
            (listWrite (y.set 0 textPrefixByte) 1 L).length := by
          rw [listWrite_length, listWrite_length, hls]
        have t2' : (listWrite (x.set 0 textPrefixByte) 1 L).take
              (L.length + 1) =
            (listWrite (y.set 0 textPrefixByte) 1 L).take (L.length + 1) := by
          rw [Nat.add_comm L.length 1]
          exact t2
        have t3 := set_take_eq hl1 t2' textLengthDelimiterByte
        rw [show L.length + 1 + 1 = L.length + 2 from by omega] at t3
        have hl2 : ((listWrite (x.set 0 textPrefixByte) 1 L).set
              (L.length + 1) textLengthDelimiterByte).length =
            ((listWrite (y.set 0 textPrefixByte) 1 L).set
              (L.length + 1) textLengthDelimiterByte).length := by
          rw [List.length_set, List.length_set, hl1]
        by_cases h2 : ct.1 < s.length
        · rw [if_pos h2, if_pos h2]
          dsimp only
          refine ⟨rfl, by omega, ?_, ?_, ?_⟩
          · rw [listWrite_length, List.length_set, listWrite_length,
              List.length_set]
          · rw [@listWrite_drop _ _ (L.length + 2)
                (L.length + 2 + ct.2.length) (by omega),
              @set_drop _ (L.length + 1) (L.length + 2 + ct.2.length)
                (by omega) textLengthDelimiterByte,
              @listWrite_drop _ L 1 (L.length + 2 + ct.2.length) (by omega),
              @set_drop _ 0 (L.length + 2 + ct.2.length) (by omega)
                textPrefixByte]
          · exact listWrite_take_eq hl2 t3 ct.2
        · rw [if_neg h2, if_neg h2]
          dsimp only
          have t4 := listWrite_take_eq hl2 t3 ct.2
          have hl3 : (listWrite ((listWrite (x.set 0 textPrefixByte) 1 L).set
                (L.length + 1) textLengthDelimiterByte) (L.length + 2)
                ct.2).length =
              (listWrite ((listWrite (y.set 0 textPrefixByte) 1 L).set
                (L.length + 1) textLengthDelimiterByte) (L.length + 2)
                ct.2).length := by
            rw [listWrite_length, listWrite_length, hl2]
          by_cases h3 : ct.2.length ≠ sp
          · rw [if_pos h3, if_pos h3]
            have hw2 : (textEncoderEncodeInto (natToDecBytes ct.2.length)
                (x.length - 1)).2.length ≤ ct.2.length + 1 := by
              rw [textEncoderEncodeInto_ascii (natToDecBytes ct.2.length)
                (natToDecBytes_ascii ct.2.length) (x.length - 1)]
              dsimp only
              rw [List.length_take]
              have := natToDecBytes_len_le_succ ct.2.length
              omega
            refine ⟨rfl, by omega, ?_, ?_, ?_⟩
            · rw [listWrite_length, listWrite_length, List.length_set,
                listWrite_length, List.length_set]
            · rw [@listWrite_drop _ _ 1 (L.length + 2 + ct.2.length)
                  (by omega),
                @listWrite_drop _ _ (L.length + 2)
                  (L.length + 2 + ct.2.length) (by omega),
                @set_drop _ (L.length + 1) (L.length + 2 + ct.2.length)
                  (by omega) textLengthDelimiterByte,
                @listWrite_drop _ L 1 (L.length + 2 + ct.2.length) (by omega),
                @set_drop _ 0 (L.length + 2 + ct.2.length) (by omega)
                  textPrefixByte]
            · exact listWrite_take_preserve hl3 t4 (by omega)
          · rw [if_neg h3, if_neg h3]
            refine ⟨rfl, by omega, ?_, ?_, ?_⟩
            · rw [listWrite_length, List.length_set, listWrite_length,
                List.length_set]
            · rw [@listWrite_drop _ _ (L.length + 2)
                (L.length + 2 + ct.2.length) (by omega),
                @set_drop _ (L.length + 1) (L.length + 2 + ct.2.length)
                  (by omega) textLengthDelimiterByte,
                @listWrite_drop _ L 1 (L.length + 2 + ct.2.length) (by omega),
                @set_drop _ 0 (L.length + 2 + ct.2.length) (by omega)
                  textPrefixByte]
            · exact t4

/-- Taking past a known prefix, additively. -/
theorem take_append_add (p r : Bytes) (n : Nat) :
    (p ++ r).take (p.length + n) = p ++ r.take n := by
  rw [List.take_append_eq_append_take, List.take_of_length_le (by omega),
    show p.length + n - p.length = n from by omega]

/-- Facts about splicing an encoded segment back into a buffer at a
write offset, as the list and dictionary loops of `encodeInto` do. -/
theorem splice_facts {x sub : Bytes} {tw w : Nat}
    (htw : tw ≤ x.length) (hslen : sub.length = (x.drop tw).length)
    (hsd : sub.drop w = (x.drop tw).drop w) :
    (x.take tw ++ sub).length = x.length ∧
    (x.take tw ++ sub).drop (tw + w) = x.drop (tw + w) ∧
    ∀ n, (x.take tw ++ sub).take (tw + n) = x.take tw ++ sub.take n := by
  have hptl : (x.take tw).length = tw := by rw [List.length_take]; omega
  refine ⟨?_, ?_, ?_⟩
  · rw [List.length_append, hptl, hslen, List.length_drop]
    omega
  · rw [drop_append_exact _ _ _ (by omega), hptl,
      show tw + w - tw = w from by omega, hsd, List.drop_drop]
  · intro n
    rw [show tw + n = (x.take tw).length + n from by rw [hptl]]
    exact take_append_add _ _ n

/-- Frame and buffer-independence of the fueled encoder family: on
buffers of equal length the three encoders agree on fuel exhaustion,
on errors, and on states; in the success case the written count stays
within the buffer, bytes at or past `written` keep their prior
contents, and the written prefixes coincide. -/
theorem encodeIntoF_frame :
    ∀ fuel : Nat,
      (∀ (v : Value) (o : NonAllocEncodingOptions) (x y : Bytes),
        x.length = y.length →
        (encodeIntoF fuel v x o = none ∧ encodeIntoF fuel v y o = none) ∨
        (∃ e, encodeIntoF fuel v x o = some (.error e) ∧
          encodeIntoF fuel v y o = some (.error e)) ∨
        (∃ bx by2 st, encodeIntoF fuel v x o = some (.ok (bx, st)) ∧
          encodeIntoF fuel v y o = some (.ok (by2, st)) ∧
          st.written ≤ x.length ∧ bx.length = x.length ∧
          by2.length = y.length ∧
          bx.drop st.written = x.drop st.written ∧
          by2.drop st.written = y.drop st.written ∧
          bx.take st.written = by2.take st.written)) ∧
      (∀ (xs : List Value) (o : NonAllocEncodingOptions) (x y : Bytes)
        (tw : Nat), x.length = y.length → tw ≤ x.length →
        x.take tw = y.take tw →
        (encodeListItemsF fuel xs x tw o = none ∧
          encodeListItemsF fuel xs y tw o = none) ∨
        (∃ e, encodeListItemsF fuel xs x tw o = some (.error e) ∧
          encodeListItemsF fuel xs y tw o = some (.error e)) ∨
        (∃ bx by2 st, encodeListItemsF fuel xs x tw o = some (.ok (bx, st)) ∧
          encodeListItemsF fuel xs y tw o = some (.ok (by2, st)) ∧
          tw ≤ st.written ∧ st.written ≤ x.length ∧ bx.length = x.length ∧
          by2.length = y.length ∧
          bx.drop st.written = x.drop st.written ∧
          by2.drop st.written = y.drop st.written ∧
          bx.take st.written = by2.take st.written)) ∧
      (∀ (ts : List ((Key × Value) × Nat)) (o : NonAllocEncodingOptions)
        (x y : Bytes) (tw : Nat) (prev : Option Key),
        x.length = y.length → tw ≤ x.length →
        x.take tw = y.take tw →
        (encodeDictWalkF fuel ts x tw prev o = none ∧
          encodeDictWalkF fuel ts y tw prev o = none) ∨
        (∃ e, encodeDictWalkF fuel ts x tw prev o = some (.error e) ∧
          encodeDictWalkF fuel ts y tw prev o = some (.error e)) ∨
        (∃ bx by2 st, encodeDictWalkF fuel ts x tw prev o =
            some (.ok (bx, st)) ∧
          encodeDictWalkF fuel ts y tw prev o = some (.ok (by2, st)) ∧
          tw ≤ st.written ∧ st.written ≤ x.length ∧ bx.length = x.length ∧
          by2.length = y.length ∧
          bx.drop st.written = x.drop st.written ∧
          by2.drop st.written = y.drop st.written ∧
          bx.take st.written = by2.take st.written)) := by
  intro fuel
  induction fuel with
  | zero =>
    refine ⟨?_, ?_, ?_⟩
    · intro v o x y _
      exact .inl ⟨rfl, rfl⟩
    · intro xs o x y tw _ _ _
      exact .inl ⟨rfl, rfl⟩
    · intro ts o x y tw prev _ _ _
      exact .inl ⟨rfl, rfl⟩
  | succ fuel ih =>
    obtain ⟨ihV, ihL, ihW⟩ := ih
    refine ⟨?_, ?_, ?_⟩
    · intro v o x y hl
      have h0 : x.take 0 = y.take 0 := by
        rw [List.take_zero, List.take_zero]
      simp only [encodeIntoF]
      by_cases hb : x.length < 1
      · rw [if_pos hb, if_pos (show y.length < 1 from by omega)]
        exact .inr (.inr ⟨x, y, ⟨0, false⟩, rfl, rfl, Nat.zero_le x.length,
          rfl, rfl, rfl, rfl, rfl⟩)
      · rw [if_neg hb, if_neg (show ¬ y.length < 1 from by omega)]
        cases v with
        | nil =>
          dsimp only
          refine .inr (.inr ⟨x.set 0 nullAtomByte, y.set 0 nullAtomByte,
            ⟨1, true⟩, rfl, rfl, by exact (by omega : 1 ≤ x.length),
            by rw [List.length_set], by rw [List.length_set], ?_, ?_, ?_⟩)
          · exact @set_drop _ 0 1 (by omega) nullAtomByte
          · exact @set_drop _ 0 1 (by omega) nullAtomByte
          · simpa using set_take_eq hl h0 nullAtomByte
        | bool b =>
          dsimp only
          refine .inr (.inr ⟨x.set 0 (if b then trueAtomByte else
            falseAtomByte), y.set 0 (if b then trueAtomByte else
            falseAtomByte), ⟨1, true⟩, rfl, rfl,
            by exact (by omega : 1 ≤ x.length),
            by rw [List.length_set], by rw [List.length_set],
            ?_, ?_, ?_⟩)
          · exact @set_drop _ 0 1 (by omega) _
          · exact @set_drop _ 0 1 (by omega) _
          · simpa using set_take_eq hl h0 (if b then trueAtomByte else
              falseAtomByte)
        | text s =>
          dsimp only
          obtain ⟨hks, hkw, hkl, hkd, hkt⟩ :=
            encodeKeyInto_frame (.text s) x y o hl
          obtain ⟨_, _, hkl2, hkd2, _⟩ :=
            encodeKeyInto_frame (.text s) y x o hl.symm
          rw [← hks] at hkd2 hkt
          refine .inr (.inr ⟨(encodeKeyInto (.text s) x o).1,
            (encodeKeyInto (.text s) y o).1,
            (encodeKeyInto (.text s) x o).2, rfl, ?_, hkw, hkl, hkl2,
            hkd, hkd2, hkt⟩)
          rw [hks]
        | binary b =>
          dsimp only
          obtain ⟨hks, hkw, hkl, hkd, hkt⟩ :=
            encodeKeyInto_frame (.binary b) x y o hl
          obtain ⟨_, _, hkl2, hkd2, _⟩ :=
            encodeKeyInto_frame (.binary b) y x o hl.symm
          rw [← hks] at hkd2 hkt
          refine .inr (.inr ⟨(encodeKeyInto (.binary b) x o).1,
            (encodeKeyInto (.binary b) y o).1,
            (encodeKeyInto (.binary b) x o).2, rfl, ?_, hkw, hkl, hkl2,
            hkd, hkd2, hkt⟩)
          rw [hks]
        | int i =>
          dsimp only
          obtain ⟨hks, hkw, hkl, hkd, hkt⟩ :=
            encodeIntegerInto_frame i x y (by omega) hl
          obtain ⟨_, _, hkl2, hkd2, _⟩ :=
            encodeIntegerInto_frame i y x (by omega) hl.symm
          rw [← hks] at hkd2 hkt
          refine .inr (.inr ⟨(encodeIntegerInto i x).1,
            (encodeIntegerInto i y).1, (encodeIntegerInto i x).2, rfl, ?_,
            hkw, hkl, hkl2, hkd, hkd2, hkt⟩)
          rw [hks]
        | num =>
          dsimp only
          exact .inr (.inl ⟨.typeError, rfl, rfl⟩)
        | list xs =>
          dsimp only
          have hl' : (x.set 0 listPrefixByte).length =
              (y.set 0 listPrefixByte).length := by
            rw [List.length_set, List.length_set, hl]
          have htw' : 1 ≤ (x.set 0 listPrefixByte).length := by
            rw [List.length_set]
            omega
          have htk' : (x.set 0 listPrefixByte).take 1 =
              (y.set 0 listPrefixByte).take 1 := by
            simpa using set_take_eq hl h0 listPrefixByte
          rcases ihL xs o (x.set 0 listPrefixByte) (y.set 0 listPrefixByte)
            1 hl' htw' htk' with
            ⟨hnx, hny⟩ | ⟨e, hex, hey⟩ |
            ⟨bx, by2, st, hox, hoy, htwle, hwle, hbl, hbl2, hbdx, hbdy, hbtk⟩
          · exact .inl ⟨hnx, hny⟩
          · exact .inr (.inl ⟨e, hex, hey⟩)
          · rw [List.length_set] at hwle hbl
            rw [List.length_set] at hbl2
            refine .inr (.inr ⟨bx, by2, st, hox, hoy, hwle, hbl, hbl2,
              ?_, ?_, hbtk⟩)
            · rw [hbdx, @set_drop _ 0 st.written (by omega) listPrefixByte]
            · rw [hbdy, @set_drop _ 0 st.written (by omega) listPrefixByte]
        | dict es =>
          dsimp only
          have hl' : (x.set 0 dictionaryPrefixByte).length =
              (y.set 0 dictionaryPrefixByte).length := by
            rw [List.length_set, List.length_set, hl]
          have htw' : 1 ≤ (x.set 0 dictionaryPrefixByte).length := by
            rw [List.length_set]
            omega
          have htk' : (x.set 0 dictionaryPrefixByte).take 1 =
              (y.set 0 dictionaryPrefixByte).take 1 := by
            simpa using set_take_eq hl h0 dictionaryPrefixByte
          rcases ihW (insertionSort (entryLe o) (zipWithIndex es)) o
            (x.set 0 dictionaryPrefixByte) (y.set 0 dictionaryPrefixByte)
            1 none hl' htw' htk' with
            ⟨hnx, hny⟩ | ⟨e, hex, hey⟩ |
            ⟨bx, by2, st, hox, hoy, htwle, hwle, hbl, hbl2, hbdx, hbdy, hbtk⟩
          · exact .inl ⟨hnx, hny⟩
          · exact .inr (.inl ⟨e, hex, hey⟩)
          · rw [List.length_set] at hwle hbl
            rw [List.length_set] at hbl2
            refine .inr (.inr ⟨bx, by2, st, hox, hoy, hwle, hbl, hbl2,
              ?_, ?_, hbtk⟩)
            · rw [hbdx, @set_drop _ 0 st.written (by omega)
                dictionaryPrefixByte]
            · rw [hbdy, @set_drop _ 0 st.written (by omega)
                dictionaryPrefixByte]
    · intro xs o x y tw hl htw htk
      cases xs with
      | nil =>
        simp only [encodeListItemsF]
        by_cases hb : x.length < tw + 1
        · rw [if_pos hb, if_pos (show y.length < tw + 1 from by omega)]
          exact .inr (.inr ⟨x, y, ⟨tw, false⟩, rfl, rfl, le_rfl, htw, rfl,
            rfl, rfl, rfl, htk⟩)
        · rw [if_neg hb, if_neg (show ¬ y.length < tw + 1 from by omega)]
          refine .inr (.inr ⟨x.set tw listSuffixByte,
            y.set tw listSuffixByte, ⟨tw + 1, true⟩, rfl, rfl,
            by exact (by omega : tw ≤ tw + 1),
            by exact (by omega : tw + 1 ≤ x.length),
            ?_, ?_, ?_, ?_, ?_⟩)
          · rw [List.length_set]
          · rw [List.length_set]
          · exact @set_drop _ tw (tw + 1) (by omega) listSuffixByte
          · exact @set_drop _ tw (tw + 1) (by omega) listSuffixByte
          · exact set_take_eq hl htk listSuffixByte
      | cons item rest =>
        have hdl : (x.drop tw).length = (y.drop tw).length := by
          rw [List.length_drop, List.length_drop, hl]
        rcases ihV item o (x.drop tw) (y.drop tw) hdl with
          ⟨hnx, hny⟩ | ⟨e, hex, hey⟩ |
          ⟨sub, sub2, st, hox, hoy, hwle, hslen, hslen2, hsdx, hsdy, hstk⟩
        · refine .inl ⟨?_, ?_⟩
          · simp only [encodeListItemsF, hnx]
          · simp only [encodeListItemsF, hny]
        · refine .inr (.inl ⟨e, ?_, ?_⟩)
          · simp only [encodeListItemsF, hex]
          · simp only [encodeListItemsF, hey]
        · have hwle' : st.written ≤ x.length - tw := by
            rw [List.length_drop] at hwle
            exact hwle
          obtain ⟨hb2l, hb2d, hb2t⟩ := splice_facts htw hslen hsdx
          obtain ⟨hb2l2, hb2d2, hb2t2⟩ :=
            splice_facts (show tw ≤ y.length from by omega) hslen2 hsdy
          have htk2 : (x.take tw ++ sub).take (tw + st.written) =
              (y.take tw ++ sub2).take (tw + st.written) := by
            rw [hb2t st.written, hb2t2 st.written, htk, hstk]
          by_cases hc : st.complete = true
          · rcases ihL rest o (x.take tw ++ sub) (y.take tw ++ sub2)
              (tw + st.written) (by rw [hb2l, hb2l2, hl])
              (by rw [hb2l]; omega) htk2 with
              ⟨hnx2, hny2⟩ | ⟨e, hex2, hey2⟩ |
              ⟨bx, by2, st2, hox2, hoy2, htwle2, hwle2, hbl, hbl2, hbdx,
                hbdy, hbtk⟩
            · refine .inl ⟨?_, ?_⟩
              · simp only [encodeListItemsF, hox]
                rw [if_pos hc]
                exact hnx2
              · simp only [encodeListItemsF, hoy]
                rw [if_pos hc]
                exact hny2
            · refine .inr (.inl ⟨e, ?_, ?_⟩)
              · simp only [encodeListItemsF, hox]
                rw [if_pos hc]
                exact hex2
              · simp only [encodeListItemsF, hoy]
                rw [if_pos hc]
                exact hey2
            · rw [hb2l] at hwle2 hbl
              rw [hb2l2] at hbl2
              refine .inr (.inr ⟨bx, by2, st2, ?_, ?_, by omega, hwle2,
                hbl, hbl2, ?_, ?_, hbtk⟩)
              · simp only [encodeListItemsF, hox]
                rw [if_pos hc]
                exact hox2
              · simp only [encodeListItemsF, hoy]
                rw [if_pos hc]
                exact hoy2
              · rw [hbdx]
                exact drop_eq_of_drop_eq hb2d htwle2
              · rw [hbdy]
                exact drop_eq_of_drop_eq hb2d2 htwle2
          · refine .inr (.inr ⟨x.take tw ++ sub, y.take tw ++ sub2,
              ⟨tw + st.written, false⟩, ?_, ?_,
              (by exact Nat.le_add_right tw st.written),
              (by exact (by omega : tw + st.written ≤ x.length)),
              hb2l, hb2l2, hb2d, hb2d2, htk2⟩)
            · simp only [encodeListItemsF, hox]
              rw [if_neg hc]
            · simp only [encodeListItemsF, hoy]
              rw [if_neg hc]
    · intro ts o x y tw prev hl htw htk
      cases ts with
      | nil =>
        simp only [encodeDictWalkF]
        by_cases hb : x.length < tw + 1
        · rw [if_pos hb, if_pos (show y.length < tw + 1 from by omega)]
          exact .inr (.inr ⟨x, y, ⟨tw, false⟩, rfl, rfl, le_rfl, htw, rfl,
            rfl, rfl, rfl, htk⟩)
        · rw [if_neg hb, if_neg (show ¬ y.length < tw + 1 from by omega)]
          refine .inr (.inr ⟨x.set tw dictionarySuffixByte,
            y.set tw dictionarySuffixByte, ⟨tw + 1, true⟩, rfl, rfl,
            by exact (by omega : tw ≤ tw + 1),
            by exact (by omega : tw + 1 ≤ x.length),
            ?_, ?_, ?_, ?_, ?_⟩)
          · rw [List.length_set]
          · rw [List.length_set]
          · exact @set_drop _ tw (tw + 1) (by omega) dictionarySuffixByte
          · exact @set_drop _ tw (tw + 1) (by omega) dictionarySuffixByte
          · exact set_take_eq hl htk dictionarySuffixByte
      | cons t rest =>
        obtain ⟨⟨key, val⟩, idx⟩ := t
        simp only [encodeDictWalkF]
        by_cases hdup : (match prev with
            | some pk => areKeysEqual key pk
            | none => false) = true
        · rw [if_pos hdup, if_pos hdup]
          rcases hpol : o.onDuplicateKeys with _ | p
          · dsimp only
            exact .inr (.inl ⟨.rangeError, rfl, rfl⟩)
          · cases p with
            | error =>
              dsimp only
              exact .inr (.inl ⟨.rangeError, rfl, rfl⟩)
            | useFirst =>
              dsimp only
              exact ihW rest o x y tw prev hl htw htk
            | useLast =>
              dsimp only
              exact ihW rest o x y tw prev hl htw htk
        · rw [if_neg hdup, if_neg hdup]
          have hdl : (x.drop tw).length = (y.drop tw).length := by
            rw [List.length_drop, List.length_drop, hl]
          obtain ⟨hks, hkw, hkl, hkd, hkt⟩ :=
            encodeKeyInto_frame key (x.drop tw) (y.drop tw) o hdl
          obtain ⟨_, _, hkl2, hkd2, _⟩ :=
            encodeKeyInto_frame key (y.drop tw) (x.drop tw) o hdl.symm
          rw [← hks] at hkd2 hkt
          rw [← hks]
          have hkw' : (encodeKeyInto key (x.drop tw) o).2.written ≤
              x.length - tw := by
            rw [List.length_drop] at hkw
            exact hkw
          obtain ⟨hb2l, hb2d, hb2t⟩ := splice_facts htw hkl hkd
          obtain ⟨hb2l2, hb2d2, hb2t2⟩ :=
            splice_facts (show tw ≤ y.length from by omega) hkl2 hkd2
          have htkb2 : (x.take tw ++ (encodeKeyInto key (x.drop tw) o).1).take
                (tw + (encodeKeyInto key (x.drop tw) o).2.written) =
              (y.take tw ++ (encodeKeyInto key (y.drop tw) o).1).take
                (tw + (encodeKeyInto key (x.drop tw) o).2.written) := by
            rw [hb2t, hb2t2, htk, hkt]
          by_cases hkc : (encodeKeyInto key (x.drop tw) o).2.complete = true
          · rw [if_pos hkc, if_pos hkc]
            have hdl2 : ((x.take tw ++ (encodeKeyInto key (x.drop tw) o).1).drop
                  (tw + (encodeKeyInto key (x.drop tw) o).2.written)).length =
                ((y.take tw ++ (encodeKeyInto key (y.drop tw) o).1).drop
                  (tw + (encodeKeyInto key (x.drop tw) o).2.written)).length := by
              rw [List.length_drop, List.length_drop, hb2l, hb2l2, hl]
            rcases ihV val o
              ((x.take tw ++ (encodeKeyInto key (x.drop tw) o).1).drop
                (tw + (encodeKeyInto key (x.drop tw) o).2.written))
              ((y.take tw ++ (encodeKeyInto key (y.drop tw) o).1).drop
                (tw + (encodeKeyInto key (x.drop tw) o).2.written)) hdl2 with
              ⟨hnx, hny⟩ | ⟨e, hex, hey⟩ |
              ⟨sub, sub2, st, hox, hoy, hwle, hslen, hslen2, hsdx, hsdy, hstk⟩
            · refine .inl ⟨?_, ?_⟩
              · rw [hnx]
              · rw [hny]
            · refine .inr (.inl ⟨e, ?_, ?_⟩)
              · rw [hex]
              · rw [hey]
            · have hwle3 : st.written ≤ x.length -
                  (tw + (encodeKeyInto key (x.drop tw) o).2.written) := by
                rw [List.length_drop, hb2l] at hwle
                exact hwle
              obtain ⟨hb3l, hb3d, hb3t⟩ := splice_facts
                (show tw + (encodeKeyInto key (x.drop tw) o).2.written ≤
                  (x.take tw ++ (encodeKeyInto key (x.drop tw) o).1).length
                  from by rw [hb2l]; omega) hslen hsdx
              obtain ⟨hb3l2, hb3d2, hb3t2⟩ := splice_facts
                (show tw + (encodeKeyInto key (x.drop tw) o).2.written ≤
                  (y.take tw ++ (encodeKeyInto key (y.drop tw) o).1).length
                  from by rw [hb2l2]; omega) hslen2 hsdy
              rw [hb2l] at hb3l
              rw [hb2l2] at hb3l2
              have hb3dx : ((x.take tw ++ (encodeKeyInto key (x.drop tw) o).1).take
                    (tw + (encodeKeyInto key (x.drop tw) o).2.written) ++ sub).drop
                    (tw + (encodeKeyInto key (x.drop tw) o).2.written + st.written) =
                  x.drop
                    (tw + (encodeKeyInto key (x.drop tw) o).2.written + st.written) := by
                rw [hb3d]
                exact drop_eq_of_drop_eq hb2d (Nat.le_add_right _ _)
              have hb3dy : ((y.take tw ++ (encodeKeyInto key (y.drop tw) o).1).take
                    (tw + (encodeKeyInto key (x.drop tw) o).2.written) ++ sub2).drop
                    (tw + (encodeKeyInto key (x.drop tw) o).2.written + st.written) =
                  y.drop
                    (tw + (encodeKeyInto key (x.drop tw) o).2.written + st.written) := by
                rw [hb3d2]
                exact drop_eq_of_drop_eq hb2d2 (Nat.le_add_right _ _)
              have htkb3 : ((x.take tw ++ (encodeKeyInto key (x.drop tw) o).1).take
                    (tw + (encodeKeyInto key (x.drop tw) o).2.written) ++ sub).take
                    (tw + (encodeKeyInto key (x.drop tw) o).2.written + st.written) =
                  ((y.take tw ++ (encodeKeyInto key (y.drop tw) o).1).take
                    (tw + (encodeKeyInto key (x.drop tw) o).2.written) ++ sub2).take
                    (tw + (encodeKeyInto key (x.drop tw) o).2.written + st.written) := by
                rw [hb3t st.written, hb3t2 st.written, htkb2, hstk]
              by_cases hc : st.complete = true
              · rcases ihW rest o
                  ((x.take tw ++ (encodeKeyInto key (x.drop tw) o).1).take
                    (tw + (encodeKeyInto key (x.drop tw) o).2.written) ++ sub)
                  ((y.take tw ++ (encodeKeyInto key (y.drop tw) o).1).take
                    (tw + (encodeKeyInto key (x.drop tw) o).2.written) ++ sub2)
                  (tw + (encodeKeyInto key (x.drop tw) o).2.written + st.written)
                  (some key) (by rw [hb3l, hb3l2, hl]) (by rw [hb3l]; omega)
                  htkb3 with
                  ⟨hnx2, hny2⟩ | ⟨e, hex2, hey2⟩ |
                  ⟨bx, by2, st2, hox2, hoy2, htwle2, hwle2, hbl, hbl2, hbdx,
                    hbdy, hbtk⟩
                · refine .inl ⟨?_, ?_⟩
                  · rw [hox]
                    dsimp only
                    rw [if_pos hc]
                    exact hnx2
                  · rw [hoy]
                    dsimp only
                    rw [if_pos hc]
                    exact hny2
                · refine .inr (.inl ⟨e, ?_, ?_⟩)
                  · rw [hox]
                    dsimp only
                    rw [if_pos hc]
                    exact hex2
                  · rw [hoy]
                    dsimp only
                    rw [if_pos hc]
                    exact hey2
                · rw [hb3l] at hwle2 hbl
                  rw [hb3l2] at hbl2
                  refine .inr (.inr ⟨bx, by2, st2, ?_, ?_, by omega, hwle2,
                    hbl, hbl2, ?_, ?_, hbtk⟩)
                  · rw [hox]
                    dsimp only
                    rw [if_pos hc]
                    exact hox2
                  · rw [hoy]
                    dsimp only
                    rw [if_pos hc]
                    exact hoy2
                  · rw [hbdx]
                    exact drop_eq_of_drop_eq hb3dx htwle2
                  · rw [hbdy]
                    exact drop_eq_of_drop_eq hb3dy htwle2
              · refine .inr (.inr ⟨(x.take tw ++
                  (encodeKeyInto key (x.drop tw) o).1).take
                    (tw + (encodeKeyInto key (x.drop tw) o).2.written) ++ sub,
                  (y.take tw ++ (encodeKeyInto key (y.drop tw) o).1).take
                    (tw + (encodeKeyInto key (x.drop tw) o).2.written) ++ sub2,
                  ⟨tw + (encodeKeyInto key (x.drop tw) o).2.written +
                    st.written, false⟩, ?_, ?_,
                  (by exact (by omega : tw ≤ tw +
                    (encodeKeyInto key (x.drop tw) o).2.written + st.written)),
                  (by exact (by omega : tw +
                    (encodeKeyInto key (x.drop tw) o).2.written + st.written ≤
                    x.length)),
                  hb3l, hb3l2, hb3dx, hb3dy, htkb3⟩)
                · rw [hox]
                  dsimp only
                  rw [if_neg hc]
                · rw [hoy]
                  dsimp only
                  rw [if_neg hc]
          · rw [if_neg hkc, if_neg hkc]
            refine .inr (.inr ⟨x.take tw ++ (encodeKeyInto key (x.drop tw) o).1,
              y.take tw ++ (encodeKeyInto key (y.drop tw) o).1,
              ⟨tw + (encodeKeyInto key (x.drop tw) o).2.written, false⟩,
              rfl, rfl,
              (by exact Nat.le_add_right tw _),
              (by exact (by omega : tw +
                (encodeKeyInto key (x.drop tw) o).2.written ≤ x.length)),
              hb2l, hb2l2, hb2d, hb2d2, htkb2⟩)

/-- C8: Encoder write frame: for every value and options, on any two
buffers of equal length `encodeInto` fails with the same error, or
succeeds on both with an identical state whose `written` stays within
the buffer length, every byte at index at least `written` keeps its
prior contents, and the written prefixes of the two outputs coincide —
so the result and the bytes written do not depend on the buffer's
initial contents. -/
theorem encodeInto_write_frame (v : Value) (o : NonAllocEncodingOptions)
    (x y : Bytes) (hl : x.length = y.length) :
    (∃ e, encodeInto v x o = .error e ∧ encodeInto v y o = .error e) ∨
    (∃ bx by2 st, encodeInto v x o = .ok (bx, st) ∧
      encodeInto v y o = .ok (by2, st) ∧
      st.written ≤ x.length ∧ bx.length = x.length ∧
      by2.length = y.length ∧
      bx.drop st.written = x.drop st.written ∧
      by2.drop st.written = y.drop st.written ∧
      bx.take st.written = by2.take st.written) := by
  obtain ⟨hP, _, _⟩ := encodeIntoF_frame (valueFuel v)
  rcases hP v o x y hl with ⟨hnx, hny⟩ | ⟨e, hex, hey⟩ |
    ⟨bx, by2, st, hox, hoy, h1, h2, h3, h4, h5, h6⟩
  · refine .inr ⟨x, y, ⟨0, false⟩, ?_, ?_, Nat.zero_le _, rfl, rfl, rfl,
      rfl, ?_⟩
    · unfold encodeInto
      rw [hnx]
      rfl
    · unfold encodeInto
      rw [hny]
      rfl
    · rw [List.take_zero, List.take_zero]
  · refine .inl ⟨e, ?_, ?_⟩
    · unfold encodeInto
      rw [hex]
      rfl
    · unfold encodeInto
      rw [hey]
      rfl
  · refine .inr ⟨bx, by2, st, ?_, ?_, h1, h2, h3, h4, h5, h6⟩
    · unfold encodeInto
      rw [hox]
      rfl
    · unfold encodeInto
      rw [hoy]
      rfl

/-- Witness for C8 at a concrete input: the write frame holds for the
integer 7 encoded into two five-byte buffers with different initial
contents. -/
theorem encodeInto_write_frame_witness :
    (∃ e, encodeInto (.int 7) [0, 0, 0, 0, 0] {} = .error e ∧
      encodeInto (.int 7) [9, 9, 9, 9, 9] {} = .error e) ∨
    (∃ bx by2 st,
      encodeInto (.int 7) [0, 0, 0, 0, 0] {} = .ok (bx, st) ∧
      encodeInto (.int 7) [9, 9, 9, 9, 9] {} = .ok (by2, st) ∧
      st.written ≤ ([0, 0, 0, 0, 0] : Bytes).length ∧
      bx.length = ([0, 0, 0, 0, 0] : Bytes).length ∧
      by2.length = ([9, 9, 9, 9, 9] : Bytes).length ∧
      bx.drop st.written = ([0, 0, 0, 0, 0] : Bytes).drop st.written ∧
      by2.drop st.written = ([9, 9, 9, 9, 9] : Bytes).drop st.written ∧
      bx.take st.written = by2.take st.written) :=
  encodeInto_write_frame (.int 7) {} [0, 0, 0, 0, 0] [9, 9, 9, 9, 9]
    (by decide)

/-! ### Duplicate-key policy toolkit -/

/-- The canonical byte string does not depend on the exact fuel, as
long as the budget covers the value. -/
theorem encBytesF_irrel : ∀ fuel : Nat,
    (∀ (v : Value) (o : NonAllocEncodingOptions) (fuel2 : Nat),
      valueFuel v ≤ fuel → valueFuel v ≤ fuel2 →
      encBytesF fuel v o = encBytesF fuel2 v o) ∧
    (∀ (xs : List Value) (o : NonAllocEncodingOptions) (fuel2 : Nat),
      valueListFuel xs ≤ fuel → valueListFuel xs ≤ fuel2 →
      encBytesListF fuel xs o = encBytesListF fuel2 xs o) ∧
    (∀ (ts : List ((Key × Value) × Nat)) (prev : Option Key)
      (o : NonAllocEncodingOptions) (fuel2 : Nat),
      triplesFuel ts ≤ fuel → triplesFuel ts ≤ fuel2 →
      encBytesWalkF fuel ts prev o = encBytesWalkF fuel2 ts prev o) := by
  intro fuel
  induction fuel with
  | zero =>
    refine ⟨?_, ?_, ?_⟩
    · intro v o fuel2 h1 _
      have := valueFuel_pos v
      omega
    · intro xs o fuel2 h1 _
      cases xs <;> simp [valueListFuel] at h1
    · intro ts prev o fuel2 h1 _
      cases ts with
      | nil => simp [triplesFuel] at h1
      | cons t rest =>
        obtain ⟨⟨k, v⟩, i⟩ := t
        simp [triplesFuel] at h1
  | succ fuel ih =>
    obtain ⟨ihV, ihL, ihW⟩ := ih
    refine ⟨?_, ?_, ?_⟩
    · intro v o fuel2 h1 h2
      cases fuel2 with
      | zero =>
        have := valueFuel_pos v
        omega
      | succ f2 =>
        cases v with
        | nil => rfl
        | bool b => rfl
        | text s => rfl
        | binary b => rfl
        | int i => rfl
        | num => rfl
        | list xs =>
          simp only [encBytesF]
          rw [ihL xs o f2 (by simp [valueFuel, valueListFuel] at h1 ⊢; omega)
            (by simp [valueFuel, valueListFuel] at h2 ⊢; omega)]
        | dict es =>
          simp only [encBytesF]
          rw [ihW (insertionSort (entryLe o) (zipWithIndex es)) none o f2
            (by
              rw [triplesFuel_insertionSort, zipWithIndex,
                triplesFuel_zipWithIndexAux]
              simp [valueFuel] at h1
              omega)
            (by
              rw [triplesFuel_insertionSort, zipWithIndex,
                triplesFuel_zipWithIndexAux]
              simp [valueFuel] at h2
              omega)]
    · intro xs o fuel2 h1 h2
      cases fuel2 with
      | zero =>
        cases xs <;> simp [valueListFuel] at h2
      | succ f2 =>
        cases xs with
        | nil => rfl
        | cons x rest =>
          simp only [encBytesListF]
          simp only [valueListFuel] at h1 h2
          rw [ihV x o f2 (by omega) (by omega),
            ihL rest o f2 (by omega) (by omega)]
    · intro ts prev o fuel2 h1 h2
      cases fuel2 with
      | zero =>
        cases ts with
        | nil => simp [triplesFuel] at h2
        | cons t rest =>
          obtain ⟨⟨k, v⟩, i⟩ := t
          simp [triplesFuel] at h2
      | succ f2 =>
        cases ts with
        | nil => rfl
        | cons t rest =>
          obtain ⟨⟨k, v⟩, i⟩ := t
          simp only [encBytesWalkF]
          simp only [triplesFuel] at h1 h2
          rw [ihV v o f2 (by omega) (by omega),
            ihW rest (some k) o f2 (by omega) (by omega),
            ihW rest prev o f2 (by omega) (by omega)]

/-- Wire bytes of a selected (already deduplicated) entry sequence:
each entry contributes its key's wire form followed by its value's
canonical byte string. -/
def selBytes (o : NonAllocEncodingOptions) : List (Key × Value) → Bytes
  | [] => []
  | (k, v) :: rest =>
    encKeyBytes k ++
      (match encBytes v o with
       | .ok bs => bs
       | .error _ => []) ++ selBytes o rest

/-- The dictionary walk of the canonical encoder realizes exactly the
entry selection `walkSelect` computes: it propagates the selection's
error, and on success emits the wire bytes of the selected entries. -/
theorem walkSelect_encBytesWalkF :
    ∀ (ts : List ((Key × Value) × Nat)) (fuel : Nat) (prev : Option Key)
      (o : NonAllocEncodingOptions),
      triplesFuel ts ≤ fuel →
      (ts.all fun t => wellFormedKey t.1.1 && validValue t.1.2) = true →
      (ts.all fun t => noDupValue t.1.2) = true →
      (match walkSelect o prev ts with
       | .error e => encBytesWalkF fuel ts prev o = some (.error e)
       | .ok sel => encBytesWalkF fuel ts prev o =
           some (.ok (selBytes o sel)) : Prop) := by
  intro ts
  induction ts with
  | nil =>
    intro fuel prev o hf _ _
    cases fuel with
    | zero => simp [triplesFuel] at hf
    | succ f => simp [walkSelect, encBytesWalkF, selBytes]
  | cons t rest ih =>
    intro fuel prev o hf hvv hnd
    obtain ⟨⟨k, v⟩, i⟩ := t
    simp only [triplesFuel] at hf
    cases fuel with
    | zero => omega
    | succ f =>
      simp only [List.all_cons, Bool.and_eq_true] at hvv hnd
      obtain ⟨⟨hwfk, hval⟩, hvrest⟩ := hvv
      obtain ⟨hnv, hnrest⟩ := hnd
      simp only [walkSelect, encBytesWalkF]
      by_cases hdup : (match prev with
          | some pk => areKeysEqual k pk
          | none => false) = true
      · rw [if_pos hdup, if_pos hdup]
        rcases hpol : o.onDuplicateKeys with _ | p
        · dsimp only
        · cases p with
          | error => dsimp only
          | useFirst =>
            dsimp only
            exact ih f prev o (by omega) hvrest hnrest
          | useLast =>
            dsimp only
            exact ih f prev o (by omega) hvrest hnrest
      · rw [if_neg hdup, if_neg hdup]
        obtain ⟨vb, hvb, -⟩ := (encBytes_noDup_main (valueFuel v)).1 v o
          le_rfl hval hnv
        have hirr := (encBytesF_irrel f).1 v o (valueFuel v) (by omega) le_rfl
        have hvbf : encBytesF f v o = some (.ok vb) := by
          rw [hirr, hvb]
        have hB : encBytes v o = .ok vb := by
          unfold encBytes
          rw [hvb]
          rfl
        rw [hvbf]
        have hrec := ih f (some k) o (by omega) hvrest hnrest
        rcases hW : walkSelect o (some k) rest with e | sel
        · rw [hW] at hrec
          dsimp only at hrec ⊢
          rw [hrec]
        · rw [hW] at hrec
          dsimp only at hrec ⊢
          rw [hrec]
          simp only [selBytes, hB]

/-- On two text keys `compareKeys` is the lexicographic comparison of
their UTF-16 code units. -/
theorem compareKeys_text_eq (s t : Str) :
    compareKeys (.text s) (.text t) = compareUint8Arrays s t := by
  simp only [compareKeys]
  rcases compareUint8Arrays_trichotomy s t with h | h | h
  · rw [if_pos (by rw [jsStrLt_iff_compare]; exact h), h]
  · have hst : s = t := (compareUint8Arrays_eq_zero_iff s t).1 h
    subst hst
    rw [if_neg (by rw [jsStrLt_iff_compare, h]; decide), if_pos (by simp), h]
  · rw [if_neg (by rw [jsStrLt_iff_compare, h]; decide),
      if_neg (by
        intro hb
        have hst : s = t := by simpa using hb
        subst hst
        rw [(compareUint8Arrays_eq_zero_iff s s).2 rfl] at h
        exact absurd h (by decide)),
      h]

/-- `compareKeys` only returns `-1`, `0` and `1`. -/
theorem compareKeys_vals (a b : Key) :
    compareKeys a b = -1 ∨ compareKeys a b = 0 ∨ compareKeys a b = 1 := by
  cases a with
  | text s =>
    cases b with
    | text t =>
      rw [compareKeys_text_eq]
      exact compareUint8Arrays_trichotomy s t
    | binary u => simp [compareKeys]
  | binary u =>
    cases b with
    | text t => simp [compareKeys]
    | binary w => exact compareUint8Arrays_trichotomy u w

/-- `compareKeys` returns `0` exactly on equal keys. -/
theorem compareKeys_eq_zero_iff (a b : Key) :
    compareKeys a b = 0 ↔ a = b := by
  cases a with
  | text s =>
    cases b with
    | text t =>
      rw [compareKeys_text_eq, compareUint8Arrays_eq_zero_iff]
      constructor
      · intro h
        rw [h]
      · intro h
        injection h
    | binary u => simp [compareKeys]
  | binary u =>
    cases b with
    | text t => simp [compareKeys]
    | binary w =>
      simp only [compareKeys]
      rw [compareUint8Arrays_eq_zero_iff]
      constructor
      · intro h
        rw [h]
      · intro h
        injection h

/-- `compareKeys` is reflexive at `0`. -/
theorem compareKeys_self (a : Key) : compareKeys a a = 0 :=
  (compareKeys_eq_zero_iff a a).2 rfl

/-- `compareKeys` is antisymmetric under sign flip. -/
theorem compareKeys_neg (a b : Key) :
    compareKeys a b = -compareKeys b a := by
  cases a with
  | text s =>
    cases b with
    | text t =>
      rw [compareKeys_text_eq, compareKeys_text_eq]
      exact compareUint8Arrays_neg s t
    | binary u => simp [compareKeys]
  | binary u =>
    cases b with
    | text t => simp [compareKeys]
    | binary w => exact compareUint8Arrays_neg u w

/-- Strict `compareKeys` order is transitive. -/
theorem compareKeys_neg_trans (a b c : Key) (hab : compareKeys a b = -1)
    (hbc : compareKeys b c = -1) : compareKeys a c = -1 := by
  cases a with
  | text s =>
    cases b with
    | text t =>
      cases c with
      | text r =>
        rw [compareKeys_text_eq] at hab ⊢
        rw [compareKeys_text_eq] at hbc
        exact compareUint8Arrays_trans s t r hab hbc
      | binary w => simp [compareKeys] at hbc
    | binary u => simp [compareKeys] at hab
  | binary u =>
    cases b with
    | text t =>
      cases c with
      | text r => rfl
      | binary w => simp [compareKeys] at hbc
    | binary w2 =>
      cases c with
      | text r => rfl
      | binary w3 => exact compareUint8Arrays_trans u w2 w3 hab hbc

/-- A strict step followed by a weak step stays strict. -/
theorem compareKeys_neg_le_trans {a b c : Key} (h1 : compareKeys a b = -1)
    (h2 : compareKeys b c ≤ 0) : compareKeys a c = -1 := by
  rcases compareKeys_vals b c with h | h | h
  · exact compareKeys_neg_trans a b c h1 h
  · have hbc : b = c := (compareKeys_eq_zero_iff b c).1 h
    subst hbc
    exact h1
  · rw [h] at h2
    omega

/-- A weak step followed by a strict step stays strict. -/
theorem compareKeys_le_neg_trans {a b c : Key} (h1 : compareKeys a b ≤ 0)
    (h2 : compareKeys b c = -1) : compareKeys a c = -1 := by
  rcases compareKeys_vals a b with h | h | h
  · exact compareKeys_neg_trans a b c h h2
  · have hab : a = b := (compareKeys_eq_zero_iff a b).1 h
    subst hab
    exact h2
  · rw [h] at h1
    omega

/-- The weak `compareKeys` order is transitive. -/
theorem compareKeys_le_trans {a b c : Key} (hab : compareKeys a b ≤ 0)
    (hbc : compareKeys b c ≤ 0) : compareKeys a c ≤ 0 := by
  rcases compareKeys_vals a b with h | h | h
  · rw [compareKeys_neg_le_trans h hbc]
    decide
  · have h2 : a = b := (compareKeys_eq_zero_iff a b).1 h
    subst h2
    exact hbc
  · rw [h] at hab
    omega

/-- Propositional characterization of the encoder's sort order. -/
theorem entryLe_eq (o : NonAllocEncodingOptions)
    (a b : (Key × Value) × Nat) :
    entryLe o a b = true ↔
      (compareKeys a.1.1 b.1.1 = -1 ∨
       (a.1.1 = b.1.1 ∧
        ((o.onDuplicateKeys = some .useLast → b.2 ≤ a.2) ∧
         (o.onDuplicateKeys ≠ some .useLast → a.2 ≤ b.2)))) := by
  simp only [entryLe]
  by_cases h0 : compareKeys a.1.1 b.1.1 = 0
  · rw [if_pos h0]
    have hk : a.1.1 = b.1.1 := (compareKeys_eq_zero_iff _ _).1 h0
    by_cases hp : o.onDuplicateKeys = some .useLast
    · rw [if_pos hp]
      simp [decide_eq_true_eq, h0, hk, hp, compareKeys_self]
    · rw [if_neg hp]
      simp [decide_eq_true_eq, h0, hk, hp, compareKeys_self]
  · rw [if_neg h0]
    rcases compareKeys_vals a.1.1 b.1.1 with h | h | h
    · rw [h]
      constructor
      · intro _
        exact .inl rfl
      · intro _
        rfl
    · exact absurd h h0
    · rw [h]
      constructor
      · intro hfalse
        exact absurd hfalse (by decide)
      · rintro (hc | ⟨hk, -⟩)
        · exact absurd hc (by decide)
        · exact absurd ((compareKeys_eq_zero_iff _ _).2 hk) h0

/-- The encoder's sort order is total. -/
theorem entryLe_total (o : NonAllocEncodingOptions)
    (a b : (Key × Value) × Nat) :
    entryLe o a b = true ∨ entryLe o b a = true := by
  rw [entryLe_eq, entryLe_eq]
  rcases compareKeys_vals a.1.1 b.1.1 with h | h | h
  · exact .inl (.inl h)
  · have hk : a.1.1 = b.1.1 := (compareKeys_eq_zero_iff _ _).1 h
    by_cases hp : o.onDuplicateKeys = some .useLast
    · by_cases hle : b.2 ≤ a.2
      · exact .inl (.inr ⟨hk, fun _ => hle, fun hq => absurd hp hq⟩)
      · exact .inr (.inr ⟨hk.symm, fun _ => by omega, fun hq => absurd hp hq⟩)
    · by_cases hle : a.2 ≤ b.2
      · exact .inl (.inr ⟨hk, fun hq => absurd hq hp, fun _ => hle⟩)
      · exact .inr (.inr ⟨hk.symm, fun hq => absurd hq hp, fun _ => by omega⟩)
  · have h2 : compareKeys b.1.1 a.1.1 = -1 := by
      have hn := compareKeys_neg b.1.1 a.1.1
      rw [h] at hn
      omega
    exact .inr (.inl h2)

/-- The encoder's sort order is transitive. -/
theorem entryLe_trans (o : NonAllocEncodingOptions)
    (a b c : (Key × Value) × Nat) (hab : entryLe o a b = true)
    (hbc : entryLe o b c = true) : entryLe o a c = true := by
  rw [entryLe_eq] at hab hbc ⊢
  rcases hab with h1 | ⟨hk1, ht1⟩
  · rcases hbc with h2 | ⟨hk2, ht2⟩
    · exact .inl (compareKeys_neg_trans _ _ _ h1 h2)
    · exact .inl (by rw [← hk2]; exact h1)
  · rcases hbc with h2 | ⟨hk2, ht2⟩
    · exact .inl (by rw [hk1]; exact h2)
    · refine .inr ⟨hk1.trans hk2, ?_, ?_⟩
      · intro hp
        exact le_trans (ht2.1 hp) (ht1.1 hp)
      · intro hp
        exact le_trans (ht1.2 hp) (ht2.2 hp)

/-- Membership in an ordered insertion. -/
theorem mem_insertSorted {α : Type} (le : α → α → Bool) (x a : α)
    (l : List α) : a ∈ insertSorted le x l ↔ a = x ∨ a ∈ l := by
  rw [(insertSorted_perm le x l).mem_iff]
  exact List.mem_cons

/-- Ordered insertion preserves sortedness for a total transitive
order. -/
theorem insertSorted_pairwise {α : Type} (le : α → α → Bool)
    (htot : ∀ a b, le a b = true ∨ le b a = true)
    (htr : ∀ a b c, le a b = true → le b c = true → le a c = true)
    (x : α) :
    ∀ l : List α, l.Pairwise (fun a b => le a b = true) →
      (insertSorted le x l).Pairwise (fun a b => le a b = true) := by
  intro l
  induction l with
  | nil =>
    intro _
    simp [insertSorted]
  | cons y ys ih =>
    intro hl
    rw [List.pairwise_cons] at hl
    obtain ⟨hy, hys⟩ := hl
    simp only [insertSorted]
    by_cases h : le x y = true
    · rw [if_pos h]
      rw [List.pairwise_cons]
      refine ⟨?_, ?_⟩
      · intro z hz
        rcases List.mem_cons.1 hz with hz | hz
        · rw [hz]
          exact h
        · exact htr x y z h (hy z hz)
      · rw [List.pairwise_cons]
        exact ⟨hy, hys⟩
    · rw [if_neg h]
      rw [List.pairwise_cons]
      refine ⟨?_, ih hys⟩
      intro z hz
      rcases (mem_insertSorted le x z ys).1 hz with hz | hz
      · rw [hz]
        rcases htot x y with h' | h'
        · exact absurd h' h
        · exact h'
      · exact hy z hz

/-- Insertion sort sorts, for a total transitive order. -/
theorem insertionSort_pairwise {α : Type} (le : α → α → Bool)
    (htot : ∀ a b, le a b = true ∨ le b a = true)
    (htr : ∀ a b c, le a b = true → le b c = true → le a c = true) :
    ∀ l : List α, (insertionSort le l).Pairwise (fun a b => le a b = true) := by
  intro l
  induction l with
  | nil => simp [insertionSort]
  | cons x xs ih =>
    simp only [insertionSort]
    exact insertSorted_pairwise le htot htr x (insertionSort le xs) ih

/-- Key inequality as a `Bool` equation. -/
theorem areKeysEqual_eq_false_iff (a b : Key) :
    areKeysEqual a b = false ↔ a ≠ b := by
  constructor
  · intro h heq
    rw [heq, areKeysEqual_refl] at h
    cases h
  · intro hne
    rcases hb : areKeysEqual a b with _ | _
    · rfl
    · exact absurd ((areKeysEqual_iff a b).1 hb) hne

/-- Key membership as an existential. -/
theorem dictKeyMember_eq_true_iff (key : Key) :
    ∀ l : List (Key × Value), dictKeyMember key l = true ↔
      ∃ p ∈ l, areKeysEqual p.1 key = true := by
  intro l
  induction l with
  | nil => simp [dictKeyMember]
  | cons e rest ih =>
    obtain ⟨k, v⟩ := e
    simp only [dictKeyMember, Bool.or_eq_true, ih, List.mem_cons]
    constructor
    · rintro (h | ⟨p, hp, h⟩)
      · exact ⟨(k, v), .inl rfl, h⟩
      · exact ⟨p, .inr hp, h⟩
    · rintro ⟨p, hp | hp, h⟩
      · subst hp
        exact .inl h
      · exact .inr ⟨p, hp, h⟩

/-- A sort-ordered pair of entries compares weakly on keys. -/
theorem entryLe_ck_le {o : NonAllocEncodingOptions}
    {a b : (Key × Value) × Nat} (h : entryLe o a b = true) :
    compareKeys a.1.1 b.1.1 ≤ 0 := by
  rw [entryLe_eq] at h
  rcases h with h | ⟨hk, -⟩
  · rw [h]
    decide
  · rw [(compareKeys_eq_zero_iff _ _).2 hk]

/-- Under the `error` (or unset) duplicate policy the walk selection
either fails with `RangeError` or keeps every entry. -/
theorem walkSelect_error_policy (o : NonAllocEncodingOptions)
    (hpol : o.onDuplicateKeys = none ∨ o.onDuplicateKeys = some .error) :
    ∀ (ts : List ((Key × Value) × Nat)) (prev : Option Key),
      walkSelect o prev ts = .error .rangeError ∨
      walkSelect o prev ts = .ok (ts.map (fun t => t.1)) := by
  intro ts
  induction ts with
  | nil =>
    intro prev
    exact .inr rfl
  | cons t rest ih =>
    intro prev
    obtain ⟨⟨k, v⟩, i⟩ := t
    simp only [walkSelect]
    by_cases hdup : (match prev with
        | some pk => areKeysEqual k pk
        | none => false) = true
    · rw [if_pos hdup]
      rcases hpol with hp | hp <;> rw [hp]
      · exact .inl rfl
      · exact .inl rfl
    · rw [if_neg hdup]
      rcases ih (some k) with h | h <;> rw [h]
      · exact .inl rfl
      · exact .inr rfl

/-- If the walk succeeds under the `error` (or unset) policy on a
sorted triple list, the keys were pairwise distinct. -/
theorem walkSelect_ok_distinct (o : NonAllocEncodingOptions)
    (hpol : o.onDuplicateKeys = none ∨ o.onDuplicateKeys = some .error) :
    ∀ (ts : List ((Key × Value) × Nat)) (prev : Option Key)
      (sel : List (Key × Value)),
      ts.Pairwise (fun a b => entryLe o a b = true) →
      walkSelect o prev ts = .ok sel →
      distinctKeys (ts.map (fun t => t.1)) = true := by
  intro ts
  induction ts with
  | nil =>
    intro prev sel _ _
    rfl
  | cons t rest ih =>
    intro prev sel hsort hok
    obtain ⟨⟨k, v⟩, i⟩ := t
    rw [List.pairwise_cons] at hsort
    obtain ⟨hhead, htail⟩ := hsort
    simp only [walkSelect] at hok
    have hkeep : (match walkSelect o (some k) rest with
        | Except.ok l => Except.ok ((k, v) :: l)
        | Except.error e => Except.error e) = Except.ok sel →
        distinctKeys (List.map (fun t => t.1) (((k, v), i) :: rest)) =
          true := by
      intro hok2
      rcases hW : walkSelect o (some k) rest with e | sel2
      · rw [hW] at hok2
        simp at hok2
      · have hk1 : ∀ t' ∈ rest, t'.1.1 ≠ k := by
          cases rest with
          | nil =>
            intro t' ht'
            exact absurd ht' (List.not_mem_nil t')
          | cons t1 rest' =>
            obtain ⟨⟨k1, v1⟩, i1⟩ := t1
            have hd1 : k1 ≠ k := by
              intro heq
              simp only [walkSelect] at hW
              dsimp only at hW
              rw [heq, areKeysEqual_refl] at hW
              rw [if_pos rfl] at hW
              rcases hpol with hp | hp <;> rw [hp] at hW <;> simp at hW
            have hck1 : compareKeys k k1 = -1 := by
              have hle := entryLe_ck_le (hhead ((k1, v1), i1) (by simp))
              rcases compareKeys_vals k k1 with h | h | h
              · exact h
              · exact absurd ((compareKeys_eq_zero_iff k k1).1 h).symm hd1
              · rw [h] at hle
                omega
            intro t' ht'
            rcases List.mem_cons.1 ht' with h | h
            · rw [h]
              exact hd1
            · have hle2 : compareKeys k1 t'.1.1 ≤ 0 :=
                entryLe_ck_le ((List.pairwise_cons.1 htail).1 t' h)
              have hck2 := compareKeys_neg_le_trans hck1 hle2
              intro heq
              rw [heq, compareKeys_self] at hck2
              exact absurd hck2 (by decide)
        simp only [List.map_cons, distinctKeys]
        rw [ih (some k) sel2 htail hW]
        have hmem : dictKeyMember k (rest.map (fun t => t.1)) = false := by
          rw [dictKeyMember_eq_false_iff]
          intro p hp
          rw [List.mem_map] at hp
          obtain ⟨t', ht', hpt⟩ := hp
          rw [← hpt, areKeysEqual_eq_false_iff]
          exact hk1 t' ht'
        rw [hmem]
        rfl
    cases prev with
    | none =>
      dsimp only at hok
      rw [if_neg Bool.false_ne_true] at hok
      exact hkeep hok
    | some pk =>
      dsimp only at hok
      by_cases hdup : areKeysEqual k pk = true
      · rw [if_pos hdup] at hok
        rcases hpol with hp | hp <;> rw [hp] at hok <;> simp at hok
      · rw [if_neg hdup] at hok
        exact hkeep hok

/-- Under `useFirst`/`useLast` the walk selection always succeeds. -/
theorem walkSelect_use_ok (o : NonAllocEncodingOptions)
    (hpol : o.onDuplicateKeys = some .useFirst ∨
      o.onDuplicateKeys = some .useLast) :
    ∀ (ts : List ((Key × Value) × Nat)) (prev : Option Key),
      ∃ sel, walkSelect o prev ts = .ok sel := by
  intro ts
  induction ts with
  | nil =>
    intro prev
    exact ⟨[], rfl⟩
  | cons t rest ih =>
    intro prev
    obtain ⟨⟨k, v⟩, i⟩ := t
    simp only [walkSelect]
    by_cases hdup : (match prev with
        | some pk => areKeysEqual k pk
        | none => false) = true
    · rw [if_pos hdup]
      obtain ⟨sel, hsel⟩ := ih prev
      rcases hpol with hp | hp <;> rw [hp]
      · exact ⟨sel, hsel⟩
      · exact ⟨sel, hsel⟩
    · rw [if_neg hdup]
      obtain ⟨sel, hsel⟩ := ih (some k)
      rw [hsel]
      exact ⟨(k, v) :: sel, rfl⟩

/-- Structure of a successful walk selection over a sorted triple
list: selected entries come from the input, their keys are pairwise
distinct, and no selected key equals a previous key lying weakly
below the whole input. -/
theorem walkSelect_sel_facts (o : NonAllocEncodingOptions) :
    ∀ (ts : List ((Key × Value) × Nat)) (prev : Option Key)
      (sel : List (Key × Value)),
      ts.Pairwise (fun a b => entryLe o a b = true) →
      walkSelect o prev ts = .ok sel →
      (∀ p ∈ sel, ∃ t ∈ ts, t.1 = p) ∧
      distinctKeys sel = true ∧
      (∀ pk, prev = some pk →
        (∀ t ∈ ts, compareKeys pk t.1.1 ≤ 0) →
        dictKeyMember pk sel = false) := by
  intro ts
  induction ts with
  | nil =>
    intro prev sel _ hok
    simp only [walkSelect] at hok
    injection hok with h
    subst h
    refine ⟨?_, rfl, ?_⟩
    · intro p hp
      exact absurd hp (List.not_mem_nil p)
    · intro pk _ _
      rfl
  | cons t rest ih =>
    intro prev sel hsort hok
    obtain ⟨⟨k, v⟩, i⟩ := t
    rw [List.pairwise_cons] at hsort
    obtain ⟨hhead, htail⟩ := hsort
    simp only [walkSelect] at hok
    have hkeep : (match walkSelect o (some k) rest with
        | Except.ok l => Except.ok ((k, v) :: l)
        | Except.error e => Except.error e) = Except.ok sel →
        (∀ pk, prev = some pk → areKeysEqual k pk = false) →
        ((∀ p ∈ sel, ∃ t ∈ (((k, v), i) :: rest), t.1 = p) ∧
         distinctKeys sel = true ∧
         (∀ pk, prev = some pk →
           (∀ t ∈ (((k, v), i) :: rest), compareKeys pk t.1.1 ≤ 0) →
           dictKeyMember pk sel = false)) := by
      intro hok2 hnotdup
      rcases hW : walkSelect o (some k) rest with e | sel2
      · rw [hW] at hok2
        simp at hok2
      · rw [hW] at hok2
        injection hok2 with h
        subst h
        obtain ⟨hA, hB, hC⟩ := ih (some k) sel2 htail hW
        have hck : ∀ t ∈ rest, compareKeys k t.1.1 ≤ 0 :=
          fun t ht => entryLe_ck_le (hhead t ht)
      -- selected entries, distinctness, and the previous-key bound
        refine ⟨?_, ?_, ?_⟩
        · intro p hp
          rcases List.mem_cons.1 hp with hp | hp
          · exact ⟨((k, v), i), by simp, by rw [hp]⟩
          · obtain ⟨t, ht, hpt⟩ := hA p hp
            exact ⟨t, List.mem_cons_of_mem _ ht, hpt⟩
        · simp only [distinctKeys]
          rw [hB, hC k rfl hck]
          rfl
        · intro pk hpk hle
          simp only [dictKeyMember]
          rw [hnotdup pk hpk]
          have hkpk : compareKeys pk k = -1 := by
            have h1 : compareKeys pk k ≤ 0 := hle ((k, v), i) (by simp)
            rcases compareKeys_vals pk k with h | h | h
            · exact h
            · exfalso
              have hpke := (compareKeys_eq_zero_iff pk k).1 h
              have hne := hnotdup pk hpk
              rw [areKeysEqual_eq_false_iff] at hne
              exact hne hpke.symm
            · rw [h] at h1
              omega
          have hnm : dictKeyMember pk sel2 = false := by
            rw [dictKeyMember_eq_false_iff]
            intro p hp
            obtain ⟨t, ht, hpt⟩ := hA p hp
            rw [← hpt, areKeysEqual_eq_false_iff]
            have hckt := compareKeys_neg_le_trans hkpk (hck t ht)
            intro heq
            rw [heq, compareKeys_self] at hckt
            exact absurd hckt (by decide)
          rw [hnm]
          rfl
    cases prev with
    | none =>
      dsimp only at hok
      rw [if_neg Bool.false_ne_true] at hok
      exact hkeep hok (fun pk hpk => by cases hpk)
    | some pk0 =>
      dsimp only at hok
      by_cases hdup : areKeysEqual k pk0 = true
      · rw [if_pos hdup] at hok
        rcases hpol2 : o.onDuplicateKeys with _ | p
        · rw [hpol2] at hok
          simp at hok
        · cases p with
          | error =>
            rw [hpol2] at hok
            simp at hok
          | useFirst =>
            rw [hpol2] at hok
            dsimp only at hok
            obtain ⟨hA, hB, hC⟩ := ih (some pk0) sel htail hok
            refine ⟨?_, hB, ?_⟩
            · intro p hp
              obtain ⟨t, ht, hpt⟩ := hA p hp
              exact ⟨t, List.mem_cons_of_mem _ ht, hpt⟩
            · intro pk hpk hle
              injection hpk with h
              subst h
              exact hC pk0 rfl
                (fun t ht => hle t (List.mem_cons_of_mem _ ht))
          | useLast =>
            rw [hpol2] at hok
            dsimp only at hok
            obtain ⟨hA, hB, hC⟩ := ih (some pk0) sel htail hok
            refine ⟨?_, hB, ?_⟩
            · intro p hp
              obtain ⟨t, ht, hpt⟩ := hA p hp
              exact ⟨t, List.mem_cons_of_mem _ ht, hpt⟩
            · intro pk hpk hle
              injection hpk with h
              subst h
              exact hC pk0 rfl
                (fun t ht => hle t (List.mem_cons_of_mem _ ht))
      · rw [if_neg hdup] at hok
        exact hkeep hok (fun pk hpk => by
          injection hpk with h
          subst h
          rcases hb : areKeysEqual k pk0 with _ | _
          · rfl
          · exact absurd hb hdup)

/-- A key whose first selected-order occurrence carries value `v` and
which is not blocked by the previous key ends up in the selection
with exactly that value. -/
theorem walkSelect_sel_mem (o : NonAllocEncodingOptions) :
    ∀ (ts : List ((Key × Value) × Nat)) (prev : Option Key)
      (sel : List (Key × Value)) (k : Key) (v : Value),
      walkSelect o prev ts = .ok sel →
      dictGet (ts.map (fun t => t.1)) k = some v →
      (∀ pk, prev = some pk → k ≠ pk) →
      (k, v) ∈ sel := by
  intro ts
  induction ts with
  | nil =>
    intro prev sel k v _ hget _
    simp [dictGet] at hget
  | cons t rest ih =>
    intro prev sel k v hok hget hprev
    obtain ⟨⟨k0, v0⟩, i0⟩ := t
    simp only [walkSelect] at hok
    simp only [List.map_cons, dictGet] at hget
    have hkeep : (match walkSelect o (some k0) rest with
        | Except.ok l => Except.ok ((k0, v0) :: l)
        | Except.error e => Except.error e) = Except.ok sel →
        (k, v) ∈ sel := by
      intro hok2
      rcases hW : walkSelect o (some k0) rest with e | sel2
      · rw [hW] at hok2
        simp at hok2
      · rw [hW] at hok2
        injection hok2 with h
        subst h
        by_cases hkk : areKeysEqual k0 k = true
        · rw [if_pos hkk] at hget
          injection hget with h2
          have hk0 : k0 = k := (areKeysEqual_iff k0 k).1 hkk
          exact List.mem_cons.2 (.inl (by rw [← hk0, ← h2]))
        · rw [if_neg hkk] at hget
          refine List.mem_cons_of_mem _ (ih (some k0) sel2 k v hW hget ?_)
          intro pk hpk
          injection hpk with h
          subst h
          intro heq
          exact hkk ((areKeysEqual_iff k0 k).2 heq.symm)
    cases prev with
    | none =>
      dsimp only at hok
      rw [if_neg Bool.false_ne_true] at hok
      exact hkeep hok
    | some pk0 =>
      dsimp only at hok
      by_cases hdup : areKeysEqual k0 pk0 = true
      · rw [if_pos hdup] at hok
        have hk0pk : k0 = pk0 := (areKeysEqual_iff _ _).1 hdup
        have hne : areKeysEqual k0 k = false := by
          rw [areKeysEqual_eq_false_iff]
          intro heq
          exact hprev pk0 rfl (by rw [← heq, hk0pk])
        rw [hne] at hget
        rw [if_neg Bool.false_ne_true] at hget
        rcases hpol2 : o.onDuplicateKeys with _ | p
        · rw [hpol2] at hok
          simp at hok
        · cases p with
          | error =>
            rw [hpol2] at hok
            simp at hok
          | useFirst =>
            rw [hpol2] at hok
            dsimp only at hok
            exact ih (some pk0) sel k v hok hget hprev
          | useLast =>
            rw [hpol2] at hok
            dsimp only at hok
            exact ih (some pk0) sel k v hok hget hprev
      · rw [if_neg hdup] at hok
        exact hkeep hok

/-- Dropping the indexes recovers the entry list. -/
theorem zipWithIndexAux_map_fst {α : Type} :
    ∀ (l : List α) (n : Nat),
      (zipWithIndexAux l n).map (fun t => t.1) = l := by
  intro l
  induction l with
  | nil =>
    intro n
    rfl
  | cons x xs ih =>
    intro n
    simp only [zipWithIndexAux, List.map_cons, ih]

/-- Indexes in the indexed list start at the offset. -/
theorem zipWithIndexAux_index_ge {α : Type} :
    ∀ (l : List α) (n : Nat) (t : α × Nat),
      t ∈ zipWithIndexAux l n → n ≤ t.2 := by
  intro l
  induction l with
  | nil =>
    intro n t ht
    exact absurd ht (List.not_mem_nil t)
  | cons x xs ih =>
    intro n t ht
    rcases List.mem_cons.1 ht with h | h
    · rw [h]
    · have := ih (n + 1) t h
      omega

/-- Every entry receives an index. -/
theorem mem_zip_of_mem {α : Type} :
    ∀ (l : List α) (n : Nat) (p : α), p ∈ l →
      ∃ j, (p, j) ∈ zipWithIndexAux l n := by
  intro l
  induction l with
  | nil =>
    intro n p hp
    exact absurd hp (List.not_mem_nil p)
  | cons x xs ih =>
    intro n p hp
    rcases List.mem_cons.1 hp with h | h
    · exact ⟨n, by rw [h]; exact List.mem_cons_self _ _⟩
    · obtain ⟨j, hj⟩ := ih (n + 1) p h
      exact ⟨j, List.mem_cons_of_mem _ hj⟩

/-- The entry of minimal insertion index among those with a given key
is the key's first occurrence. -/
theorem dictGet_of_min_index :
    ∀ (l : List (Key × Value)) (n : Nat) (k : Key) (v : Value) (i : Nat),
      ((k, v), i) ∈ zipWithIndexAux l n →
      (∀ (w : Value) (j : Nat), ((k, w), j) ∈ zipWithIndexAux l n → i ≤ j) →
      dictGet l k = some v := by
  intro l
  induction l with
  | nil =>
    intro n k v i hmem _
    exact absurd hmem (List.not_mem_nil _)
  | cons e rest ih =>
    intro n k v i hmem hmin
    obtain ⟨k0, v0⟩ := e
    simp only [zipWithIndexAux] at hmem hmin
    simp only [dictGet]
    by_cases hk0 : areKeysEqual k0 k = true
    · rw [if_pos hk0]
      have hkk : k0 = k := (areKeysEqual_iff _ _).1 hk0
      rcases List.mem_cons.1 hmem with h | h
      · simp only [Prod.mk.injEq] at h
        rw [h.1.2]
      · exfalso
        have hge := zipWithIndexAux_index_ge rest (n + 1) ((k, v), i) h
        have hle := hmin v0 n (by rw [hkk]; exact List.mem_cons_self _ _)
        simp at hge
        omega
    · rw [if_neg hk0]
      have hkk : k0 ≠ k := by
        intro heq
        exact hk0 ((areKeysEqual_iff _ _).2 heq)
      rcases List.mem_cons.1 hmem with h | h
      · exfalso
        simp only [Prod.mk.injEq] at h
        exact hkk h.1.1.symm
      · exact ih (n + 1) k v i h
          (fun w j hw => hmin w j (List.mem_cons_of_mem _ hw))

/-- `lastAssoc` misses exactly when no entry has the key. -/
theorem lastAssoc_eq_none_iff :
    ∀ (l : List (Key × Value)) (k : Key),
      lastAssoc l k = none ↔ ∀ p ∈ l, areKeysEqual p.1 k = false := by
  intro l
  induction l with
  | nil =>
    intro k
    simp [lastAssoc]
  | cons e rest ih =>
    intro k
    obtain ⟨k0, v0⟩ := e
    simp only [lastAssoc]
    rcases hres : lastAssoc rest k with _ | w
    · dsimp only
      by_cases hk0 : areKeysEqual k0 k = true
      · rw [if_pos hk0]
        constructor
        · intro h
          exact absurd h (by simp)
        · intro h
          have hh := h (k0, v0) (List.mem_cons_self _ _)
          rw [hk0] at hh
          cases hh
      · rw [if_neg hk0]
        constructor
        · intro _ p hp
          rcases List.mem_cons.1 hp with h | h
          · rw [h]
            rcases hb : areKeysEqual k0 k with _ | _
            · rfl
            · exact absurd hb hk0
          · exact ((ih k).1 hres) p h
        · intro _
          rfl
    · dsimp only
      constructor
      · intro h
        exact absurd h (by simp)
      · intro h
        exfalso
        have hn := (ih k).2 (fun p hp => h p (List.mem_cons_of_mem _ hp))
        rw [hres] at hn
        exact absurd hn (by simp)

/-- The entry of maximal insertion index among those with a given key
is the key's last occurrence. -/
theorem lastAssoc_of_max_index :
    ∀ (l : List (Key × Value)) (n : Nat) (k : Key) (v : Value) (i : Nat),
      ((k, v), i) ∈ zipWithIndexAux l n →
      (∀ (w : Value) (j : Nat), ((k, w), j) ∈ zipWithIndexAux l n → j ≤ i) →
      lastAssoc l k = some v := by
  intro l
  induction l with
  | nil =>
    intro n k v i hmem _
    exact absurd hmem (List.not_mem_nil _)
  | cons e rest ih =>
    intro n k v i hmem hmax
    obtain ⟨k0, v0⟩ := e
    simp only [zipWithIndexAux] at hmem hmax
    simp only [lastAssoc]
    rcases List.mem_cons.1 hmem with h | h
    · simp only [Prod.mk.injEq] at h
      obtain ⟨⟨hk, hv⟩, hi⟩ := h
      have hnone : lastAssoc rest k = none := by
        rw [lastAssoc_eq_none_iff]
        intro p hp
        rw [areKeysEqual_eq_false_iff]
        intro heq
        obtain ⟨j, hj⟩ := mem_zip_of_mem rest (n + 1) p hp
        have hle := hmax p.2 j
          (by rw [← heq]; exact List.mem_cons_of_mem _ hj)
        have hge := zipWithIndexAux_index_ge rest (n + 1) (p, j) hj
        simp at hge
        omega
      rw [hnone]
      dsimp only
      rw [if_pos ((areKeysEqual_iff k0 k).2 hk.symm), hv]
    · have hrec := ih (n + 1) k v i h
        (fun w j hw => hmax w j (List.mem_cons_of_mem _ hw))
      rw [hrec]

/-- In a sorted triple list, the first entry carrying a key is
tie-extremal among all entries with that key: of minimal insertion
index normally and of maximal insertion index under `useLast`. -/
theorem dictGet_sorted_bound (o : NonAllocEncodingOptions) :
    ∀ (ts : List ((Key × Value) × Nat)) (k : Key) (v : Value),
      ts.Pairwise (fun a b => entryLe o a b = true) →
      dictGet (ts.map (fun t => t.1)) k = some v →
      ∃ i, ((k, v), i) ∈ ts ∧
        ∀ (w : Value) (j : Nat), ((k, w), j) ∈ ts →
          (if o.onDuplicateKeys = some .useLast then j ≤ i else i ≤ j) := by
  intro ts
  induction ts with
  | nil =>
    intro k v _ hget
    simp [dictGet] at hget
  | cons t rest ih =>
    intro k v hsort hget
    obtain ⟨⟨k0, v0⟩, i0⟩ := t
    rw [List.pairwise_cons] at hsort
    obtain ⟨hhead, htail⟩ := hsort
    simp only [List.map_cons, dictGet] at hget
    by_cases hk0 : areKeysEqual k0 k = true
    · rw [if_pos hk0] at hget
      injection hget with hv
      have hkk : k0 = k := (areKeysEqual_iff _ _).1 hk0
      refine ⟨i0, ?_, ?_⟩
      · rw [← hkk, ← hv]
        exact List.mem_cons_self _ _
      · intro w j hw
        rcases List.mem_cons.1 hw with h | h
        · simp only [Prod.mk.injEq] at h
          rw [h.2]
          by_cases hp : o.onDuplicateKeys = some .useLast
          · rw [if_pos hp]
          · rw [if_neg hp]
        · have hle := hhead ((k, w), j) h
          rw [entryLe_eq] at hle
          rcases hle with hc | ⟨-, ht1, ht2⟩
          · exfalso
            dsimp only at hc
            rw [hkk, compareKeys_self] at hc
            exact absurd hc (by decide)
          · by_cases hp : o.onDuplicateKeys = some .useLast
            · rw [if_pos hp]
              exact ht1 hp
            · rw [if_neg hp]
              exact ht2 hp
    · rw [if_neg hk0] at hget
      obtain ⟨i, hmem, hbound⟩ := ih k v htail hget
      refine ⟨i, List.mem_cons_of_mem _ hmem, ?_⟩
      intro w j hw
      rcases List.mem_cons.1 hw with h | h
      · exfalso
        simp only [Prod.mk.injEq] at h
        exact hk0 ((areKeysEqual_iff _ _).2 h.1.1.symm)
      · exact hbound w j h

/-- `dictGet` misses exactly when no entry has the key. -/
theorem dictGet_eq_none_iff :
    ∀ (l : List (Key × Value)) (k : Key),
      dictGet l k = none ↔ ∀ p ∈ l, areKeysEqual p.1 k = false := by
  intro l
  induction l with
  | nil =>
    intro k
    simp [dictGet]
  | cons e rest ih =>
    intro k
    obtain ⟨k0, v0⟩ := e
    simp only [dictGet]
    by_cases hk0 : areKeysEqual k0 k = true
    · rw [if_pos hk0]
      constructor
      · intro h
        exact absurd h (by simp)
      · intro h
        have hh := h (k0, v0) (List.mem_cons_self _ _)
        rw [hk0] at hh
        cases hh
    · rw [if_neg hk0]
      constructor
      · intro h p hp
        rcases List.mem_cons.1 hp with hp | hp
        · rw [hp]
          rcases hb : areKeysEqual k0 k with _ | _
          · rfl
          · exact absurd hb hk0
        · exact (ih k).1 h p hp
      · intro h
        exact (ih k).2 (fun p hp => h p (List.mem_cons_of_mem _ hp))

/-- The canonical bytes of a dictionary are the wrapped result of the
fueled entry walk over the sorted triples. -/
theorem encBytes_dict_arm (es : List (Key × Value))
    (o : NonAllocEncodingOptions) :
    encBytes (.dict es) o =
      (match encBytesWalkF (valueEntriesFuel es)
          (insertionSort (entryLe o) (zipWithIndex es)) none o with
       | none => .ok []
       | some (.error e) => .error e
       | some (.ok bs) =>
         .ok (dictionaryPrefixByte :: bs ++ [dictionarySuffixByte])) := by
  unfold encBytes
  have hvf : valueFuel (.dict es) = valueEntriesFuel es + 1 := by
    simp only [valueFuel]
    omega
  rw [hvf]
  simp only [encBytesF]
  rcases hW : encBytesWalkF (valueEntriesFuel es)
      (insertionSort (entryLe o) (zipWithIndex es)) none o with _ | r
  · rfl
  · rcases r with e | bs
    · rfl
    · rfl

/-- With duplicate keys and the `error` (or unset) policy the
canonical dictionary encoding throws `RangeError`. -/
theorem encBytes_dict_dup_error (es : List (Key × Value))
    (hvE : validValueEntries es = true) (hnd : noDupValueEntries es = true)
    (hdup : distinctKeys es = false) (o : NonAllocEncodingOptions)
    (hpol : o.onDuplicateKeys = none ∨ o.onDuplicateKeys = some .error) :
    encBytes (.dict es) o = .error .rangeError := by
  have hall : ((insertionSort (entryLe o) (zipWithIndex es)).all
      fun t => wellFormedKey t.1.1 && validValue t.1.2) = true := by
    rw [insertionSort_all, zipWithIndex, zipWithIndexAux_validKV]
    exact hvE
  have halln : ((insertionSort (entryLe o) (zipWithIndex es)).all
      fun t => noDupValue t.1.2) = true := by
    rw [insertionSort_all, zipWithIndex, zipWithIndexAux_noDupV]
    exact hnd
  have hfuel : triplesFuel (insertionSort (entryLe o) (zipWithIndex es)) ≤
      valueEntriesFuel es := by
    rw [triplesFuel_insertionSort, zipWithIndex, triplesFuel_zipWithIndexAux]
  have hsorted : (insertionSort (entryLe o) (zipWithIndex es)).Pairwise
      (fun a b => entryLe o a b = true) :=
    insertionSort_pairwise (entryLe o) (entryLe_total o)
      (fun a b c => entryLe_trans o a b c) (zipWithIndex es)
  have hmapperm : ((insertionSort (entryLe o) (zipWithIndex es)).map
      (fun t => t.1)).Perm es := by
    have hp := (insertionSort_perm (entryLe o) (zipWithIndex es)).map
      (fun t => t.1)
    rw [zipWithIndex, zipWithIndexAux_map_fst] at hp
    exact hp
  have hdistF : distinctKeys ((insertionSort (entryLe o)
      (zipWithIndex es)).map (fun t => t.1)) = false := by
    rcases hb : distinctKeys ((insertionSort (entryLe o)
        (zipWithIndex es)).map (fun t => t.1)) with _ | _
    · exact hb
    · exfalso
      have hp := (distinctKeys_pairwise _).1 hb
      have hsym : Symmetric (fun (a b : Key × Value) =>
          areKeysEqual a.1 b.1 = false) := by
        intro a b h
        rw [areKeysEqual_comm]
        exact h
      have hp2 := (hmapperm.pairwise_iff (fun hxy => hsym hxy)).1 hp
      rw [← distinctKeys_pairwise] at hp2
      rw [hp2] at hdup
      cases hdup
  have hwsE : walkSelect o none (insertionSort (entryLe o)
      (zipWithIndex es)) = .error .rangeError := by
    rcases walkSelect_error_policy o hpol
        (insertionSort (entryLe o) (zipWithIndex es)) none with h | h
    · exact h
    · exfalso
      have := walkSelect_ok_distinct o hpol
        (insertionSort (entryLe o) (zipWithIndex es)) none _ hsorted h
      rw [this] at hdistF
      cases hdistF
  have hbridge := walkSelect_encBytesWalkF
    (insertionSort (entryLe o) (zipWithIndex es)) (valueEntriesFuel es)
    none o hfuel hall halln
  rw [hwsE] at hbridge
  dsimp only at hbridge
  rw [encBytes_dict_arm, hbridge]

/-- With a `useFirst`/`useLast` policy the canonical dictionary
encoding succeeds on the walk-selected entries, whose keys are
pairwise distinct, which all come from the input sequence, and which
carry, for every input key, the entry of extremal insertion index. -/
theorem dict_walk_use_facts (es : List (Key × Value))
    (hvE : validValueEntries es = true) (hnd : noDupValueEntries es = true)
    (o : NonAllocEncodingOptions)
    (hpol : o.onDuplicateKeys = some .useFirst ∨
      o.onDuplicateKeys = some .useLast) :
    ∃ sel : List (Key × Value),
      walkSelect o none (insertionSort (entryLe o) (zipWithIndex es)) =
        .ok sel ∧
      encBytes (.dict es) o =
        .ok (dictionaryPrefixByte :: selBytes o sel ++
          [dictionarySuffixByte]) ∧
      distinctKeys sel = true ∧
      (∀ p ∈ sel, dictKeyMember p.1 es = true) ∧
      (∀ k, dictKeyMember k es = true →
        ∃ w, (k, w) ∈ sel ∧ ∃ i, ((k, w), i) ∈ zipWithIndexAux es 0 ∧
          ∀ (w2 : Value) (j : Nat), ((k, w2), j) ∈ zipWithIndexAux es 0 →
            (if o.onDuplicateKeys = some .useLast then j ≤ i
             else i ≤ j)) := by
  have hall : ((insertionSort (entryLe o) (zipWithIndex es)).all
      fun t => wellFormedKey t.1.1 && validValue t.1.2) = true := by
    rw [insertionSort_all, zipWithIndex, zipWithIndexAux_validKV]
    exact hvE
  have halln : ((insertionSort (entryLe o) (zipWithIndex es)).all
      fun t => noDupValue t.1.2) = true := by
    rw [insertionSort_all, zipWithIndex, zipWithIndexAux_noDupV]
    exact hnd
  have hfuel : triplesFuel (insertionSort (entryLe o) (zipWithIndex es)) ≤
      valueEntriesFuel es := by
    rw [triplesFuel_insertionSort, zipWithIndex, triplesFuel_zipWithIndexAux]
  have hsorted : (insertionSort (entryLe o) (zipWithIndex es)).Pairwise
      (fun a b => entryLe o a b = true) :=
    insertionSort_pairwise (entryLe o) (entryLe_total o)
      (fun a b c => entryLe_trans o a b c) (zipWithIndex es)
  have hperm : (insertionSort (entryLe o) (zipWithIndex es)).Perm
      (zipWithIndexAux es 0) := by
    have hp := insertionSort_perm (entryLe o) (zipWithIndex es)
    rw [zipWithIndex] at hp
    exact hp
  have hmapperm : ((insertionSort (entryLe o) (zipWithIndex es)).map
      (fun t => t.1)).Perm es := by
    have hp := (insertionSort_perm (entryLe o) (zipWithIndex es)).map
      (fun t => t.1)
    rw [zipWithIndex, zipWithIndexAux_map_fst] at hp
    exact hp
  obtain ⟨sel, hsel⟩ := walkSelect_use_ok o hpol
    (insertionSort (entryLe o) (zipWithIndex es)) none
  have hbridge := walkSelect_encBytesWalkF
    (insertionSort (entryLe o) (zipWithIndex es)) (valueEntriesFuel es)
    none o hfuel hall halln
  rw [hsel] at hbridge
  dsimp only at hbridge
  obtain ⟨hA, hB, -⟩ := walkSelect_sel_facts o
    (insertionSort (entryLe o) (zipWithIndex es)) none sel hsorted hsel
  refine ⟨sel, hsel, ?_, hB, ?_, ?_⟩
  · rw [encBytes_dict_arm, hbridge]
  · intro p hp
    obtain ⟨t, ht, hpt⟩ := hA p hp
    have hts : t ∈ zipWithIndexAux es 0 := hperm.mem_iff.1 ht
    have hpe : t.1 ∈ es := mem_zipWithIndexAux t es 0 hts
    rw [dictKeyMember_eq_true_iff]
    exact ⟨p, by rw [← hpt]; exact hpe, areKeysEqual_refl p.1⟩
  · intro k hk
    have hg : ∃ v, dictGet ((insertionSort (entryLe o)
        (zipWithIndex es)).map (fun t => t.1)) k = some v := by
      rcases hgg : dictGet ((insertionSort (entryLe o)
          (zipWithIndex es)).map (fun t => t.1)) k with _ | v
      · exfalso
        rw [dictGet_eq_none_iff] at hgg
        rw [dictKeyMember_eq_true_iff] at hk
        obtain ⟨p, hp, hpk⟩ := hk
        have hpm : p ∈ (insertionSort (entryLe o)
            (zipWithIndex es)).map (fun t => t.1) :=
          hmapperm.mem_iff.2 hp
        rw [hgg p hpm] at hpk
        cases hpk
      · exact ⟨v, hgg⟩
    obtain ⟨v, hgv⟩ := hg
    have hmem := walkSelect_sel_mem o
      (insertionSort (entryLe o) (zipWithIndex es)) none sel k v hsel hgv
      (fun pk hpk => by cases hpk)
    obtain ⟨i, hti, hbound⟩ := dictGet_sorted_bound o
      (insertionSort (entryLe o) (zipWithIndex es)) k v hsorted hgv
    refine ⟨v, hmem, i, hperm.mem_iff.1 hti, ?_⟩
    intro w2 j hw
    exact hbound w2 j (hperm.mem_iff.2 hw)

/-- C5: for a dictionary whose entry sequence contains two entries
with Key-equal keys, encoding with `onDuplicateKeys` unset or
`"error"` throws a `RangeError`; with `"useFirst"` (resp. `"useLast"`)
encoding succeeds, the emitted entry selection keeps exactly one copy
of every key (pairwise-distinct keys, all from the input), and the
value emitted for a key is the value of its first-inserted
(resp. last-inserted) entry. -/
theorem encoder_duplicate_key_policy (es : List (Key × Value))
    (hv : validValue (.dict es) = true)
    (hnd : noDupValueEntries es = true)
    (hdup : distinctKeys es = false) :
    encode (.dict es) ⟨none⟩ = .error .rangeError ∧
    encode (.dict es) ⟨some .error⟩ = .error .rangeError ∧
    (∀ pol : DuplicatePolicy, pol = .useFirst ∨ pol = .useLast →
      ∃ sel : List (Key × Value),
        walkSelect ⟨some pol, true⟩ none
          (insertionSort (entryLe ⟨some pol, true⟩) (zipWithIndex es)) =
          .ok sel ∧
        encode (.dict es) ⟨some pol⟩ =
          .ok (dictionaryPrefixByte :: selBytes ⟨some pol, true⟩ sel ++
            [dictionarySuffixByte]) ∧
        distinctKeys sel = true ∧
        (∀ p ∈ sel, dictKeyMember p.1 es = true) ∧
        (∀ k, dictKeyMember k es = true →
          ∃ w, (k, w) ∈ sel ∧
            (if pol = .useFirst then dictGet es k = some w
             else lastAssoc es k = some w))) := by
  have hvE : validValueEntries es = true := hv
  refine ⟨?_, ?_, ?_⟩
  · have hE := encBytes_dict_dup_error es hvE hnd hdup ⟨none, true⟩
      (.inl rfl)
    have h := encode_eq (.dict es) none hv
    rw [hE] at h
    exact h
  · have hE := encBytes_dict_dup_error es hvE hnd hdup ⟨some .error, true⟩
      (.inr rfl)
    have h := encode_eq (.dict es) (some .error) hv
    rw [hE] at h
    exact h
  · intro pol hpol
    have hpol' : (⟨some pol, true⟩ :
          NonAllocEncodingOptions).onDuplicateKeys = some .useFirst ∨
        (⟨some pol, true⟩ :
          NonAllocEncodingOptions).onDuplicateKeys = some .useLast := by
      rcases hpol with h | h <;> rw [h]
      · exact .inl rfl
      · exact .inr rfl
    obtain ⟨sel, hsel, hEB, hdist, hmem, hcov⟩ :=
      dict_walk_use_facts es hvE hnd ⟨some pol, true⟩ hpol'
    refine ⟨sel, hsel, ?_, hdist, hmem, ?_⟩
    · have h := encode_eq (.dict es) (some pol) hv
      rw [hEB] at h
      exact h.2
    · intro k hk
      obtain ⟨w, hwmem, i, hzi, hbound⟩ := hcov k hk
      refine ⟨w, hwmem, ?_⟩
      rcases hpol with h | h
      · subst h
        rw [if_pos rfl]
        refine dictGet_of_min_index es 0 k w i hzi ?_
        intro w2 j hw2
        have hb := hbound w2 j hw2
        rw [if_neg (by simp)] at hb
        exact hb
      · subst h
        rw [if_neg (by simp)]
        refine lastAssoc_of_max_index es 0 k w i hzi ?_
        intro w2 j hw2
        have hb := hbound w2 j hw2
        rw [if_pos rfl] at hb
        exact hb

/-- Witness for C5 at a concrete input: the dictionary with the text
key `"a"` bound twice, to the integers 1 and 2. -/
theorem encoder_duplicate_key_policy_witness :
    encode (.dict [(Key.text [97], Value.int 1),
        (Key.text [97], Value.int 2)]) ⟨none⟩ = .error .rangeError ∧
    encode (.dict [(Key.text [97], Value.int 1),
        (Key.text [97], Value.int 2)]) ⟨some .error⟩ =
      .error .rangeError ∧
    (∀ pol : DuplicatePolicy, pol = .useFirst ∨ pol = .useLast →
      ∃ sel : List (Key × Value),
        walkSelect ⟨some pol, true⟩ none
          (insertionSort (entryLe ⟨some pol, true⟩)
            (zipWithIndex [(Key.text [97], Value.int 1),
              (Key.text [97], Value.int 2)])) = .ok sel ∧
        encode (.dict [(Key.text [97], Value.int 1),
            (Key.text [97], Value.int 2)]) ⟨some pol⟩ =
          .ok (dictionaryPrefixByte :: selBytes ⟨some pol, true⟩ sel ++
            [dictionarySuffixByte]) ∧
        distinctKeys sel = true ∧
        (∀ p ∈ sel, dictKeyMember p.1
          [(Key.text [97], Value.int 1), (Key.text [97], Value.int 2)] =
            true) ∧
        (∀ k, dictKeyMember k
            [(Key.text [97], Value.int 1), (Key.text [97], Value.int 2)] =
              true →
          ∃ w, (k, w) ∈ sel ∧
            (if pol = .useFirst then
              dictGet [(Key.text [97], Value.int 1),
                (Key.text [97], Value.int 2)] k = some w
             else lastAssoc [(Key.text [97], Value.int 1),
                (Key.text [97], Value.int 2)] k = some w))) :=
  encoder_duplicate_key_policy
    [(Key.text [97], Value.int 1), (Key.text [97], Value.int 2)]
    (by decide) (by decide) (by decide)

/-- C9: the buckets of `BencodexDictionary` are plain `{}` records,
so the `Object.prototype` chain leaks into the membership test and
the property read the class uses.  Built from the single pair
`("constructor", 1)` the dictionary reports `size = 0` although the
sequence has one distinct key (the inherited `constructor` makes the
overwrite check fire); the empty dictionary answers
`has("toString") = true` although no pair exists; and its
`get("toString")` yields the inherited `Object.prototype.toString`
member instead of no value — refuting the claimed construction
semantics. -/
theorem bencodexDictionary_prototype_leak :
    (BencodexDictionary.ofEntries
        [(Key.text strConstructor, Value.int 1)]).size = 0 ∧
    dictSize [(Key.text strConstructor, Value.int 1)] = 1 ∧
    (BencodexDictionary.ofEntries []).has (Key.text strToString) = true ∧
    dictKeyMember (Key.text strToString) [] = false ∧
    (BencodexDictionary.ofEntries []).get (Key.text strToString) =
      JsProp.inherited :=
  ⟨rfl, rfl, rfl, rfl, rfl⟩

/-- C1: the round trip drops a dictionary entry whose text key is the
inherited accessor name `__proto__`.  The valid, duplicate-free
one-entry dictionary encodes to the bytes `du9:__proto__i1ee`, but
decoding them stores the pair into a plain `{}` record, where the
`__proto__` assignment reaches the inherited setter and creates no
property: the decoded dictionary is empty and compares unequal to
the input under `areValuesEqual` — refuting the round-trip claim. -/
theorem round_trip_prototype_loss :
    validValue (.dict [(Key.text strUnderscoreProto, Value.int 1)]) = true ∧
    noDupValue (.dict [(Key.text strUnderscoreProto, Value.int 1)]) = true ∧
    encode (.dict [(Key.text strUnderscoreProto, Value.int 1)]) {} =
      .ok [0x64, 0x75, 0x39, 0x3a,
        0x5f, 0x5f, 0x70, 0x72, 0x6f, 0x74, 0x6f, 0x5f, 0x5f,
        0x69, 0x31, 0x65, 0x65] ∧
    decode [0x64, 0x75, 0x39, 0x3a,
        0x5f, 0x5f, 0x70, 0x72, 0x6f, 0x74, 0x6f, 0x5f, 0x5f,
        0x69, 0x31, 0x65, 0x65] {} = .ok (.dict []) ∧
    areValuesEqual (.dict [])
      (.dict [(Key.text strUnderscoreProto, Value.int 1)]) = false :=
  ⟨rfl, rfl, rfl, rfl, rfl⟩

end Bencodex
